import Mathlib

/-!
# marketflow: aggregation workers, the cache client and the persistence sink

A shallow embedding of `internal/worker/fanout.go` (the per-exchange worker
shard with its per-symbol aggregation buckets), of
`internal/adapters/cache/redis.go` (the RESP writer and reader, the connection
pool with its health sweep, `AddPrice` and `GetLatestPrice`), of
`internal/domain/state.go` (the mode controller) and of
`internal/adapters/storage` (the batching sink and its two insert functions),
followed by the properties proved about them.

Conventions of the embedding.

* Go `float64` values are modelled by `F64`: a finite value is an integer
  multiple `k` of the smallest subnormal `2^-1074`, and every arithmetic
  operation rounds its exact result to nearest, ties to even, with 53
  significant bits, overflowing to an infinity.  The two zeros are identified:
  Go compares them equal and the embedded code never divides by zero.
* A buffered channel is the list of queued items together with its capacity;
  a send under `select` with a `default` branch succeeds exactly when the
  buffer has room.
* A shard is a state machine.  One step is one iteration of a worker's loop,
  one firing of the flush ticker, or one receive by a consumer of a queue.  The
  bucket updates of the ten workers and of the ticker are serialised by
  `statsMu`, and a worker's sends touch nothing but the two queues and the log,
  so the steps are taken one at a time, in the order in which the lock is
  acquired.  That order is not the order in which the ticks arrive: `WorkerPool`
  takes the iteration of a worker apart into the receive from `in`, the two
  sends and the bucket update, and lets the ten workers interleave.
* `time.Now()` is an input of the step that reads it, and the order in which
  Go visits the keys of the map `stats` is an input of the flush.
* Go strings are byte strings, and the RESP reader runs on the bytes that the
  connection still delivers before it ends or times out.
* The sink and the connection pool are state machines as well; the outcome of
  a database call, of a PING and of `createConnection` is an input, and a loop
  with a bound that the code re-reads is run with fuel that is proved
  sufficient.
* A call of `execCommand` is its result (the reply strings or an error)
  together with the change of state of the server.  The server used for the
  round trip of a price is a store with sorted-set semantics, which is not part
  of the repository.
-/

namespace Marketflow

/-! ## binary64 arithmetic -/

/-- Number of binary digits of `n`, for `n < 2 ^ 2 ^ m`: the upper half of the
`2 ^ m` candidate digits is examined first. -/
def bitLenAux : Nat → Nat → Nat
  | 0, n => if n = 0 then 0 else 1
  | m + 1, n =>
      if n < 2 ^ 2 ^ m then bitLenAux m n else 2 ^ m + bitLenAux m (n / 2 ^ 2 ^ m)

/-- The least `m` from the given one on with `n < 2 ^ 2 ^ m`, found within
`fuel` steps. -/
def bitLevels : Nat → Nat → Nat → Nat
  | 0, m, _ => m
  | fuel + 1, m, n => if n < 2 ^ 2 ^ m then m else bitLevels fuel (m + 1) n

/-- Number of binary digits of `n` (`0` for `0`). -/
def bitLen (n : Nat) : Nat := bitLenAux (bitLevels n 0 n) n

/-- The integer nearest to `a / d`, ties going to the even neighbour. -/
def rneDiv (a d : Nat) : Nat :=
  if d < 2 * (a % d) ∨ (2 * (a % d) = d ∧ (a / d) % 2 = 1) then a / d + 1 else a / d

/-- The magnitude `a / d` (in units of `2^-1074`) rounded to 53 significant
bits, ties to even.  Below `2^53` units the spacing of binary64 values is one
unit, which covers the subnormal range. -/
def roundMag (a d : Nat) : Nat :=
  rneDiv a (d * 2 ^ (bitLen (a / d) - 53)) * 2 ^ (bitLen (a / d) - 53)

/-- A Go `float64`: `fin k` is the finite value `k * 2^-1074`, `inf neg` an
infinity with its sign, `nan` a NaN. -/
inductive F64 where
  | fin (k : Int)
  | inf (neg : Bool)
  | nan
deriving DecidableEq

namespace F64

/-- The binary64 value of the exact magnitude `a / d` units with sign `neg`:
a rounded magnitude of `2^1024` (that is `2^2098` units) or more overflows. -/
def round (neg : Bool) (a d : Nat) : F64 :=
  if 2 ^ 2098 ≤ roundMag a d then inf neg
  else fin (if neg then -(roundMag a d : Int) else (roundMag a d : Int))

/-- The binary64 value of an exact integer number of units. -/
def ofUnits (k : Int) : F64 := round (decide (k < 0)) k.natAbs 1

/-- Conversion `float64(n)` of a non-negative Go `int`. -/
def ofNat (n : Nat) : F64 := round false (n * 2 ^ 1074) 1

/-- Go `x + y` on `float64`. -/
def add : F64 → F64 → F64
  | fin a, fin b => ofUnits (a + b)
  | fin _, inf s => inf s
  | inf s, fin _ => inf s
  | inf s, inf t => if s = t then inf s else nan
  | nan, _ => nan
  | _, nan => nan

/-- Go `x / y` on `float64`; a zero divisor is taken as `+0`. -/
def div : F64 → F64 → F64
  | fin a, fin b =>
      if b = 0 then (if a = 0 then nan else inf (decide (a < 0)))
      else round (decide (a < 0) != decide (b < 0)) (a.natAbs * 2 ^ 1074) b.natAbs
  | fin _, inf _ => fin 0
  | inf s, fin b => inf (s != decide (b < 0))
  | inf _, inf _ => nan
  | nan, _ => nan
  | _, nan => nan

/-- Go `x < y` on `float64`: false as soon as one side is a NaN. -/
def lt : F64 → F64 → Bool
  | fin a, fin b => decide (a < b)
  | fin _, inf s => !s
  | inf s, fin _ => s
  | inf s, inf t => s && !t
  | nan, _ => false
  | _, nan => false

/-- Go `x == y` on `float64`: a NaN is equal to nothing. -/
def eq : F64 → F64 → Bool
  | fin a, fin b => decide (a = b)
  | inf s, inf t => decide (s = t)
  | _, _ => false

/-- Go `x <= y` on `float64`. -/
def le (x y : F64) : Bool := lt x y || eq x y

/-- Go `math.IsNaN`. -/
def isNaN : F64 → Bool
  | nan => true
  | _ => false

/-- The finite values that are binary64 numbers: at most 53 significant bits
and magnitude below `2^1024`. -/
def isDouble : F64 → Bool
  | fin k => decide (k.natAbs % 2 ^ (bitLen k.natAbs - 53) = 0 ∧ k.natAbs < 2 ^ 2098)
  | _ => false

instance : LT F64 := ⟨fun x y => lt x y = true⟩
instance : LE F64 := ⟨fun x y => le x y = true⟩
instance (x y : F64) : Decidable (x < y) := inferInstanceAs (Decidable (lt x y = true))
instance (x y : F64) : Decidable (x ≤ y) := inferInstanceAs (Decidable (le x y = true))
instance : Add F64 := ⟨add⟩
instance : Div F64 := ⟨div⟩
instance : Zero F64 := ⟨fin 0⟩

end F64

/-! ## The aggregate of a bucket (`aggregateAndSend`, numeric part) -/

/-- The loop `for _, p := range prices` of `aggregateAndSend` on the running
`(min, max, sum)`. -/
def aggLoop {α : Type} [LT α] [∀ a b : α, Decidable (a < b)] [Add α] :
    List α → α × α × α → α × α × α
  | [], acc => acc
  | p :: ps, (mn, mx, sum) =>
      aggLoop ps (if p < mn then p else mn, if mx < p then p else mx, sum + p)

/-- The triple `(min, max, avg)` that `aggregateAndSend` computes; `none` is
the early return on an empty slice.  The number type and its conversion
`float64` from `int` are parameters so that the same code can be run on `F64`
and on exact arithmetic. -/
def aggregate {α : Type} [LT α] [∀ a b : α, Decidable (a < b)] [Add α] [Div α] [Zero α]
    (float64 : Nat → α) (prices : List α) : Option (α × α × α) :=
  match prices with
  | [] => none
  | p0 :: _ =>
      let r := aggLoop prices (p0, p0, 0)
      some (r.1, r.2.1, r.2.2 / float64 prices.length)

/-! ## Ticks, channels and the worker shard (`startWorkerPool`) -/

/-- The Go struct `domain.PriceUpdate`; `Typ` is its field `Type`. -/
structure PriceUpdate where
  Exchange : String
  Symbol : String
  Price : F64
  ReceivedAt : Nat
  Typ : String
  AvgPrice : F64
  MinPrice : F64
  MaxPrice : F64
deriving DecidableEq

/-- The zero value of `domain.PriceUpdate`. -/
def PriceUpdate.zero : PriceUpdate :=
  { Exchange := "", Symbol := "", Price := F64.fin 0, ReceivedAt := 0, Typ := "",
    AvgPrice := F64.fin 0, MinPrice := F64.fin 0, MaxPrice := F64.fin 0 }

/-- A buffered channel of `PriceUpdate`: its capacity and the queued items,
oldest first.  The channel is open: the shard is modelled up to the shutdown
that closes the persistence queue. -/
structure Chan where
  cap : Nat
  buf : List PriceUpdate
deriving DecidableEq

/-- The send of `select { case c <- u: default: }`: the channel after the
send, or `none` when the buffer is full and the `default` branch runs. -/
def trySend (c : Chan) (u : PriceUpdate) : Option Chan :=
  if c.buf.length < c.cap then some { c with buf := c.buf ++ [u] } else none

/-- A receive by the consumer of the channel: the oldest item leaves. -/
def Chan.recv (c : Chan) : Chan := { c with buf := c.buf.tail }

/-- The local struct `symbolStats` of `startWorkerPool` (its mutex is the
atomicity of a step). -/
structure symbolStats where
  prices : List F64
  lastUpdate : PriceUpdate
deriving DecidableEq

/-- A call of the logger: `logger.Warn` or `logger.Debug` with its message. -/
inductive LogEntry where
  | warn (msg : String)
  | debug (msg : String)
deriving DecidableEq

/-- What one call of `startWorkerPool` owns and writes to: the map `stats`
(an association list with distinct keys), the two output channels and the
log.  `emitted` is a history variable: for every aggregate built by
`aggregateAndSend`, the slice it was computed from and the aggregate, whether
or not the persistence queue then accepted it. -/
structure Shard where
  stats : List (String × symbolStats)
  toRedis : Chan
  toPG : Chan
  log : List LogEntry
  emitted : List (List F64 × PriceUpdate)

/-- Lookup `stats[sym]`. -/
def statsGet (sym : String) : List (String × symbolStats) → Option symbolStats
  | [] => none
  | (k, v) :: rest => if k = sym then some v else statsGet sym rest

/-- Assignment `stats[sym] = v`. -/
def statsSet (sym : String) (v : symbolStats) :
    List (String × symbolStats) → List (String × symbolStats)
  | [] => [(sym, v)]
  | (k, w) :: rest => if k = sym then (k, v) :: rest else (k, w) :: statsSet sym v rest

/-- The struct literal `agg` of `aggregateAndSend`; `none` on an empty slice. -/
def mkAggregate (prices : List F64) (update : PriceUpdate) (now : Nat) : Option PriceUpdate :=
  match aggregate F64.ofNat prices with
  | none => none
  | some (mn, mx, avg) =>
      some { Exchange := update.Exchange, Symbol := update.Symbol, Price := F64.fin 0,
             ReceivedAt := now, Typ := "aggregated",
             AvgPrice := avg, MinPrice := mn, MaxPrice := mx }

/-- The function `aggregateAndSend(prices, update, toPG, logger, workerID)`,
reading the clock as `now`: it touches `toPG`, the log and the history only. -/
def aggregateAndSend (prices : List F64) (update : PriceUpdate) (workerID : Int) (now : Nat)
    (s : Shard) : Shard :=
  match mkAggregate prices update now with
  | none => s
  | some agg =>
      let log1 := if 0 ≤ workerID then s.log ++ [LogEntry.debug "AGGREGATE READY"] else s.log
      match trySend s.toPG agg with
      | some c => { s with toPG := c, log := log1, emitted := s.emitted ++ [(prices, agg)] }
      | none =>
          { s with log := log1 ++ [LogEntry.warn "PG channel full, dropping aggregate"],
                   emitted := s.emitted ++ [(prices, agg)] }

/-- The non-blocking send of a tick to the cache queue. -/
def sendRedis (update : PriceUpdate) (s : Shard) : Shard :=
  match trySend s.toRedis update with
  | some c => { s with toRedis := c }
  | none => { s with log := s.log ++ [LogEntry.warn "Redis channel full, dropping update"] }

/-- The non-blocking send of a tick to the persistence queue. -/
def sendPG (update : PriceUpdate) (s : Shard) : Shard :=
  match trySend s.toPG update with
  | some c => { s with toPG := c }
  | none => { s with log := s.log ++ [LogEntry.warn "PG channel full, dropping update"] }

/-- The bucket update of a worker, under `statsMu`: append the price, record
the tick, and aggregate and reset once the bucket holds 5 prices. -/
def updateBucket (workerID : Int) (now : Nat) (update : PriceUpdate) (s : Shard) : Shard :=
  let stat := (statsGet update.Symbol s.stats).getD { prices := [], lastUpdate := PriceUpdate.zero }
  let prices := stat.prices ++ [update.Price]
  if 5 ≤ prices.length then
    let s1 := aggregateAndSend prices update workerID now s
    { s1 with stats := statsSet update.Symbol { prices := [], lastUpdate := update } s1.stats }
  else
    { s with stats := statsSet update.Symbol { prices := prices, lastUpdate := update } s.stats }

/-- One iteration of `for update := range in` in a worker of the shard for
`exchangeName`. -/
def handleTick (exchangeName : String) (workerID : Int) (now : Nat) (update : PriceUpdate)
    (s : Shard) : Shard :=
  if update.Exchange ≠ exchangeName then s
  else updateBucket workerID now update (sendPG update (sendRedis update s))

/-- The body of the flush loop for the bucket of `sym`. -/
def flushBucket (now : Nat) (s : Shard) (sym : String) : Shard :=
  match statsGet sym s.stats with
  | none => s
  | some stat =>
      if 0 < stat.prices.length then
        let s1 := aggregateAndSend stat.prices stat.lastUpdate (-1) now s
        { s1 with stats := statsSet sym { stat with prices := [] } s1.stats }
      else s

/-- One firing of the 500 ms ticker: `for _, stat := range stats`.  Go visits
the keys of a map in an unspecified order; `rank` chooses it. -/
def flushTick (rank : String → Nat) (now : Nat) (s : Shard) : Shard :=
  ((s.stats.map Prod.fst).insertionSort (fun a b => rank a ≤ rank b)).foldl (flushBucket now) s

/-- What can happen to a shard: a worker runs one iteration of its loop on a
tick, the ticker fires, or a consumer takes an item from one of the two
queues. -/
inductive Event where
  | tick (workerID : Nat) (now : Nat) (update : PriceUpdate)
  | flush (rank : String → Nat) (now : Nat)
  | recvRedis
  | recvPG

/-- One step of the shard started by `startWorkerPool(exchangeName, ...)`. -/
def step (exchangeName : String) (s : Shard) : Event → Shard
  | Event.tick w now u => handleTick exchangeName (w : Int) now u s
  | Event.flush rank now => flushTick rank now s
  | Event.recvRedis => { s with toRedis := s.toRedis.recv }
  | Event.recvPG => { s with toPG := s.toPG.recv }

/-- The shard after a sequence of events. -/
def run (exchangeName : String) (s : Shard) (evs : List Event) : Shard :=
  evs.foldl (step exchangeName) s

/-- The shard as `startWorkerPool` creates it: no bucket, on the two given
channels. -/
def Shard.init (toRedis toPG : Chan) : Shard :=
  { stats := [], toRedis := toRedis, toPG := toPG, log := [], emitted := [] }

/-! ## Observations on a shard, used to state its properties -/

/-- The prices held by the bucket of `sym` (none when there is no bucket). -/
def bucket (sym : String) (s : Shard) : List F64 :=
  match statsGet sym s.stats with
  | none => []
  | some stat => stat.prices

/-- The prices, in the order of the events, of the ticks of `evs` that belong
to the shard for exchange `X` and carry the symbol `S`.  A tick event is a whole
iteration of a worker, placed where the worker takes `statsMu`: this is the
order in which the prices are appended to the buckets, which need not be the
order in which the ticks arrived on `in` (see `WorkerPool`). -/
def ownPrices (X S : String) : List Event → List F64
  | [] => []
  | Event.tick _ _ u :: evs =>
      if u.Exchange = X ∧ u.Symbol = S then u.Price :: ownPrices X S evs else ownPrices X S evs
  | _ :: evs => ownPrices X S evs

/-- The slices of the aggregates emitted for the symbol `S`, oldest first. -/
def emittedFor (S : String) (em : List (List F64 × PriceUpdate)) : List (List F64) :=
  (em.filter (fun e => decide (e.2.Symbol = S))).map Prod.fst

/-- Every bucket records a last tick of its own symbol and of the shard's
exchange and holds at most 4 prices. -/
def BucketsOk (X : String) (s : Shard) : Prop :=
  ∀ sym stat, statsGet sym s.stats = some stat →
    stat.lastUpdate.Symbol = sym ∧ stat.lastUpdate.Exchange = X ∧ stat.prices.length ≤ 4

/-- Every recorded aggregate is of exchange `X` and is the aggregate of the
non-empty slice recorded with it. -/
def EmittedOk (X : String) (s : Shard) : Prop :=
  ∀ e ∈ s.emitted, e.1 ≠ [] ∧ e.2.Exchange = X ∧ e.2.Typ = "aggregated" ∧
    aggregate F64.ofNat e.1 = some (e.2.MinPrice, e.2.MaxPrice, e.2.AvgPrice)

/-- The aggregate a flush builds for the bucket of `sym`, if it holds a price. -/
def flushAgg (now : Nat) (s : Shard) (sym : String) : Option PriceUpdate :=
  match statsGet sym s.stats with
  | none => none
  | some stat => mkAggregate stat.prices stat.lastUpdate now

/-- The updates carried by the tick events of a sequence. -/
def tickUpdates : List Event → List PriceUpdate
  | [] => []
  | Event.tick _ _ u :: evs => u :: tickUpdates evs
  | _ :: evs => tickUpdates evs

/-- Where the queued items of `t` come from, relative to an earlier state `s`:
the history has only grown, every item of the cache queue was already queued
in `s` or is one of `ticks`, and every item of the persistence queue was
already queued in `s`, is one of `ticks`, or is an aggregate emitted since. -/
def QueueSources (s t : Shard) (ticks : List PriceUpdate) : Prop :=
  ∃ new, t.emitted = s.emitted ++ new ∧
    (∀ x ∈ t.toRedis.buf, x ∈ s.toRedis.buf ∨ x ∈ ticks) ∧
    (∀ x ∈ t.toPG.buf, x ∈ s.toPG.buf ∨ x ∈ ticks ∨ ∃ ps, (ps, x) ∈ new)

/-! ## The RESP wire protocol (`execCommand`, `readRESP`) -/

/-- A Go string or byte slice; a byte is a natural number below 256, the
functions below are defined on all naturals. -/
abbrev Bytes := List Nat

/-- The decimal digits of `n`, most significant first, prepended to `acc`. -/
def decimalAux : Nat → Nat → Bytes → Bytes
  | 0, _, acc => acc
  | fuel + 1, n, acc =>
      if n < 10 then (48 + n) :: acc else decimalAux fuel (n / 10) ((48 + n % 10) :: acc)

/-- The text `fmt.Sprintf("%d", n)` of a non-negative `int`. -/
def decimal (n : Nat) : Bytes := decimalAux (n + 1) n []

/-- One bulk string of a request: `fmt.Sprintf("$%d\r\n%s\r\n", len(arg), arg)`. -/
def bulk (arg : Bytes) : Bytes := 36 :: decimal arg.length ++ [13, 10] ++ arg ++ [13, 10]

/-- The request `cmdStr` that `execCommand` writes for `cmd` and `args`. -/
def cmdStr (cmd : Bytes) (args : List Bytes) : Bytes :=
  (42 :: decimal (args.length + 1) ++ [13, 10]) ++ bulk cmd ++ (args.map bulk).flatten

/-- The bytes `'\t'`, `'\n'`, `'\v'`, `'\f'`, `'\r'` and `' '`. -/
def isAsciiSpace (b : Nat) : Bool := b = 9 || b = 10 || b = 11 || b = 12 || b = 13 || b = 32

/-- The two-byte UTF-8 encodings of white space: U+0085 and U+00A0. -/
def isSpace2 (b0 b1 : Nat) : Bool := b0 = 0xC2 && (b1 = 0x85 || b1 = 0xA0)

/-- The three-byte UTF-8 encodings of white space: U+1680, U+2000 to U+200A,
U+2028, U+2029, U+202F, U+205F and U+3000. -/
def isSpace3 (b0 b1 b2 : Nat) : Bool :=
  (b0 = 0xE1 && b1 = 0x9A && b2 = 0x80) ||
  (b0 = 0xE2 && b1 = 0x80 &&
    ((0x80 ≤ b2 && b2 ≤ 0x8A) || b2 = 0xA8 || b2 = 0xA9 || b2 = 0xAF)) ||
  (b0 = 0xE2 && b1 = 0x81 && b2 = 0x9F) ||
  (b0 = 0xE3 && b1 = 0x80 && b2 = 0x80)

/-- Remove from the front every white-space character, given the tests for
the encodings of two and of three bytes. -/
def trimLeftWith (is2 : Nat → Nat → Bool) (is3 : Nat → Nat → Nat → Bool) : Bytes → Bytes
  | [] => []
  | b0 :: t0 =>
      if isAsciiSpace b0 then trimLeftWith is2 is3 t0
      else
        match t0 with
        | [] => [b0]
        | b1 :: t1 =>
            if is2 b0 b1 then trimLeftWith is2 is3 t1
            else
              match t1 with
              | [] => [b0, b1]
              | b2 :: t2 =>
                  if is3 b0 b1 b2 then trimLeftWith is2 is3 t2 else b0 :: b1 :: b2 :: t2

/-- Remove the leading white space, as defined by Unicode. -/
def trimLeft (s : Bytes) : Bytes := trimLeftWith isSpace2 isSpace3 s

/-- Remove the trailing white space, as defined by Unicode: it is found at the
front of the reversed bytes, where every encoding reads backwards. -/
def trimRight (s : Bytes) : Bytes :=
  (trimLeftWith (fun a b => isSpace2 b a) (fun a b c => isSpace3 c b a) s.reverse).reverse

/-- Go `strings.TrimSpace` on the bytes of a string: the leading, then the
trailing white space is removed. -/
def trimSpace (s : Bytes) : Bytes := trimRight (trimLeft s)

/-- The value of a string of decimal digits. -/
def digitsVal (l : Bytes) : Nat := l.foldl (fun acc b => acc * 10 + (b - 48)) 0

/-- Go `strconv.Atoi`: an optional sign and at least one decimal digit, with a
value that fits the 64-bit `int`; `none` is an error. -/
def atoi (s : Bytes) : Option Int :=
  match s with
  | [] => none
  | c :: rest =>
      let digits := if c = 45 ∨ c = 43 then rest else s
      if digits = [] ∨ ¬ (digits.all (fun b => decide (48 ≤ b ∧ b ≤ 57)) = true) then none
      else
        let n : Int := if c = 45 then -(digitsVal digits : Int) else (digitsVal digits : Int)
        if -(2 ^ 63) ≤ n ∧ n ≤ 2 ^ 63 - 1 then some n else none

/-- Go `bufio.Reader.ReadString(delim)` on the bytes still to come: the line up
to and including the first `delim` and what follows it; `none` is the error
of a stream that ends first. -/
def readString (delim : Nat) : Bytes → Option (Bytes × Bytes)
  | [] => none
  | b :: s =>
      if b = delim then some ([b], s)
      else
        match readString delim s with
        | none => none
        | some (line, rest) => some (b :: line, rest)

/-- Go `io.ReadFull` into a buffer of `n` bytes: the bytes read and what
follows; `none` is the error of a stream that ends first. -/
def readFull (n : Nat) (s : Bytes) : Option (Bytes × Bytes) :=
  if n ≤ s.length then some (s.take n, s.drop n) else none

/-- The largest length `make([]byte, length)` accepts on a 64-bit platform
before it panics; an allocation within it is taken to succeed. -/
def maxAlloc : Nat := 2 ^ 48

/-- The errors `readRESP` returns, one for every `fmt.Errorf` of the source. -/
inductive RespError where
  | readLine
  | emptyLine
  | invalidArrayLength
  | readElementType
  | emptyElementType
  | expectedBulk (typeLine : Bytes)
  | invalidBulkLength
  | readBulk
  | invalidCRLF
  | redis (text : Bytes)
  | unknownType (c : Nat)
deriving DecidableEq

/-- What a call of `readRESP` does: it returns `(elements, nil)` where a nil
slice is `none`, it returns `(nil, err)`, or it panics. -/
inductive Reply where
  | ok (elements : Option (List Bytes))
  | err (e : RespError)
  | panic
deriving DecidableEq

/-- Go `append(elements, x)` on a possibly nil slice. -/
def appendElem (elements : Option (List Bytes)) (x : Bytes) : Option (List Bytes) :=
  match elements with
  | none => some [x]
  | some l => some (l ++ [x])

/-- The part of `readRESP` shared by a bulk string and an array element, from
the length announced in the header on: `make`, the payload, and the two
terminator bytes.  `k` continues with the payload and the rest of the stream. -/
def readPayload (length : Int) (s : Bytes) (k : Bytes → Bytes → Reply) : Reply :=
  if length < 0 ∨ (maxAlloc : Int) < length then Reply.panic
  else
    match readFull length.toNat s with
    | none => Reply.err RespError.readBulk
    | some (data, rest) =>
        match readFull 2 rest with
        | some ([13, 10], rest') => k data rest'
        | _ => Reply.err RespError.invalidCRLF

/-- The loop `for i := 0; i < count; i++` of `readRESP` with `count` iterations
left. -/
def readElements : Nat → Option (List Bytes) → Bytes → Reply
  | 0, elements, _ => Reply.ok elements
  | n + 1, elements, s =>
      match readString 10 s with
      | none => Reply.err RespError.readElementType
      | some (typeLine, rest) =>
          match trimSpace typeLine with
          | [] => Reply.err RespError.emptyElementType
          | c :: tl =>
              if c ≠ 36 then Reply.err (RespError.expectedBulk (c :: tl))
              else
                match atoi tl with
                | none => Reply.err RespError.invalidBulkLength
                | some length =>
                    if length = -1 then readElements n (appendElem elements []) rest
                    else
                      readPayload length rest
                        (fun data rest' => readElements n (appendElem elements data) rest')

/-- The function `readRESP` on the bytes still to come from the connection. -/
def readRESP (s : Bytes) : Reply :=
  match readString 10 s with
  | none => Reply.err RespError.readLine
  | some (line, rest) =>
      match trimSpace line with
      | [] => Reply.err RespError.emptyLine
      | c :: tl =>
          if c = 42 then
            match atoi tl with
            | none => Reply.err RespError.invalidArrayLength
            | some count =>
                if count = -1 then Reply.ok none
                else if count = 0 then Reply.ok (some [])
                else readElements count.toNat none rest
          else if c = 43 then Reply.ok (some [tl])
          else if c = 45 then Reply.err (RespError.redis tl)
          else if c = 58 then Reply.ok (some [tl])
          else if c = 36 then
            match atoi tl with
            | none => Reply.err RespError.invalidBulkLength
            | some length =>
                if length = -1 then Reply.ok none
                else readPayload length rest (fun data _ => Reply.ok (some [data]))
          else Reply.err (RespError.unknownType c)

/-- The stream `s` starts with a header line that the reader accepts as the
header `$L` of a bulk string, the `L` bytes of the payload follow, and they are
not immediately followed by CR LF. -/
def BadPayload (s : Bytes) : Prop :=
  ∃ line rest tl data tail, readString 10 s = some (line, rest) ∧
    trimSpace line = 36 :: tl ∧ atoi tl = some (data.length : Int) ∧
    data.length ≤ maxAlloc ∧ rest = data ++ tail ∧ ∀ t, tail ≠ 13 :: 10 :: t

/-- The ASCII bytes of a string literal. -/
def ascii (s : String) : Bytes := s.data.map Char.toNat

/-! ## Sample values -/

/-- The binary64 value nearest to the decimal `0.1`. -/
def tenth : F64 := F64.fin (3602879701896397 * 2 ^ 1019)

/-- The integer `n` as a binary64 price. -/
def price (n : Nat) : F64 := F64.fin (n * 2 ^ 1074)

/-- The binary64 value `10.5`. -/
def tenAndHalf : F64 := F64.fin (21 * 2 ^ 1073)

/-- A raw tick of `(kucoin, SOLUSDT)` at the price `10.5`. -/
def sampleTick : PriceUpdate :=
  { Exchange := "kucoin", Symbol := "SOLUSDT", Price := tenAndHalf, ReceivedAt := 0,
    Typ := "raw", AvgPrice := F64.fin 0, MinPrice := F64.fin 0, MaxPrice := F64.fin 0 }

/-- A shard holding one price for `SOLUSDT` and an empty bucket for `BTCUSDT`,
with queues of capacity 1. -/
def sampleShard : Shard :=
  { stats := [("SOLUSDT", { prices := [tenAndHalf], lastUpdate := sampleTick }),
              ("BTCUSDT", { prices := [], lastUpdate := { sampleTick with Symbol := "BTCUSDT" } })],
    toRedis := { cap := 1, buf := [] },
    toPG := { cap := 1, buf := [] },
    log := [], emitted := [] }

/-! ## The request as the protocol describes it, and the pool's ping -/

/-- The decimal numeral of `n` as the standard library writes it. -/
def decimalText (n : Nat) : Bytes := (Nat.toDigits 10 n).map Char.toNat

/-- The request for `cmd` and `args` in the words of the protocol: `*<n+1>\r\n`
followed, for `cmd` and then each argument in order, by
`$<length in decimal>\r\n<the string>\r\n`. -/
def requestSpec (cmd : Bytes) (args : List Bytes) : Bytes :=
  ascii "*" ++ decimalText (args.length + 1) ++ ascii "\r\n" ++
    ((cmd :: args).map
      (fun s => ascii "$" ++ decimalText s.length ++ ascii "\r\n" ++ s ++ ascii "\r\n")).flatten

/-- The bytes `[]byte("*1\r\n$4\r\nPING\r\n")` that `createConnection` and
`checkConnection` write. -/
def pingRequest : Bytes := ascii "*1\r\n$4\r\nPING\r\n"

/-! ## The mode controller (`internal/domain/state.go`) -/

/-- The Go type `Mode`, an `int`. -/
abbrev Mode := Int

/-- The constant `ModeLive`. -/
def ModeLive : Mode := 0

/-- The constant `ModeTest`. -/
def ModeTest : Mode := 1

/-- The struct `Manager` (its lock is the atomicity of a call). -/
structure Manager where
  current : Mode
deriving DecidableEq

/-- The constructor `NewModeManager`. -/
def NewModeManager : Manager := { current := ModeLive }

/-- The method `SetMode`: the manager after the call and the error returned,
`none` for `nil`. -/
def Manager.SetMode (m : Manager) (mode : Mode) : Manager × Option String :=
  if mode ≠ ModeLive ∧ mode ≠ ModeTest then (m, some "invalid mode")
  else ({ current := mode }, none)

/-- The method `GetMode`. -/
def Manager.GetMode (m : Manager) : Mode := m.current

/-! ## The persistence sink (`storage/batch.go`, `storage/postgres.go`)

`SaveBatchToPostgres` is a single goroutine: one pass through its `for` loop
handles one ready case of the `select`.  The calls it makes to
`insertRawBatch` and `insertAggBatch` are recorded in order, with the batch
passed.  The two insert functions are modelled by the sequence of calls they
make on the database handle, the outcome of each call being an input. -/

/-- A call of `insertRawBatch` or of `insertAggBatch` with its batch. -/
inductive Flush where
  | raw (batch : List PriceUpdate)
  | agg (batch : List PriceUpdate)
deriving DecidableEq

/-- The local variables `rawBatch` and `aggBatch` of `SaveBatchToPostgres`,
and the flush calls made so far, oldest first. -/
structure Sink where
  rawBatch : List PriceUpdate
  aggBatch : List PriceUpdate
  flushes : List Flush
deriving DecidableEq

/-- The constant `batchSize`. -/
def batchSize : Nat := 100

/-- The state in which the loop is entered: both slices are nil. -/
def Sink.init : Sink := { rawBatch := [], aggBatch := [], flushes := [] }

/-- The first `case` of the `switch update.Type`. -/
def isRawType (t : String) : Bool := t == "raw" || t == ""

/-- The second `case` of the `switch update.Type`. -/
def isAggType (t : String) : Bool :=
  t == "aggregated" || t == "min" || t == "max" || t == "avg"

/-- The `switch update.Type` of the receive case: the update is appended to
one slice, or to none when its type is none of the six listed. -/
def Sink.appendUpdate (s : Sink) (update : PriceUpdate) : Sink :=
  if isRawType update.Typ then { s with rawBatch := s.rawBatch ++ [update] }
  else if isAggType update.Typ then { s with aggBatch := s.aggBatch ++ [update] }
  else s

/-- The statement `insertRawBatch(db, rawBatch, logger); rawBatch = nil`. -/
def Sink.flushRaw (s : Sink) : Sink :=
  { s with flushes := s.flushes ++ [Flush.raw s.rawBatch], rawBatch := [] }

/-- The statement `insertAggBatch(db, aggBatch, logger); aggBatch = nil`. -/
def Sink.flushAgg (s : Sink) : Sink :=
  { s with flushes := s.flushes ++ [Flush.agg s.aggBatch], aggBatch := [] }

/-- The body of `case update := <-toPG`. -/
def Sink.onUpdate (s : Sink) (update : PriceUpdate) : Sink :=
  let s1 := s.appendUpdate update
  let s2 := if batchSize ≤ s1.rawBatch.length then s1.flushRaw else s1
  if batchSize ≤ s2.aggBatch.length then s2.flushAgg else s2

/-- The body of `case <-ticker.C`. -/
def Sink.onTicker (s : Sink) : Sink :=
  let s1 := if 0 < s.rawBatch.length then s.flushRaw else s
  if 0 < s1.aggBatch.length then s1.flushAgg else s1

/-- An event handled by one pass of the loop: an update received from `toPG`,
or a tick of the one second ticker. -/
inductive SinkEvent where
  | recv (update : PriceUpdate)
  | ticker
deriving DecidableEq

/-- One pass of the loop. -/
def sinkStep (s : Sink) : SinkEvent → Sink
  | SinkEvent.recv update => s.onUpdate update
  | SinkEvent.ticker => s.onTicker

/-- The passes of the loop over a sequence of events. -/
def sinkRun (s : Sink) (evs : List SinkEvent) : Sink := evs.foldl sinkStep s

/-- The updates received in a sequence of events, in order. -/
def received : List SinkEvent → List PriceUpdate
  | [] => []
  | SinkEvent.recv update :: evs => update :: received evs
  | SinkEvent.ticker :: evs => received evs

/-- The items passed to `insertRawBatch` so far, in order. -/
def rawFlushed : List Flush → List PriceUpdate
  | [] => []
  | Flush.raw batch :: fs => batch ++ rawFlushed fs
  | Flush.agg _ :: fs => rawFlushed fs

/-- The items passed to `insertAggBatch` so far, in order. -/
def aggFlushed : List Flush → List PriceUpdate
  | [] => []
  | Flush.raw _ :: fs => aggFlushed fs
  | Flush.agg batch :: fs => batch ++ aggFlushed fs

/-- The invariant of the sink after the events `evs`: both accumulators are below
the threshold, and the items flushed followed by the items accumulated are the
received updates of each kind, in order. -/
def SinkInv (evs : List SinkEvent) (s : Sink) : Prop :=
  s.rawBatch.length < batchSize ∧ s.aggBatch.length < batchSize ∧
    rawFlushed s.flushes ++ s.rawBatch = (received evs).filter (fun u => isRawType u.Typ) ∧
    aggFlushed s.flushes ++ s.aggBatch = (received evs).filter (fun u => isAggType u.Typ)

/-- The receive end of `toPG`: the queued updates, oldest first, and whether
`close(toPG)` has been executed. -/
structure PGQueue where
  buf : List PriceUpdate
  closed : Bool
deriving DecidableEq

/-- The receive expression `<-toPG`: the oldest queued update; on a closed and
drained channel the zero value, at once; `none` when the receive is not
ready (open and empty). -/
def PGQueue.recv (q : PGQueue) : Option (PriceUpdate × PGQueue) :=
  match q.buf with
  | update :: rest => some (update, { q with buf := rest })
  | [] => if q.closed then some (PriceUpdate.zero, q) else none

/-- The case taken by the `select` in one pass of the loop. -/
inductive Select where
  | recv
  | ticker
deriving DecidableEq

/-- One pass of `for { select { ... } }` taking the given case: the state in
which the next pass starts (the body has no `return` and no `break`); `none`
when the case is not ready. -/
def sinkPass (c : Select) (st : PGQueue × Sink) : Option (PGQueue × Sink) :=
  match c with
  | Select.recv =>
    match st.1.recv with
    | some (update, q) => some (q, st.2.onUpdate update)
    | none => none
  | Select.ticker => some (st.1, st.2.onTicker)

/-- The loop of `SaveBatchToPostgres` along a sequence of cases taken by its
`select`: the state reached, in which the loop starts its next pass. -/
def sinkLoop : List Select → PGQueue × Sink → Option (PGQueue × Sink)
  | [], st => some st
  | c :: cs, st =>
    match sinkPass c st with
    | some st1 => sinkLoop cs st1
    | none => none

/-- A call made on the database handle, the transaction or the statement.
`execAgg` and `execRaw` carry the arguments of `stmt.Exec`. -/
inductive DbCall where
  | begin
  | prepare
  | execAgg (symbol exchange : String) (receivedAt : Nat) (avg min max : F64)
  | execRaw (symbol exchange : String) (price : F64) (receivedAt : Nat)
  | rollback
  | commit
  | closeStmt
deriving DecidableEq

/-- The outcomes of the database calls of one flush: whether `db.Begin` and
`tx.Prepare` succeed, and whether the `stmt.Exec` of the row at a position of
the batch succeeds.  The outcome of `tx.Commit` only selects the line that is
logged. -/
structure DbOutcome where
  beginOk : Bool
  prepareOk : Bool
  execOk : Nat → Bool

/-- The `stmt.Exec` call of `insertAggBatch` for one update. -/
def aggExec (update : PriceUpdate) : DbCall :=
  DbCall.execAgg update.Symbol update.Exchange update.ReceivedAt update.AvgPrice
    update.MinPrice update.MaxPrice

/-- The `stmt.Exec` call of `insertRawBatch` for one update. -/
def rawExec (update : PriceUpdate) : DbCall :=
  DbCall.execRaw update.Symbol update.Exchange update.Price update.ReceivedAt

/-- The `for _, update := range batch` of `insertAggBatch` from position `i`:
the calls made, and whether the loop ran to its end (`false`: it returned
from the function after a failed `Exec`, having called `tx.Rollback`). -/
def aggRows (db : DbOutcome) : Nat → List PriceUpdate → List DbCall × Bool
  | _, [] => ([], true)
  | i, update :: rest =>
    if db.execOk i then
      ((aggExec update) :: (aggRows db (i + 1) rest).1, (aggRows db (i + 1) rest).2)
    else ([aggExec update, DbCall.rollback], false)

/-- The calls made by `insertAggBatch`, in order; the deferred `stmt.Close`
runs when the function returns. -/
def insertAggBatch (db : DbOutcome) (batch : List PriceUpdate) : List DbCall :=
  if batch.length = 0 then []
  else if !db.beginOk then [DbCall.begin]
  else if !db.prepareOk then [DbCall.begin, DbCall.prepare, DbCall.rollback]
  else
    [DbCall.begin, DbCall.prepare] ++ (aggRows db 0 batch).1 ++
      (if (aggRows db 0 batch).2 then [DbCall.commit] else []) ++ [DbCall.closeStmt]

/-- The `for _, update := range batch` of `insertRawBatch`: a failed `Exec`
is logged and the loop goes on. -/
def rawRows (batch : List PriceUpdate) : List DbCall := batch.map rawExec

/-- The calls made by `insertRawBatch`, in order; the deferred calls run when
the function returns, last deferred first: `stmt.Close`, then `tx.Commit`. -/
def insertRawBatch (db : DbOutcome) (batch : List PriceUpdate) : List DbCall :=
  if batch.length = 0 then []
  else if !db.beginOk then [DbCall.begin]
  else if !db.prepareOk then [DbCall.begin, DbCall.prepare, DbCall.commit]
  else [DbCall.begin, DbCall.prepare] ++ rawRows batch ++ [DbCall.closeStmt, DbCall.commit]

/-- The drained and closed persistence queue. -/
def closedQueue : PGQueue := { buf := [], closed := true }

/-- A second raw tick, of `(binance, BTCUSDT)`. -/
def sampleTick2 : PriceUpdate :=
  { Exchange := "binance", Symbol := "BTCUSDT", Price := tenAndHalf, ReceivedAt := 1,
    Typ := "raw", AvgPrice := F64.fin 0, MinPrice := F64.fin 0, MaxPrice := F64.fin 0 }

/-- Database outcomes in which every call succeeds but the `Exec` of the
first row of the batch. -/
def firstRowFails : DbOutcome :=
  { beginOk := true, prepareOk := true, execOk := fun i => decide (i ≠ 0) }

/-- Database outcomes in which `tx.Prepare` fails. -/
def prepareFails : DbOutcome :=
  { beginOk := true, prepareOk := false, execOk := fun _ => true }

/-! ## The connection pool of the cache client (`cache/redis.go`)

`rc.connPool` is a buffered channel of capacity `poolSize`.  `getConn` and
`putConn` do not take `rc.mu`, so they interleave with the health sweep of
`connectionManager` between any two of its channel operations: the sweep is
modelled by three steps (receive, check and replace, send back).  Connections
are numbered; the outcome of each PING and of each `createConnection` is an
input. -/

/-- A connection (`net.Conn`), identified by a number. -/
abbrev Conn := Nat

/-- Where the loop body of `connectionManager` stands: outside an iteration;
after `conn := <-rc.connPool`; before the send of a connection to the pool. -/
inductive Sweeper where
  | idle
  | holding (c : Conn)
  | sending (c : Conn)
deriving DecidableEq

/-- The number of open connections in the hands of the sweep. -/
def Sweeper.count : Sweeper → Nat
  | Sweeper.idle => 0
  | Sweeper.holding _ => 1
  | Sweeper.sending _ => 1

/-- The pool: the capacity and content of the channel `rc.connPool` (oldest
first), and ghost state: the connections handed out by `getConn` and not yet
passed to `putConn`, the position of the sweep, the connections closed and
those pinged by `checkConnection` (oldest first), and the number of the next
connection `createConnection` opens. -/
structure Pool where
  cap : Nat
  connPool : List Conn
  leased : List Conn
  sweeper : Sweeper
  closed : List Conn
  pinged : List Conn
  fresh : Conn
deriving DecidableEq

/-- The pool built by `NewRedisClient` with `poolSize = K`: `K` connections
created and sent to the channel. -/
def Pool.init (K : Nat) : Pool :=
  { cap := K, connPool := List.range K, leased := [], sweeper := Sweeper.idle,
    closed := [], pinged := [], fresh := K }

/-- The function `getConn`: the oldest pooled connection, or the timeout error
(`none`) when the channel stays empty. -/
def Pool.getConn (p : Pool) : Option Conn × Pool :=
  match p.connPool with
  | c :: rest => (some c, { p with connPool := rest, leased := c :: p.leased })
  | [] => (none, p)

/-- The function `putConn`: the non-blocking send, and `conn.Close()` in the
`default` case. -/
def Pool.putConn (p : Pool) (conn : Conn) : Pool :=
  if p.connPool.length < p.cap then
    { p with connPool := p.connPool ++ [conn], leased := p.leased.erase conn }
  else { p with closed := p.closed ++ [conn], leased := p.leased.erase conn }

/-- The statement `conn := <-rc.connPool` of the sweep; it blocks (no change)
on an empty channel. -/
def Pool.sweepRecv (p : Pool) : Pool :=
  match p.sweeper, p.connPool with
  | Sweeper.idle, c :: rest => { p with connPool := rest, sweeper := Sweeper.holding c }
  | _, _ => p

/-- The `if err := rc.checkConnection(conn)` of the sweep up to the send: a
connection that answers is to be sent back; one that does not is closed and
`createConnection` is called, whose connection is to be sent, or whose failure
ends the iteration (`continue`). -/
def Pool.sweepCheck (p : Pool) (pingOk : Conn → Bool) (createOk : Bool) : Pool :=
  match p.sweeper with
  | Sweeper.holding c =>
    if pingOk c then { p with pinged := p.pinged ++ [c], sweeper := Sweeper.sending c }
    else if createOk then
      { p with pinged := p.pinged ++ [c], closed := p.closed ++ [c],
               sweeper := Sweeper.sending p.fresh, fresh := p.fresh + 1 }
    else { p with pinged := p.pinged ++ [c], closed := p.closed ++ [c], sweeper := Sweeper.idle }
  | _ => p

/-- The blocking send `rc.connPool <- conn` (or `<- newConn`) of the sweep; it
blocks (no change) on a full channel. -/
def Pool.sweepSend (p : Pool) : Pool :=
  match p.sweeper with
  | Sweeper.sending c =>
    if p.connPool.length < p.cap then
      { p with connPool := p.connPool ++ [c], sweeper := Sweeper.idle }
    else p
  | _ => p

/-- A step on the pool.  `release c` is the deferred `putConn` of `execCommand`,
its only caller, which passes the connection it got from `getConn`. -/
inductive PoolEvent where
  | acquire
  | release (c : Conn)
  | sweepRecv
  | sweepCheck (pingOk createOk : Bool)
  | sweepSend
deriving DecidableEq

/-- The effect of one step on the pool. -/
def poolStep (p : Pool) : PoolEvent → Pool
  | PoolEvent.acquire => p.getConn.2
  | PoolEvent.release c => if c ∈ p.leased then p.putConn c else p
  | PoolEvent.sweepRecv => p.sweepRecv
  | PoolEvent.sweepCheck pingOk createOk => p.sweepCheck (fun _ => pingOk) createOk
  | PoolEvent.sweepSend => p.sweepSend

/-- The effect of a sequence of steps. -/
def poolRun (p : Pool) (evs : List PoolEvent) : Pool := evs.foldl poolStep p

/-- One iteration of the loop of the sweep, run without interleaving. -/
def Pool.sweepIter (p : Pool) (pingOk : Conn → Bool) (createOk : Bool) : Pool :=
  ((p.sweepRecv).sweepCheck pingOk createOk).sweepSend

/-- The loop `for i := 0; i < len(rc.connPool); i++` of the sweep from the
index `i`; `createOk i` is the outcome of a `createConnection` called in
iteration `i`.  `none`: out of fuel. -/
def sweepLoop (pingOk : Conn → Bool) (createOk : Nat → Bool) : Nat → Nat → Pool → Option Pool
  | 0, _, _ => none
  | fuel + 1, i, p =>
    if i < p.connPool.length then
      sweepLoop pingOk createOk fuel (i + 1) (p.sweepIter pingOk (createOk i))
    else some p

/-- One health sweep of `connectionManager`, with the fuel that the initial
length of the pool calls for. -/
def Pool.sweep (p : Pool) (pingOk : Conn → Bool) (createOk : Nat → Bool) : Option Pool :=
  sweepLoop pingOk createOk (p.connPool.length + 1) 0 p

/-- The invariant of the pool: the channel content, the leased connections
and the connection held by the sweep fit in the capacity. -/
def PoolInv (K : Nat) (p : Pool) : Prop :=
  p.cap = K ∧ p.connPool.length + p.leased.length + p.sweeper.count ≤ K

/-! ## The latest price in the cache (`GetLatestPrice`, `AddPrice`)

The two functions talk to the server through `execCommand`.  A call of
`execCommand` that returns is modelled by its result, the strings of the reply
or an error, and by the change of the state of the server.  `strconv.ParseFloat`
is a parameter of `GetLatestPrice`. -/

/-- The function `execCommand` against a server of state `σ`: for a command
and its arguments, the strings of the reply (`none`: an error) and the next
state of the server. -/
abbrev Exec (σ : Type) := σ → Bytes → List Bytes → Option (List Bytes) × σ

/-- What `GetLatestPrice` returns: a price with a nil error; the error of the
`KEYS` command, returned as it is; or the error "no prices found". -/
inductive PriceResult where
  | ok (price : F64)
  | keysError
  | noPricesFound
deriving DecidableEq

/-- The key `"price:" + exchange + ":" + symbol` of `AddPrice`, which is also
`fmt.Sprintf("price:%s:%s", exchange, symbol)` of `GetLatestPrice`. -/
def priceKey (exchange symbol : Bytes) : Bytes :=
  ascii "price:" ++ exchange ++ ascii ":" ++ symbol

/-- The variables `maxPrice`, `maxTime` and `found` of `GetLatestPrice`. -/
structure Latest where
  maxPrice : F64
  maxTime : Int
  found : Bool
deriving DecidableEq

/-- The body of the loop of `GetLatestPrice` after the call of `execCommand`:
each `continue` leaves the variables as they are.  `strconv.ParseInt(s, 10,
64)` is `strconv.Atoi` on the 64-bit `int`. -/
def latestStep (parseFloat : Bytes → Option F64) (acc : Latest)
    (reply : Option (List Bytes)) : Latest :=
  match reply with
  | none => acc
  | some resp =>
    match resp with
    | r0 :: r1 :: _ =>
      match parseFloat r0 with
      | none => acc
      | some price =>
        match atoi r1 with
        | none => acc
        | some timestamp =>
          if !acc.found || timestamp > acc.maxTime then
            { maxPrice := price, maxTime := timestamp, found := true }
          else acc
    | _ => acc

/-- The loop `for _, key := range keys` of `GetLatestPrice`. -/
def latestLoop {σ : Type} (exec : Exec σ) (parseFloat : Bytes → Option F64) :
    List Bytes → σ → Latest → Latest × σ
  | [], s, acc => (acc, s)
  | key :: keys, s, acc =>
    latestLoop exec parseFloat keys
      (exec s (ascii "ZREVRANGE") [key, ascii "0", ascii "0", ascii "WITHSCORES"]).2
      (latestStep parseFloat acc
        (exec s (ascii "ZREVRANGE") [key, ascii "0", ascii "0", ascii "WITHSCORES"]).1)

/-- The part of `GetLatestPrice` that follows the choice of the keys. -/
def latestFrom {σ : Type} (exec : Exec σ) (parseFloat : Bytes → Option F64)
    (keys : List Bytes) (s : σ) : PriceResult × σ :=
  ((if !(latestLoop exec parseFloat keys s
          { maxPrice := F64.fin 0, maxTime := 0, found := false }).1.found
    then PriceResult.noPricesFound
    else PriceResult.ok (latestLoop exec parseFloat keys s
          { maxPrice := F64.fin 0, maxTime := 0, found := false }).1.maxPrice),
   (latestLoop exec parseFloat keys s
      { maxPrice := F64.fin 0, maxTime := 0, found := false }).2)

/-- The function `GetLatestPrice`. -/
def GetLatestPrice {σ : Type} (exec : Exec σ) (parseFloat : Bytes → Option F64) (s : σ)
    (exchange symbol : Bytes) : PriceResult × σ :=
  if exchange = [] then
    match exec s (ascii "KEYS") [ascii "price:*:" ++ symbol] with
    | (none, s1) => (PriceResult.keysError, s1)
    | (some resp, s1) => latestFrom exec parseFloat resp s1
  else latestFrom exec parseFloat [priceKey exchange symbol] s

/-- The replies of `ZREVRANGE key 0 0 WITHSCORES` for the keys, in order, each
command being run in the state left by the one before. -/
def zrevReplies {σ : Type} (exec : Exec σ) : List Bytes → σ → List (Option (List Bytes))
  | [], _ => []
  | key :: keys, s =>
    (exec s (ascii "ZREVRANGE") [key, ascii "0", ascii "0", ascii "WITHSCORES"]).1 ::
      zrevReplies exec keys
        (exec s (ascii "ZREVRANGE") [key, ascii "0", ascii "0", ascii "WITHSCORES"]).2

/-- The result that a reply yields: the price and the score of a reply of at
least two elements whose first element parses as a price and whose second
parses as an integer; `none` for a failed command and for any other reply. -/
def yields (parseFloat : Bytes → Option F64) (reply : Option (List Bytes)) :
    Option (F64 × Int) :=
  match reply with
  | some (r0 :: r1 :: _) =>
    match parseFloat r0, atoi r1 with
    | some price, some score => some (price, score)
    | _, _ => none
  | _ => none

/-- The update of the loop variables by one result. -/
def latestPick (acc : Latest) (r : F64 × Int) : Latest :=
  if !acc.found || r.2 > acc.maxTime then { maxPrice := r.1, maxTime := r.2, found := true }
  else acc

/-- The decimal digits `'0'` to `'9'`. -/
def isDigit (b : Nat) : Bool := decide (48 ≤ b ∧ b ≤ 57)

/-- The six decimal digits of `n < 10^6`, with leading zeros. -/
def sixDigits (n : Nat) : Bytes :=
  [48 + n / 100000 % 10, 48 + n / 10000 % 10, 48 + n / 1000 % 10, 48 + n / 100 % 10,
    48 + n / 10 % 10, 48 + n % 10]

/-- The text `fmt.Sprintf("%f", x)`: the value rounded to six decimals (to
nearest, ties to even, from the exact binary value), written with its sign, its
integer part and six decimals. -/
def formatF : F64 → Bytes
  | F64.fin k =>
    (if k < 0 then [45] else []) ++
      decimal (rneDiv (k.natAbs * 10 ^ 6) (2 ^ 1074) / 10 ^ 6) ++ [46] ++
      sixDigits (rneDiv (k.natAbs * 10 ^ 6) (2 ^ 1074) % 10 ^ 6)
  | F64.inf neg => if neg then ascii "-Inf" else ascii "+Inf"
  | F64.nan => ascii "NaN"

/-- The result of a conversion that rounds to an infinity is the range error
of `strconv.ParseFloat`. -/
def finiteOnly : F64 → Option F64
  | F64.fin k => some (F64.fin k)
  | _ => none

/-- The function `strconv.ParseFloat(s, 64)` on an unsigned plain decimal text:
digits with an optional point, at least one digit, no exponent.  The value is
the binary64 number nearest to the decimal.  The outer `none` stands for a
text of another form, which is not modelled. -/
def parseUnsigned (neg : Bool) (body : Bytes) : Option (Option F64) :=
  match body.dropWhile isDigit with
  | [] =>
    if body.takeWhile isDigit = [] then none
    else some (finiteOnly (F64.round neg (digitsVal (body.takeWhile isDigit) * 2 ^ 1074) 1))
  | c :: fp =>
    if c = 46 ∧ fp.all isDigit = true ∧ body.takeWhile isDigit ++ fp ≠ [] then
      some (finiteOnly (F64.round neg (digitsVal (body.takeWhile isDigit ++ fp) * 2 ^ 1074)
        (10 ^ fp.length)))
    else none

/-- The function `strconv.ParseFloat(s, 64)` on a plain decimal text with an
optional sign: `some (some x)` is the value `x` with a nil error, `some none`
an error; `none` stands for a text of another form (exponent, hexadecimal,
infinity, NaN, malformed), which is not modelled. -/
def parsePlain (s : Bytes) : Option (Option F64) :=
  match s with
  | [] => none
  | c :: rest =>
    if c = 45 then parseUnsigned true rest
    else if c = 43 then parseUnsigned false rest
    else parseUnsigned false s

/-- A `strconv.ParseFloat` that is the library function on plain decimal texts
and rejects every other text. -/
def plainParseFloat (s : Bytes) : Option F64 := (parsePlain s).join

/-- The binary64 value nearest to `x` rounded to six decimals: what is read
back from the text `formatF x`. -/
def sixDecimals : F64 → F64
  | F64.fin k =>
    F64.round (decide (k < 0)) (rneDiv (k.natAbs * 10 ^ 6) (2 ^ 1074) * 2 ^ 1074) (10 ^ 6)
  | x => x

/-- The function `AddPrice` up to its return, with `now` the value of
`time.Now().Unix()`: `false` is the error "failed to add price"; a failure of
`EXPIRE` is only logged.  The clean-up goroutine it starts runs later on its
own and deletes only members scored two minutes or more before it runs. -/
def AddPrice {σ : Type} (exec : Exec σ) (now : Nat) (s : σ) (exchange symbol : Bytes)
    (price : F64) : Bool × σ :=
  match exec s (ascii "ZADD") [priceKey exchange symbol, decimal now, formatF price] with
  | (none, s1) => (false, s1)
  | (some _, s1) => (true, (exec s1 (ascii "EXPIRE") [priceKey exchange symbol, ascii "120"]).2)

/-- Modelled from the spec: a store with sorted-set semantics.  Every key holds
a set of members, each with an integer score. -/
abbrev Store := Bytes → List (Bytes × Int)

/-- Modelled from the spec: the order of byte strings, by the first byte that
differs, a proper beginning of a string coming before it. -/
def bytesLt : Bytes → Bytes → Bool
  | [], [] => false
  | [], _ :: _ => true
  | _ :: _, [] => false
  | a :: as, b :: bs => decide (a < b) || (decide (a = b) && bytesLt as bs)

/-- Modelled from the spec: `ZADD key score member` on the set of the key: the
member gets the score, replacing the score it had. -/
def zadd (set : List (Bytes × Int)) (score : Int) (member : Bytes) : List (Bytes × Int) :=
  (member, score) :: set.filter (fun e => decide (e.1 ≠ member))

/-- Modelled from the spec: the member that `ZREVRANGE key 0 0` returns: the
one with the highest score, and among members with that score the last in the
order of byte strings. -/
def zTop (set : List (Bytes × Int)) : Option (Bytes × Int) :=
  set.foldl
    (fun best e =>
      match best with
      | none => some e
      | some b => if b.2 < e.2 ∨ (b.2 = e.2 ∧ bytesLt b.1 e.1 = true) then some e else some b)
    none

/-- Modelled from the spec: the text of an integer score in a reply. -/
def scoreText (score : Int) : Bytes :=
  if score < 0 then 45 :: decimal score.natAbs else decimal score.natAbs

/-- Modelled from the spec: the store as a server for `execCommand`.  `ZADD key
score member` replies with the number of members added; `EXPIRE` replies `1`
and time does not pass; `ZREVRANGE key 0 0 WITHSCORES` replies with the top
member and its score, or with an empty array for an empty set; every other
command is answered by an error. -/
def storeExec : Exec Store := fun st cmd args =>
  if cmd = ascii "ZADD" then
    match args with
    | [key, score, member] =>
      match atoi score with
      | some sc =>
        (some [if (st key).any (fun e => decide (e.1 = member)) then ascii "0" else ascii "1"],
          fun k => if k = key then zadd (st key) sc member else st k)
      | none => (none, st)
    | _ => (none, st)
  else if cmd = ascii "EXPIRE" then (some [ascii "1"], st)
  else if cmd = ascii "ZREVRANGE" then
    match args with
    | [key, start, stop, opt] =>
      if start = ascii "0" ∧ stop = ascii "0" ∧ opt = ascii "WITHSCORES" then
        match zTop (st key) with
        | none => (some [], st)
        | some e => (some [e.1, scoreText e.2], st)
      else (none, st)
    | _ => (none, st)
  else (none, st)

/-- The store without any key. -/
def emptyStore : Store := fun _ => []

/-- The binary64 value nearest to the decimal `0.1234567`. -/
def sevenDecimals : F64 := F64.fin (4447996384931129 * 2 ^ 1019)

/-- The binary64 value nearest to the decimal `0.123457`. -/
def sevenDecimalsRounded : F64 := F64.fin (8896014387140469 * 2 ^ 1018)

/-- The binary64 value `9.5`. -/
def nineAndHalf : F64 := F64.fin (19 * 2 ^ 1073)

/-! ## The ten workers of a shard, step by step

`startWorkerPool` starts ten goroutines that run the same loop on the same
channel `in`.  A worker receives an update, makes its two non-blocking sends,
and only then takes `statsMu` for the bucket update.  Here the four steps of an
iteration are separate, and the steps of different workers interleave in any
way: a worker that has received an update can be overtaken by other workers
before it takes the lock.  Each critical section of `statsMu` (the bucket update
of a worker, a whole flush) is one step, because nothing but critical sections
touches the buckets. -/

/-- Where a worker stands in its loop: blocked in `range in`; holding the update
it received, before the `select` on `toRedis`; before the `select` on `toPG`;
before `statsMu.Lock()`. -/
inductive Phase where
  | idle
  | atRedis (update : PriceUpdate)
  | atPG (update : PriceUpdate)
  | atLock (update : PriceUpdate)
deriving DecidableEq

/-- The update a worker holds, if any. -/
def Phase.held : Phase → List PriceUpdate
  | Phase.idle => []
  | Phase.atRedis update => [update]
  | Phase.atPG update => [update]
  | Phase.atLock update => [update]

/-- The shard together with its workers.  `arrived` and `handled` are history
variables: the updates received from `in` by the workers, in the order of the
receives (the order of arrival: a channel hands its items out in the order in
which they were sent), and the updates whose price has been appended to a
bucket, in the order in which the workers took `statsMu`. -/
structure WorkerPool where
  shard : Shard
  workers : List Phase
  arrived : List PriceUpdate
  handled : List PriceUpdate

/-- The state that `startWorkerPool` creates: a fresh shard and ten workers
about to receive. -/
def WorkerPool.init (toRedis toPG : Chan) : WorkerPool :=
  { shard := Shard.init toRedis toPG, workers := List.replicate 10 Phase.idle,
    arrived := [], handled := [] }

/-- What can happen to the shard and its workers: a worker receives an update
from `in`; a worker that holds an update takes the next step of its iteration;
the ticker fires; a consumer takes an item from one of the two queues. -/
inductive WorkerEvent where
  | receive (workerID : Nat) (update : PriceUpdate)
  | proceed (workerID : Nat) (now : Nat)
  | flush (rank : String → Nat) (now : Nat)
  | recvRedis
  | recvPG

/-- One step of the workers of `startWorkerPool(exchangeName, ...)`.  A receive
by a worker that is not blocked in `range in`, and a step of a worker that
holds no update or does not exist, do not happen: the state is unchanged.  An
update of another exchange is dropped by the `continue` and the worker is ready
to receive again. -/
def workerStep (exchangeName : String) (p : WorkerPool) : WorkerEvent → WorkerPool
  | WorkerEvent.receive w update =>
    match p.workers[w]? with
    | some Phase.idle =>
      if update.Exchange ≠ exchangeName then { p with arrived := p.arrived ++ [update] }
      else { p with workers := p.workers.set w (Phase.atRedis update),
                    arrived := p.arrived ++ [update] }
    | _ => p
  | WorkerEvent.proceed w now =>
    match p.workers[w]? with
    | some (Phase.atRedis update) =>
      { p with shard := sendRedis update p.shard,
               workers := p.workers.set w (Phase.atPG update) }
    | some (Phase.atPG update) =>
      { p with shard := sendPG update p.shard,
               workers := p.workers.set w (Phase.atLock update) }
    | some (Phase.atLock update) =>
      { p with shard := updateBucket (w : Int) now update p.shard,
               workers := p.workers.set w Phase.idle,
               handled := p.handled ++ [update] }
    | _ => p
  | WorkerEvent.flush rank now => { p with shard := flushTick rank now p.shard }
  | WorkerEvent.recvRedis => { p with shard := { p.shard with toRedis := p.shard.toRedis.recv } }
  | WorkerEvent.recvPG => { p with shard := { p.shard with toPG := p.shard.toPG.recv } }

/-- The shard and its workers after a sequence of steps. -/
def workerRun (exchangeName : String) (p : WorkerPool) (evs : List WorkerEvent) : WorkerPool :=
  evs.foldl (workerStep exchangeName) p

/-- The prices, in the order of the list, of the updates of `us` that are of
exchange `X` and carry the symbol `S`. -/
def pricesFor (X S : String) (us : List PriceUpdate) : List F64 :=
  (us.filter (fun u => decide (u.Exchange = X ∧ u.Symbol = S))).map PriceUpdate.Price

/-- The updates that the workers hold: received and not yet appended to a
bucket. -/
def heldBy (ws : List Phase) : List PriceUpdate := (ws.map Phase.held).flatten

/-- Every update held by a worker is of exchange `X`. -/
def WorkersOk (X : String) (ws : List Phase) : Prop :=
  ∀ ph ∈ ws, ∀ u ∈ ph.held, u.Exchange = X

/-- The invariant of the shard and its workers: the buckets and the history of
aggregates are well formed, the workers hold updates of the shard's exchange,
per symbol the slices of the aggregates followed by the bucket are the handled
prices, and the handled updates together with the held ones are the arrived
updates of the shard's exchange. -/
def WorkerPoolOk (X : String) (p : WorkerPool) : Prop :=
  BucketsOk X p.shard ∧ EmittedOk X p.shard ∧ WorkersOk X p.workers ∧
  (∀ S, (emittedFor S p.shard.emitted).flatten ++ bucket S p.shard
      = pricesFor X S p.handled) ∧
  (p.handled ++ heldBy p.workers).Perm
    (p.arrived.filter (fun u => decide (u.Exchange = X)))

/-- A raw tick of `(kucoin, SOLUSDT)` at the integer price `n`. -/
def tickAt (n : Nat) : PriceUpdate := { sampleTick with Price := price n }

/-- A worker receives an update and runs its whole iteration before anything
else happens. -/
def iteration (w now : Nat) (update : PriceUpdate) : List WorkerEvent :=
  [WorkerEvent.receive w update, WorkerEvent.proceed w now, WorkerEvent.proceed w now,
    WorkerEvent.proceed w now]

/-- Six ticks of one symbol, priced 1 to 6, arrive in that order.  Worker 1
receives the second one and makes its two sends; before it takes `statsMu`,
worker 0 receives and handles the third to the sixth tick; then worker 1 takes
the lock. -/
def overtaking : List WorkerEvent :=
  [WorkerEvent.receive 0 (tickAt 1), WorkerEvent.receive 1 (tickAt 2),
    WorkerEvent.proceed 1 0, WorkerEvent.proceed 1 0,
    WorkerEvent.proceed 0 0, WorkerEvent.proceed 0 0, WorkerEvent.proceed 0 1] ++
  iteration 0 2 (tickAt 3) ++ iteration 0 3 (tickAt 4) ++ iteration 0 4 (tickAt 5) ++
  iteration 0 5 (tickAt 6) ++ [WorkerEvent.proceed 1 6]

end Marketflow

/-! # Properties -/

namespace Marketflow

/-! ## The binary64 model: digit count and rounding -/

theorem bitLenAux_spec (m : Nat) : ∀ n, n < 2 ^ 2 ^ m →
    n < 2 ^ bitLenAux m n ∧ (n ≠ 0 → 2 ^ (bitLenAux m n - 1) ≤ n) := by
  induction m with
  | zero =>
    intro n h
    have hn : n = 0 ∨ n = 1 := by simp at h; omega
    rcases hn with rfl | rfl <;> simp [bitLenAux]
  | succ m ih =>
    intro n h
    have hP : 2 ^ 2 ^ (m + 1) = 2 ^ 2 ^ m * 2 ^ 2 ^ m := by
      rw [← Nat.pow_add]; congr 1; rw [Nat.pow_succ]; omega
    rw [hP] at h
    by_cases hlt : n < 2 ^ 2 ^ m
    · simp only [bitLenAux, if_pos hlt]; exact ih n hlt
    · simp only [bitLenAux, if_neg hlt]
      have hPpos : 0 < 2 ^ 2 ^ m := Nat.two_pow_pos _
      have hq1 : n / 2 ^ 2 ^ m < 2 ^ 2 ^ m := Nat.div_lt_of_lt_mul h
      have hq0 : 0 < n / 2 ^ 2 ^ m := Nat.div_pos (Nat.le_of_not_lt hlt) hPpos
      obtain ⟨i1, i2⟩ := ih (n / 2 ^ 2 ^ m) hq1
      have i2' := i2 (Nat.pos_iff_ne_zero.1 hq0)
      have hb : 0 < bitLenAux m (n / 2 ^ 2 ^ m) := by
        rcases Nat.eq_zero_or_pos (bitLenAux m (n / 2 ^ 2 ^ m)) with h0 | h0
        · rw [h0] at i1; simp at i1; omega
        · exact h0
      have hup : n < 2 ^ 2 ^ m * (n / 2 ^ 2 ^ m + 1) := Nat.lt_mul_div_succ n hPpos
      have hlo : 2 ^ 2 ^ m * (n / 2 ^ 2 ^ m) ≤ n := Nat.mul_div_le n _
      constructor
      · rw [Nat.pow_add]
        exact Nat.lt_of_lt_of_le hup (Nat.mul_le_mul_left _ i1)
      · intro _
        rw [Nat.add_sub_assoc hb, Nat.pow_add]
        exact Nat.le_trans (Nat.mul_le_mul_left _ i2') hlo

theorem bitLevels_spec (fuel : Nat) : ∀ m n, n < 2 ^ 2 ^ (m + fuel) →
    n < 2 ^ 2 ^ bitLevels fuel m n := by
  induction fuel with
  | zero => intro m n h; simpa [bitLevels] using h
  | succ fuel ih =>
    intro m n h
    by_cases hlt : n < 2 ^ 2 ^ m
    · simp only [bitLevels, if_pos hlt]; exact hlt
    · simp only [bitLevels, if_neg hlt]
      exact ih (m + 1) n (by rw [show m + 1 + fuel = m + (fuel + 1) by omega]; exact h)

/-- The digit count used by the rounding: `bitLen n` is the number of binary
digits of `n`. -/
theorem bitLen_spec (n : Nat) : n < 2 ^ bitLen n ∧ (n ≠ 0 → 2 ^ (bitLen n - 1) ≤ n) := by
  unfold bitLen
  apply bitLenAux_spec
  apply bitLevels_spec
  rw [Nat.zero_add]
  calc n < 2 ^ n := Nat.lt_two_pow n
    _ ≤ 2 ^ 2 ^ n := Nat.pow_le_pow_right (by decide) (Nat.le_of_lt (Nat.lt_two_pow n))

/-- The rounded quotient is a nearest integer: it is off by at most one half. -/
theorem rneDiv_nearest (a d : Nat) (hd : 0 < d) :
    2 * (rneDiv a d * d) ≤ 2 * a + d ∧ 2 * a ≤ 2 * (rneDiv a d * d) + d := by
  have h1 := Nat.div_add_mod a d
  have h2 := Nat.mod_lt a hd
  have h3 : d * (a / d) = a / d * d := Nat.mul_comm _ _
  unfold rneDiv
  split
  · rename_i h
    rw [Nat.add_mul]
    rcases h with h | ⟨h, _⟩ <;> omega
  · rename_i h
    have : ¬ d < 2 * (a % d) := fun h' => h (Or.inl h')
    omega

/-- Sample operations of the model against the binary64 values: `0.1 + 0.2`,
the tie `2^53 + 1`, the overflow of `MaxFloat64 + MaxFloat64`, `1 / 3`, the
underflow of the smallest subnormal halved, and `float64(2^53 + 1)`. -/
theorem binary64_samples :
    F64.add tenth (F64.fin (3602879701896397 * 2 ^ 1020))
      = F64.fin (5404319552844596 * 2 ^ 1020) ∧
    F64.add (F64.fin (2 ^ 53 * 2 ^ 1074)) (price 1) = F64.fin (2 ^ 53 * 2 ^ 1074) ∧
    F64.add (F64.fin ((2 ^ 53 - 1) * 2 ^ 2045)) (F64.fin ((2 ^ 53 - 1) * 2 ^ 2045))
      = F64.inf false ∧
    F64.div (price 1) (price 3) = F64.fin (6004799503160661 * 2 ^ 1020) ∧
    F64.div (F64.fin 1) (price 2) = F64.fin 0 ∧
    F64.ofNat (2 ^ 53 + 1) = F64.fin (2 ^ 53 * 2 ^ 1074) := by decide!

/-! ## The aggregate: minimum, maximum and average -/

section AggLoop

variable {α : Type} [LT α] [∀ a b : α, Decidable (a < b)] [Add α]

theorem aggLoop_sum (ps : List α) (mn mx s : α) :
    (aggLoop ps (mn, mx, s)).2.2 = ps.foldl (· + ·) s := by
  induction ps generalizing mn mx s with
  | nil => rfl
  | cons p ps ih => simp only [aggLoop, List.foldl_cons]; exact ih _ _ _

theorem aggLoop_min_mem (ps : List α) (mn mx s : α) :
    (aggLoop ps (mn, mx, s)).1 = mn ∨ (aggLoop ps (mn, mx, s)).1 ∈ ps := by
  induction ps generalizing mn mx s with
  | nil => exact Or.inl rfl
  | cons p ps ih =>
    simp only [aggLoop]
    rcases ih (if p < mn then p else mn) (if mx < p then p else mx) (s + p) with h | h
    · by_cases hp : p < mn
      · simp only [if_pos hp] at h ⊢; rw [h]; exact Or.inr (List.mem_cons_self _ _)
      · simp only [if_neg hp] at h ⊢; exact Or.inl h
    · exact Or.inr (List.mem_cons_of_mem _ h)

theorem aggLoop_max_mem (ps : List α) (mn mx s : α) :
    (aggLoop ps (mn, mx, s)).2.1 = mx ∨ (aggLoop ps (mn, mx, s)).2.1 ∈ ps := by
  induction ps generalizing mn mx s with
  | nil => exact Or.inl rfl
  | cons p ps ih =>
    simp only [aggLoop]
    rcases ih (if p < mn then p else mn) (if mx < p then p else mx) (s + p) with h | h
    · by_cases hp : mx < p
      · simp only [if_pos hp] at h ⊢; rw [h]; exact Or.inr (List.mem_cons_self _ _)
      · simp only [if_neg hp] at h ⊢; exact Or.inl h
    · exact Or.inr (List.mem_cons_of_mem _ h)

variable (htr : ∀ a b c : α, a < b → b < c → a < c)
include htr

theorem aggLoop_min_keep (ps : List α) (mn mx s q : α) (hq : ¬ q < mn) :
    ¬ q < (aggLoop ps (mn, mx, s)).1 := by
  induction ps generalizing mn mx s with
  | nil => exact hq
  | cons p ps ih =>
    simp only [aggLoop]
    apply ih
    by_cases hp : p < mn
    · rw [if_pos hp]; exact fun h => hq (htr _ _ _ h hp)
    · rw [if_neg hp]; exact hq

theorem aggLoop_max_keep (ps : List α) (mn mx s q : α) (hq : ¬ mx < q) :
    ¬ (aggLoop ps (mn, mx, s)).2.1 < q := by
  induction ps generalizing mn mx s with
  | nil => exact hq
  | cons p ps ih =>
    simp only [aggLoop]
    apply ih
    by_cases hp : mx < p
    · rw [if_pos hp]; exact fun h => hq (htr _ _ _ hp h)
    · rw [if_neg hp]; exact hq

variable (hirr : ∀ a : α, ¬ a < a)
include hirr

theorem aggLoop_min_lb (ps : List α) (mn mx s q : α) (hq : q ∈ ps) :
    ¬ q < (aggLoop ps (mn, mx, s)).1 := by
  induction ps generalizing mn mx s with
  | nil => cases hq
  | cons p ps ih =>
    simp only [aggLoop]
    rcases List.mem_cons.1 hq with rfl | h
    · apply aggLoop_min_keep htr
      by_cases hp : q < mn
      · rw [if_pos hp]; exact hirr q
      · rw [if_neg hp]; exact hp
    · exact ih _ _ _ h

theorem aggLoop_max_ub (ps : List α) (mn mx s q : α) (hq : q ∈ ps) :
    ¬ (aggLoop ps (mn, mx, s)).2.1 < q := by
  induction ps generalizing mn mx s with
  | nil => cases hq
  | cons p ps ih =>
    simp only [aggLoop]
    rcases List.mem_cons.1 hq with rfl | h
    · apply aggLoop_max_keep htr
      by_cases hp : mx < q
      · rw [if_pos hp]; exact hirr q
      · rw [if_neg hp]; exact hp
    · exact ih _ _ _ h

end AggLoop

theorem F64.lt_irrefl (a : F64) : ¬ a < a := by
  show ¬ F64.lt a a = true
  cases a <;> simp [F64.lt]

theorem F64.lt_trans (a b c : F64) (hab : a < b) (hbc : b < c) : a < c := by
  have hab1 : F64.lt a b = true := hab
  have hbc1 : F64.lt b c = true := hbc
  show F64.lt a c = true
  cases a <;> cases b <;> cases c <;> simp_all [F64.lt]
  omega

theorem F64.le_of_not_lt (a b : F64) (ha : a.isNaN = false) (hb : b.isNaN = false)
    (h : ¬ a < b) : b ≤ a := by
  have h1 : ¬ F64.lt a b = true := h
  show F64.le b a = true
  cases a <;> cases b <;> simp_all [F64.lt, F64.le, F64.eq, F64.isNaN]
  · omega
  · rename_i s t; cases s <;> cases t <;> simp_all

theorem aggregate_F64_spec (prices : List F64) (hne : prices ≠ [])
    (hnan : ∀ p ∈ prices, p.isNaN = false) :
    ∃ mn mx avg, aggregate F64.ofNat prices = some (mn, mx, avg) ∧
      mn ∈ prices ∧ (∀ p ∈ prices, mn ≤ p) ∧
      mx ∈ prices ∧ (∀ p ∈ prices, p ≤ mx) ∧
      avg = prices.foldl (· + ·) (0 : F64) / F64.ofNat prices.length := by
  cases prices with
  | nil => exact absurd rfl hne
  | cons p0 ps =>
    have hmn : (aggLoop (p0 :: ps) (p0, p0, (0 : F64))).1 ∈ p0 :: ps := by
      rcases aggLoop_min_mem (p0 :: ps) p0 p0 (0 : F64) with h | h
      · rw [h]; exact List.mem_cons_self _ _
      · exact h
    have hmx : (aggLoop (p0 :: ps) (p0, p0, (0 : F64))).2.1 ∈ p0 :: ps := by
      rcases aggLoop_max_mem (p0 :: ps) p0 p0 (0 : F64) with h | h
      · rw [h]; exact List.mem_cons_self _ _
      · exact h
    refine ⟨_, _, _, rfl, hmn, ?_, hmx, ?_, ?_⟩
    · intro p hp
      exact F64.le_of_not_lt _ _ (hnan p hp) (hnan _ hmn)
        (aggLoop_min_lb F64.lt_trans F64.lt_irrefl _ _ _ _ _ hp)
    · intro p hp
      exact F64.le_of_not_lt _ _ (hnan _ hmx) (hnan p hp)
        (aggLoop_max_ub F64.lt_trans F64.lt_irrefl _ _ _ _ _ hp)
    · rw [aggLoop_sum]

theorem aggregate_example :
    aggregate F64.ofNat [price 100, price 200, price 150, price 50, price 300]
      = some (price 50, price 300, price 160) := by decide!

/-- C1. The aggregate that `aggregateAndSend` builds from a non-empty slice of
prices none of which is a NaN has as `MinPrice` an element of the slice that is
`<=` every element, as `MaxPrice` an element that is `>=` every element, and as
`AvgPrice` the binary64 sum of the prices, added in order from `0.0`, divided
by `float64(len(prices))`; for the prices `[100, 200, 150, 50, 300]` these are
`50`, `300` and `160`. -/
theorem aggregateAndSend_min_max_avg (prices : List F64) (update : PriceUpdate) (now : Nat)
    (hne : prices ≠ []) (hnan : ∀ p ∈ prices, p.isNaN = false) :
    (∃ agg, mkAggregate prices update now = some agg ∧
      agg.MinPrice ∈ prices ∧ (∀ p ∈ prices, agg.MinPrice ≤ p) ∧
      agg.MaxPrice ∈ prices ∧ (∀ p ∈ prices, p ≤ agg.MaxPrice) ∧
      agg.AvgPrice = prices.foldl (· + ·) (0 : F64) / F64.ofNat prices.length) ∧
    (∃ agg, mkAggregate [price 100, price 200, price 150, price 50, price 300] update now
        = some agg ∧
      agg.MinPrice = price 50 ∧ agg.MaxPrice = price 300 ∧ agg.AvgPrice = price 160) := by
  constructor
  · obtain ⟨mn, mx, avg, h, h1, h2, h3, h4, h5⟩ := aggregate_F64_spec prices hne hnan
    exact ⟨{ Exchange := update.Exchange, Symbol := update.Symbol, Price := F64.fin 0,
             ReceivedAt := now, Typ := "aggregated", AvgPrice := avg, MinPrice := mn,
             MaxPrice := mx }, by simp only [mkAggregate, h], h1, h2, h3, h4, h5⟩
  · exact ⟨{ Exchange := update.Exchange, Symbol := update.Symbol, Price := F64.fin 0,
             ReceivedAt := now, Typ := "aggregated", AvgPrice := price 160,
             MinPrice := price 50, MaxPrice := price 300 },
      by simp only [mkAggregate, aggregate_example], rfl, rfl, rfl⟩

theorem aggregateAndSend_min_max_avg_witness :
    (∃ agg, mkAggregate [tenth, price 3] PriceUpdate.zero 7 = some agg ∧
      agg.MinPrice ∈ [tenth, price 3] ∧ (∀ p ∈ [tenth, price 3], agg.MinPrice ≤ p) ∧
      agg.MaxPrice ∈ [tenth, price 3] ∧ (∀ p ∈ [tenth, price 3], p ≤ agg.MaxPrice) ∧
      agg.AvgPrice = [tenth, price 3].foldl (· + ·) (0 : F64) / F64.ofNat [tenth, price 3].length) ∧
    (∃ agg, mkAggregate [price 100, price 200, price 150, price 50, price 300]
        PriceUpdate.zero 7 = some agg ∧
      agg.MinPrice = price 50 ∧ agg.MaxPrice = price 300 ∧ agg.AvgPrice = price 160) :=
  aggregateAndSend_min_max_avg [tenth, price 3] PriceUpdate.zero 7 (by simp)
    (by decide)

theorem foldl_add_ge (m : ℚ) (ps : List ℚ) (s : ℚ) (h : ∀ p ∈ ps, m ≤ p) :
    s + ps.length * m ≤ ps.foldl (· + ·) s := by
  induction ps generalizing s with
  | nil => simp
  | cons p ps ih =>
    have h1 := ih (s + p) (fun q hq => h q (List.mem_cons_of_mem _ hq))
    have h2 := h p (List.mem_cons_self _ _)
    simp only [List.foldl_cons, List.length_cons, Nat.cast_add, Nat.cast_one] at h1 ⊢
    linarith

theorem foldl_add_le (m : ℚ) (ps : List ℚ) (s : ℚ) (h : ∀ p ∈ ps, p ≤ m) :
    ps.foldl (· + ·) s ≤ s + ps.length * m := by
  induction ps generalizing s with
  | nil => simp
  | cons p ps ih =>
    have h1 := ih (s + p) (fun q hq => h q (List.mem_cons_of_mem _ hq))
    have h2 := h p (List.mem_cons_self _ _)
    simp only [List.foldl_cons, List.length_cons, Nat.cast_add, Nat.cast_one] at h1 ⊢
    linarith

theorem aggregate_exact_bounds (prices : List ℚ) (hne : prices ≠ []) :
    ∃ mn mx avg, aggregate (fun n : Nat => (n : ℚ)) prices = some (mn, mx, avg) ∧
      mn ≤ avg ∧ avg ≤ mx := by
  cases prices with
  | nil => exact absurd rfl hne
  | cons p0 ps =>
    have hpos : (0 : ℚ) < ((p0 :: ps).length : ℚ) := by
      simp only [List.length_cons, Nat.cast_add, Nat.cast_one]; positivity
    have hlb : ∀ p ∈ p0 :: ps, (aggLoop (p0 :: ps) (p0, p0, (0 : ℚ))).1 ≤ p := fun p hp =>
      not_lt.1 (aggLoop_min_lb (fun _ _ _ => lt_trans) lt_irrefl _ _ _ _ _ hp)
    have hub : ∀ p ∈ p0 :: ps, p ≤ (aggLoop (p0 :: ps) (p0, p0, (0 : ℚ))).2.1 := fun p hp =>
      not_lt.1 (aggLoop_max_ub (fun _ _ _ => lt_trans) lt_irrefl _ _ _ _ _ hp)
    refine ⟨_, _, _, rfl, ?_, ?_⟩
    · rw [aggLoop_sum, le_div_iff₀ hpos]
      have := foldl_add_ge _ (p0 :: ps) 0 hlb
      linarith
    · rw [aggLoop_sum, div_le_iff₀ hpos]
      have := foldl_add_le _ (p0 :: ps) 0 hub
      linarith

/-- C2 (counterexample). Three ticks at the binary64 price `0.1`: the running
sum rounds to `0.30000000000000004` and its third to `0.10000000000000002`, so
the aggregate has `AvgPrice > MaxPrice = 0.1`. -/
theorem avg_above_max_counterexample :
    tenth.isDouble = true ∧
    ∃ agg, mkAggregate [tenth, tenth, tenth] PriceUpdate.zero 0 = some agg ∧
      agg.MinPrice = tenth ∧ agg.MaxPrice = tenth ∧
      agg.AvgPrice = F64.fin (7205759403792795 * 2 ^ 1018) ∧
      ¬ (agg.MinPrice ≤ agg.AvgPrice ∧ agg.AvgPrice ≤ agg.MaxPrice) := by
  have hle : ¬ (tenth ≤ F64.fin (7205759403792795 * 2 ^ 1018) ∧
      F64.fin (7205759403792795 * 2 ^ 1018) ≤ tenth) := by decide!
  have hd : tenth.isDouble = true := by decide!
  refine ⟨hd, ⟨{ Exchange := "", Symbol := "", Price := F64.fin 0, ReceivedAt := 0,
                 Typ := "aggregated", AvgPrice := F64.fin (7205759403792795 * 2 ^ 1018),
                 MinPrice := tenth, MaxPrice := tenth }, ?_, rfl, rfl, rfl, hle⟩⟩
  have h : aggregate F64.ofNat [tenth, tenth, tenth]
      = some (tenth, tenth, F64.fin (7205759403792795 * 2 ^ 1018)) := by decide!
  simp only [mkAggregate, h, PriceUpdate.zero]

/-- C2 (amended). For every aggregate built by `aggregateAndSend` from a
non-empty slice of prices none of which is a NaN, `MinPrice <= MaxPrice`; and
the same computation carried out in exact arithmetic gives
`min <= avg <= max`.  In binary64 the rounding of the sum and of the quotient
can place `AvgPrice` outside the interval. -/
theorem aggregateAndSend_min_le_max (prices : List F64) (update : PriceUpdate) (now : Nat)
    (hne : prices ≠ []) (hnan : ∀ p ∈ prices, p.isNaN = false)
    (exact : List ℚ) (hex : exact ≠ []) :
    (∃ agg, mkAggregate prices update now = some agg ∧ agg.MinPrice ≤ agg.MaxPrice) ∧
    (∃ mn mx avg, aggregate (fun n : Nat => (n : ℚ)) exact = some (mn, mx, avg) ∧
      mn ≤ avg ∧ avg ≤ mx) := by
  obtain ⟨mn, mx, avg, h, h1, _, _, h4, _⟩ := aggregate_F64_spec prices hne hnan
  exact ⟨⟨{ Exchange := update.Exchange, Symbol := update.Symbol, Price := F64.fin 0,
            ReceivedAt := now, Typ := "aggregated", AvgPrice := avg, MinPrice := mn,
            MaxPrice := mx }, by simp only [mkAggregate, h], h4 mn h1⟩,
    aggregate_exact_bounds exact hex⟩

theorem aggregateAndSend_min_le_max_witness :
    (∃ agg, mkAggregate [tenth, tenth, tenth] PriceUpdate.zero 0 = some agg ∧
      agg.MinPrice ≤ agg.MaxPrice) ∧
    (∃ mn mx avg, aggregate (fun n : Nat => (n : ℚ)) [(1 / 10 : ℚ), 1 / 10, 1 / 10]
        = some (mn, mx, avg) ∧
      mn ≤ avg ∧ avg ≤ mx) :=
  aggregateAndSend_min_le_max [tenth, tenth, tenth] PriceUpdate.zero 0 (by simp) (by decide)
    [(1 / 10 : ℚ), 1 / 10, 1 / 10] (by simp)

theorem statsGet_set_same (k : String) (v : symbolStats) (l : List (String × symbolStats)) :
    statsGet k (statsSet k v l) = some v := by
  induction l with
  | nil => simp [statsSet, statsGet]
  | cons kv l ih =>
    obtain ⟨k', w⟩ := kv
    by_cases h : k' = k
    · simp [statsSet, statsGet, h]
    · simp [statsSet, statsGet, h, ih]

theorem statsGet_set_other (k k' : String) (v : symbolStats) (l : List (String × symbolStats))
    (hne : k' ≠ k) : statsGet k' (statsSet k v l) = statsGet k' l := by
  induction l with
  | nil => simp [statsSet, statsGet, Ne.symm hne]
  | cons kv l ih =>
    obtain ⟨k2, w⟩ := kv
    by_cases h : k2 = k
    · subst h
      simp [statsSet, statsGet, Ne.symm hne]
    · by_cases h2 : k2 = k'
      · subst h2; simp [statsSet, statsGet, hne]
      · simp [statsSet, statsGet, h, h2, ih]

theorem mkAggregate_nil (u : PriceUpdate) (now : Nat) : mkAggregate [] u now = none := rfl

theorem mkAggregate_ne_nil (ps : List F64) (u : PriceUpdate) (now : Nat) (h : ps ≠ []) :
    ∃ agg, mkAggregate ps u now = some agg ∧ agg.Exchange = u.Exchange ∧
      agg.Symbol = u.Symbol ∧ agg.Typ = "aggregated" ∧ agg.ReceivedAt = now ∧
      aggregate F64.ofNat ps = some (agg.MinPrice, agg.MaxPrice, agg.AvgPrice) := by
  cases ps with
  | nil => exact absurd rfl h
  | cons p ps => exact ⟨_, rfl, rfl, rfl, rfl, rfl, rfl⟩

theorem aggregateAndSend_stats (ps : List F64) (u : PriceUpdate) (w : Int) (now : Nat)
    (s : Shard) : (aggregateAndSend ps u w now s).stats = s.stats := by
  unfold aggregateAndSend
  cases mkAggregate ps u now with
  | none => rfl
  | some agg => dsimp only; cases trySend s.toPG agg <;> rfl

theorem aggregateAndSend_toRedis (ps : List F64) (u : PriceUpdate) (w : Int) (now : Nat)
    (s : Shard) : (aggregateAndSend ps u w now s).toRedis = s.toRedis := by
  unfold aggregateAndSend
  cases mkAggregate ps u now with
  | none => rfl
  | some agg => dsimp only; cases trySend s.toPG agg <;> rfl

theorem aggregateAndSend_emitted (ps : List F64) (u : PriceUpdate) (w : Int) (now : Nat)
    (s : Shard) (agg : PriceUpdate) (h : mkAggregate ps u now = some agg) :
    (aggregateAndSend ps u w now s).emitted = s.emitted ++ [(ps, agg)] := by
  unfold aggregateAndSend
  rw [h]; dsimp only; cases trySend s.toPG agg <;> rfl

theorem getD_prices (sym : String) (s : Shard) :
    ((statsGet sym s.stats).getD { prices := [], lastUpdate := PriceUpdate.zero }).prices
      = bucket sym s := by
  unfold bucket
  cases statsGet sym s.stats <;> rfl

theorem bucket_set_same (sym : String) (v : symbolStats) (s t : Shard)
    (h : t.stats = statsSet sym v s.stats) : bucket sym t = v.prices := by
  unfold bucket; rw [h, statsGet_set_same]

theorem bucket_set_other (sym S : String) (v : symbolStats) (s t : Shard)
    (h : t.stats = statsSet sym v s.stats) (hne : S ≠ sym) : bucket S t = bucket S s := by
  unfold bucket; rw [h, statsGet_set_other _ _ _ _ hne]

theorem bucket_congr (S : String) (s t : Shard) (h : t.stats = s.stats) :
    bucket S t = bucket S s := by
  unfold bucket; rw [h]

theorem updateBucket_stats (w : Int) (now : Nat) (u : PriceUpdate) (s : Shard) :
    (updateBucket w now u s).stats
      = statsSet u.Symbol
          { prices := if 5 ≤ (bucket u.Symbol s ++ [u.Price]).length then []
                      else bucket u.Symbol s ++ [u.Price],
            lastUpdate := u } s.stats := by
  unfold updateBucket
  simp only [getD_prices]
  split
  · simp only [aggregateAndSend_stats]
  · rfl

theorem updateBucket_toRedis (w : Int) (now : Nat) (u : PriceUpdate) (s : Shard) :
    (updateBucket w now u s).toRedis = s.toRedis := by
  unfold updateBucket
  simp only [getD_prices]
  split
  · simp only [aggregateAndSend_toRedis]
  · rfl

theorem updateBucket_emitted_full (w : Int) (now : Nat) (u : PriceUpdate) (s : Shard)
    (h : 5 ≤ (bucket u.Symbol s ++ [u.Price]).length) :
    ∃ agg, mkAggregate (bucket u.Symbol s ++ [u.Price]) u now = some agg ∧
      (updateBucket w now u s).emitted = s.emitted ++ [(bucket u.Symbol s ++ [u.Price], agg)] := by
  obtain ⟨agg, hagg, _⟩ := mkAggregate_ne_nil (bucket u.Symbol s ++ [u.Price]) u now (by simp)
  refine ⟨agg, hagg, ?_⟩
  unfold updateBucket
  simp only [getD_prices, if_pos h]
  exact aggregateAndSend_emitted _ _ _ _ _ _ hagg

theorem updateBucket_not_full (w : Int) (now : Nat) (u : PriceUpdate) (s : Shard)
    (h : ¬ 5 ≤ (bucket u.Symbol s ++ [u.Price]).length) :
    (updateBucket w now u s).emitted = s.emitted ∧ (updateBucket w now u s).toPG = s.toPG ∧
      (updateBucket w now u s).log = s.log := by
  unfold updateBucket
  simp only [getD_prices, if_neg h, and_self]

theorem emittedFor_append (S : String) (em : List (List F64 × PriceUpdate)) (ps : List F64)
    (agg : PriceUpdate) :
    emittedFor S (em ++ [(ps, agg)])
      = emittedFor S em ++ (if agg.Symbol = S then [ps] else []) := by
  unfold emittedFor
  by_cases h : agg.Symbol = S <;> simp [List.filter_append, List.filter_cons, h]

theorem sendRedis_stats (u : PriceUpdate) (s : Shard) : (sendRedis u s).stats = s.stats := by
  unfold sendRedis; cases trySend s.toRedis u <;> rfl

theorem sendRedis_emitted (u : PriceUpdate) (s : Shard) :
    (sendRedis u s).emitted = s.emitted := by
  unfold sendRedis; cases trySend s.toRedis u <;> rfl

theorem sendRedis_toPG (u : PriceUpdate) (s : Shard) : (sendRedis u s).toPG = s.toPG := by
  unfold sendRedis; cases trySend s.toRedis u <;> rfl

theorem sendPG_stats (u : PriceUpdate) (s : Shard) : (sendPG u s).stats = s.stats := by
  unfold sendPG; cases trySend s.toPG u <;> rfl

theorem sendPG_emitted (u : PriceUpdate) (s : Shard) : (sendPG u s).emitted = s.emitted := by
  unfold sendPG; cases trySend s.toPG u <;> rfl

theorem sendPG_toRedis (u : PriceUpdate) (s : Shard) : (sendPG u s).toRedis = s.toRedis := by
  unfold sendPG; cases trySend s.toPG u <;> rfl

theorem handleTick_own (X : String) (w : Int) (now : Nat) (u : PriceUpdate) (s : Shard)
    (hX : u.Exchange = X) :
    handleTick X w now u s = updateBucket w now u (sendPG u (sendRedis u s)) := by
  unfold handleTick; rw [if_neg (not_not.2 hX)]

theorem handleTick_foreign (X : String) (w : Int) (now : Nat) (u : PriceUpdate) (s : Shard)
    (hX : u.Exchange ≠ X) : handleTick X w now u s = s := by
  unfold handleTick; rw [if_pos hX]

theorem sends_bucket (S : String) (u : PriceUpdate) (s : Shard) :
    bucket S (sendPG u (sendRedis u s)) = bucket S s :=
  bucket_congr S _ _ (by rw [sendPG_stats, sendRedis_stats])

theorem sends_emitted (u : PriceUpdate) (s : Shard) :
    (sendPG u (sendRedis u s)).emitted = s.emitted := by
  rw [sendPG_emitted, sendRedis_emitted]

/-- The bucket of the tick's symbol after the tick has been handled. -/
theorem handleTick_bucket_same (X : String) (w : Int) (now : Nat) (u : PriceUpdate)
    (s : Shard) (hX : u.Exchange = X) :
    bucket u.Symbol (handleTick X w now u s)
      = if 5 ≤ (bucket u.Symbol s ++ [u.Price]).length then []
        else bucket u.Symbol s ++ [u.Price] := by
  rw [handleTick_own X w now u s hX,
    bucket_set_same u.Symbol _ _ _ (updateBucket_stats w now u _), sends_bucket]

theorem handleTick_bucket_other (X : String) (w : Int) (now : Nat) (u : PriceUpdate)
    (s : Shard) (S : String) (hS : S ≠ u.Symbol) :
    bucket S (handleTick X w now u s) = bucket S s := by
  by_cases hX : u.Exchange = X
  · rw [handleTick_own X w now u s hX,
      bucket_set_other u.Symbol S _ _ _ (updateBucket_stats w now u _) hS, sends_bucket]
  · rw [handleTick_foreign X w now u s hX]

/-- What a handled tick adds to the history: nothing below the threshold, the
aggregate of the five bucket prices at the threshold. -/
theorem handleTick_emitted (X : String) (w : Int) (now : Nat) (u : PriceUpdate)
    (s : Shard) (hX : u.Exchange = X) :
    (5 ≤ (bucket u.Symbol s ++ [u.Price]).length →
      ∃ agg, mkAggregate (bucket u.Symbol s ++ [u.Price]) u now = some agg ∧
        (handleTick X w now u s).emitted
          = s.emitted ++ [(bucket u.Symbol s ++ [u.Price], agg)]) ∧
    (¬ 5 ≤ (bucket u.Symbol s ++ [u.Price]).length →
      (handleTick X w now u s).emitted = s.emitted) := by
  rw [handleTick_own X w now u s hX]
  constructor
  · intro h
    have h2 : 5 ≤ (bucket u.Symbol (sendPG u (sendRedis u s)) ++ [u.Price]).length := by
      rw [sends_bucket]; exact h
    obtain ⟨agg, h3, h4⟩ := updateBucket_emitted_full w now u _ h2
    rw [sends_bucket] at h3 h4
    rw [sends_emitted] at h4
    exact ⟨agg, h3, h4⟩
  · intro h
    have h2 : ¬ 5 ≤ (bucket u.Symbol (sendPG u (sendRedis u s)) ++ [u.Price]).length := by
      rw [sends_bucket]; exact h
    rw [(updateBucket_not_full w now u _ h2).1, sends_emitted]

theorem handleTick_partition (X : String) (w : Int) (now : Nat) (u : PriceUpdate) (s : Shard)
    (S : String) (hX : u.Exchange = X) :
    (emittedFor S (handleTick X w now u s).emitted).flatten ++ bucket S (handleTick X w now u s)
      = ((emittedFor S s.emitted).flatten ++ bucket S s)
          ++ (if u.Symbol = S then [u.Price] else []) := by
  obtain ⟨hfull, hnot⟩ := handleTick_emitted X w now u s hX
  by_cases hS : u.Symbol = S
  · subst hS
    rw [handleTick_bucket_same X w now u s hX, if_pos rfl]
    by_cases h5 : 5 ≤ (bucket u.Symbol s ++ [u.Price]).length
    · obtain ⟨agg, h1, h2⟩ := hfull h5
      obtain ⟨agg', h3, _, h4, _⟩ := mkAggregate_ne_nil (bucket u.Symbol s ++ [u.Price]) u now
        (by simp)
      have : agg = agg' := Option.some.inj (h1.symm.trans h3)
      subst this
      rw [h2, emittedFor_append, if_pos h4, if_pos h5]
      simp
    · rw [hnot h5, if_neg h5]; simp
  · rw [handleTick_bucket_other X w now u s S (Ne.symm hS), if_neg hS]
    by_cases h5 : 5 ≤ (bucket u.Symbol s ++ [u.Price]).length
    · obtain ⟨agg, h1, h2⟩ := hfull h5
      obtain ⟨agg', h3, _, h4, _⟩ := mkAggregate_ne_nil (bucket u.Symbol s ++ [u.Price]) u now
        (by simp)
      have : agg = agg' := Option.some.inj (h1.symm.trans h3)
      subst this
      rw [h2, emittedFor_append, if_neg (by rw [h4]; exact hS)]
      simp
    · rw [hnot h5]; simp

/-- The three cases of the flush of one bucket. -/
theorem flushBucket_cases (now : Nat) (s : Shard) (sym : String) :
    (bucket sym s = [] ∧ flushBucket now s sym = s) ∨
    (∃ stat agg, statsGet sym s.stats = some stat ∧ stat.prices ≠ [] ∧
      mkAggregate stat.prices stat.lastUpdate now = some agg ∧
      (flushBucket now s sym).stats = statsSet sym { stat with prices := [] } s.stats ∧
      (flushBucket now s sym).emitted = s.emitted ++ [(stat.prices, agg)] ∧
      (flushBucket now s sym).toRedis = s.toRedis) := by
  unfold flushBucket bucket
  cases h : statsGet sym s.stats with
  | none => exact Or.inl ⟨rfl, rfl⟩
  | some stat =>
    dsimp only
    by_cases hp : 0 < stat.prices.length
    · right
      have hne : stat.prices ≠ [] := List.ne_nil_of_length_pos hp
      obtain ⟨agg, hagg, _⟩ := mkAggregate_ne_nil stat.prices stat.lastUpdate now hne
      refine ⟨stat, agg, rfl, hne, hagg, ?_⟩
      rw [if_pos hp]
      exact ⟨by simp only [aggregateAndSend_stats],
        aggregateAndSend_emitted _ _ _ _ _ _ hagg, aggregateAndSend_toRedis _ _ _ _ _⟩
    · left
      rw [if_neg hp]
      exact ⟨List.length_eq_zero.1 (Nat.eq_zero_of_not_pos hp), rfl⟩

theorem flushBucket_bucket_same (now : Nat) (s : Shard) (sym : String) :
    bucket sym (flushBucket now s sym) = [] := by
  rcases flushBucket_cases now s sym with ⟨h1, h2⟩ | ⟨stat, agg, _, _, _, h4, _⟩
  · rw [h2, h1]
  · rw [bucket_set_same sym _ _ _ h4]

theorem flushBucket_bucket_other (now : Nat) (s : Shard) (sym S : String) (hS : S ≠ sym) :
    bucket S (flushBucket now s sym) = bucket S s := by
  rcases flushBucket_cases now s sym with ⟨_, h2⟩ | ⟨stat, agg, _, _, _, h4, _⟩
  · rw [h2]
  · rw [bucket_set_other sym S _ _ _ h4 hS]

theorem flushBucket_partition (X : String) (now : Nat) (s : Shard) (sym S : String)
    (hok : BucketsOk X s) :
    (emittedFor S (flushBucket now s sym).emitted).flatten ++ bucket S (flushBucket now s sym)
      = (emittedFor S s.emitted).flatten ++ bucket S s := by
  rcases flushBucket_cases now s sym with ⟨_, h2⟩ | ⟨stat, agg, h1, h2, h3, h4, h5, _⟩
  · rw [h2]
  · obtain ⟨agg', h6, _, h7, _⟩ := mkAggregate_ne_nil stat.prices stat.lastUpdate now h2
    have : agg = agg' := Option.some.inj (h3.symm.trans h6)
    subst this
    have hsym : agg.Symbol = sym := by rw [h7]; exact (hok sym stat h1).1
    by_cases hS : S = sym
    · subst hS
      rw [h5, emittedFor_append, if_pos hsym, bucket_set_same S _ _ _ h4]
      have : bucket S s = stat.prices := by unfold bucket; rw [h1]
      rw [this]; simp
    · rw [h5, emittedFor_append, if_neg (by rw [hsym]; exact Ne.symm hS),
        bucket_set_other sym S _ _ _ h4 hS]
      simp

theorem flushBucket_bucketsOk (X : String) (now : Nat) (s : Shard) (sym : String)
    (hok : BucketsOk X s) : BucketsOk X (flushBucket now s sym) := by
  rcases flushBucket_cases now s sym with ⟨_, h2⟩ | ⟨stat, agg, h1, _, _, h4, _⟩
  · rw [h2]; exact hok
  · intro k v hk
    rw [h4] at hk
    by_cases hks : k = sym
    · subst hks
      rw [statsGet_set_same] at hk
      have := hok k stat h1
      cases hk
      exact ⟨this.1, this.2.1, Nat.zero_le _⟩
    · rw [statsGet_set_other _ _ _ _ hks] at hk
      exact hok k v hk

theorem flushBucket_emittedOk (X : String) (now : Nat) (s : Shard) (sym : String)
    (hok : BucketsOk X s) (hem : EmittedOk X s) : EmittedOk X (flushBucket now s sym) := by
  rcases flushBucket_cases now s sym with ⟨_, h2⟩ | ⟨stat, agg, h1, h2, h3, _, h5, _⟩
  · rw [h2]; exact hem
  · obtain ⟨agg', h6, h7, _, h8, _, h9⟩ := mkAggregate_ne_nil stat.prices stat.lastUpdate now h2
    have : agg = agg' := Option.some.inj (h3.symm.trans h6)
    subst this
    intro e he
    rw [h5, List.mem_append, List.mem_singleton] at he
    rcases he with he | rfl
    · exact hem e he
    · exact ⟨h2, by rw [h7]; exact (hok sym stat h1).2.1, h8, h9⟩

theorem handleTick_bucketsOk (X : String) (w : Int) (now : Nat) (u : PriceUpdate) (s : Shard)
    (hok : BucketsOk X s) : BucketsOk X (handleTick X w now u s) := by
  by_cases hX : u.Exchange = X
  · rw [handleTick_own X w now u s hX]
    intro k v hk
    rw [updateBucket_stats, sendPG_stats, sendRedis_stats] at hk
    by_cases hks : k = u.Symbol
    · subst hks
      rw [statsGet_set_same] at hk
      cases hk
      refine ⟨rfl, hX, ?_⟩
      dsimp only
      split
      · exact Nat.zero_le _
      · omega
    · rw [statsGet_set_other _ _ _ _ hks] at hk
      exact hok k v hk
  · rw [handleTick_foreign X w now u s hX]; exact hok

theorem handleTick_emittedOk (X : String) (w : Int) (now : Nat) (u : PriceUpdate) (s : Shard)
    (hem : EmittedOk X s) : EmittedOk X (handleTick X w now u s) := by
  by_cases hX : u.Exchange = X
  · obtain ⟨hfull, hnot⟩ := handleTick_emitted X w now u s hX
    by_cases h5 : 5 ≤ (bucket u.Symbol s ++ [u.Price]).length
    · obtain ⟨agg, h1, h2⟩ := hfull h5
      obtain ⟨agg', h6, h7, _, h8, _, h9⟩ :=
        mkAggregate_ne_nil (bucket u.Symbol s ++ [u.Price]) u now (by simp)
      have : agg = agg' := Option.some.inj (h1.symm.trans h6)
      subst this
      intro e he
      rw [h2, List.mem_append, List.mem_singleton] at he
      rcases he with he | rfl
      · exact hem e he
      · exact ⟨by simp, by rw [h7]; exact hX, h8, h9⟩
    · intro e he
      rw [hnot h5] at he
      exact hem e he
  · rw [handleTick_foreign X w now u s hX]; exact hem

theorem flushFold_bucket (now : Nat) (l : List String) (s : Shard) (S : String) :
    bucket S (l.foldl (flushBucket now) s) = if S ∈ l then [] else bucket S s := by
  induction l generalizing s with
  | nil => simp
  | cons sym l ih =>
    rw [List.foldl_cons, ih]
    by_cases h1 : S ∈ l
    · simp [h1]
    · by_cases h2 : S = sym
      · subst h2; simp [h1, flushBucket_bucket_same]
      · simp [h1, h2, flushBucket_bucket_other now s sym S h2]

theorem flushFold_inv (X : String) (now : Nat) (l : List String) (s : Shard)
    (hok : BucketsOk X s) (hem : EmittedOk X s) :
    BucketsOk X (l.foldl (flushBucket now) s) ∧ EmittedOk X (l.foldl (flushBucket now) s) ∧
    ∀ S, (emittedFor S (l.foldl (flushBucket now) s).emitted).flatten
          ++ bucket S (l.foldl (flushBucket now) s)
        = (emittedFor S s.emitted).flatten ++ bucket S s := by
  induction l generalizing s with
  | nil => exact ⟨hok, hem, fun _ => rfl⟩
  | cons sym l ih =>
    obtain ⟨h1, h2, h3⟩ := ih (flushBucket now s sym) (flushBucket_bucketsOk X now s sym hok)
      (flushBucket_emittedOk X now s sym hok hem)
    refine ⟨h1, h2, fun S => ?_⟩
    rw [List.foldl_cons, h3 S, flushBucket_partition X now s sym S hok]

theorem flushFold_new (X : String) (now : Nat) (l : List String) (s : Shard)
    (hok : BucketsOk X s) :
    ∃ new, (l.foldl (flushBucket now) s).emitted = s.emitted ++ new ∧
      ∀ n ∈ new, bucket n.2.Symbol (l.foldl (flushBucket now) s) = [] := by
  induction l generalizing s with
  | nil => exact ⟨[], by simp, by simp⟩
  | cons sym l ih =>
    obtain ⟨new, h1, h2⟩ := ih (flushBucket now s sym) (flushBucket_bucketsOk X now s sym hok)
    rw [List.foldl_cons]
    rcases flushBucket_cases now s sym with ⟨_, h3⟩ | ⟨stat, agg, h3, h4, h5, _, h7, _⟩
    · rw [h3] at h1 h2 ⊢; exact ⟨new, h1, h2⟩
    · obtain ⟨agg', h8, _, h9, _⟩ := mkAggregate_ne_nil stat.prices stat.lastUpdate now h4
      have : agg = agg' := Option.some.inj (h5.symm.trans h8)
      subst this
      refine ⟨(stat.prices, agg) :: new, by rw [h1, h7]; simp, ?_⟩
      intro n hn
      rcases List.mem_cons.1 hn with rfl | hn
      · have hsym : agg.Symbol = sym := by rw [h9]; exact (hok sym stat h3).1
        rw [flushFold_bucket]
        split
        · rfl
        · dsimp only; rw [hsym]; exact flushBucket_bucket_same now s sym
      · exact h2 n hn

theorem ownPrices_cons (X S : String) (e : Event) (evs : List Event) :
    ownPrices X S (e :: evs) = ownPrices X S [e] ++ ownPrices X S evs := by
  cases e with
  | tick w now u =>
    by_cases h : u.Exchange = X ∧ u.Symbol = S <;> simp [ownPrices, h]
  | flush rank now => simp [ownPrices]
  | recvRedis => simp [ownPrices]
  | recvPG => simp [ownPrices]

theorem step_inv (X : String) (s : Shard) (e : Event) (hok : BucketsOk X s)
    (hem : EmittedOk X s) :
    BucketsOk X (step X s e) ∧ EmittedOk X (step X s e) ∧
    ∀ S, (emittedFor S (step X s e).emitted).flatten ++ bucket S (step X s e)
        = ((emittedFor S s.emitted).flatten ++ bucket S s) ++ ownPrices X S [e] := by
  cases e with
  | tick w now u =>
    refine ⟨handleTick_bucketsOk X w now u s hok, handleTick_emittedOk X w now u s hem,
      fun S => ?_⟩
    show (emittedFor S (handleTick X w now u s).emitted).flatten
        ++ bucket S (handleTick X w now u s) = _
    by_cases hX : u.Exchange = X
    · rw [handleTick_partition X w now u s S hX]
      by_cases hS : u.Symbol = S <;> simp [ownPrices, hX, hS]
    · rw [handleTick_foreign X w now u s hX]
      simp [ownPrices, hX]
  | flush rank now =>
    obtain ⟨h1, h2, h3⟩ := flushFold_inv X now
      ((s.stats.map Prod.fst).insertionSort (fun a b => rank a ≤ rank b)) s hok hem
    exact ⟨h1, h2, fun S => by simpa [ownPrices] using h3 S⟩
  | recvRedis => exact ⟨hok, hem, fun S => by simp [ownPrices, step, bucket]⟩
  | recvPG => exact ⟨hok, hem, fun S => by simp [ownPrices, step, bucket]⟩

theorem step_new (X : String) (s : Shard) (e : Event) (hok : BucketsOk X s) :
    ∃ new, (step X s e).emitted = s.emitted ++ new ∧
      ∀ n ∈ new, bucket n.2.Symbol (step X s e) = [] := by
  cases e with
  | tick w now u =>
    show ∃ new, (handleTick X w now u s).emitted = s.emitted ++ new ∧
      ∀ n ∈ new, bucket n.2.Symbol (handleTick X w now u s) = []
    by_cases hX : u.Exchange = X
    · obtain ⟨hfull, hnot⟩ := handleTick_emitted X w now u s hX
      by_cases h5 : 5 ≤ (bucket u.Symbol s ++ [u.Price]).length
      · obtain ⟨agg, h1, h2⟩ := hfull h5
        obtain ⟨agg', h6, _, h7, _⟩ :=
          mkAggregate_ne_nil (bucket u.Symbol s ++ [u.Price]) u now (by simp)
        have : agg = agg' := Option.some.inj (h1.symm.trans h6)
        subst this
        refine ⟨_, h2, ?_⟩
        intro n hn
        rw [List.mem_singleton] at hn
        subst hn
        dsimp only
        rw [h7, handleTick_bucket_same X w now u s hX, if_pos h5]
      · exact ⟨[], by rw [hnot h5]; simp, by simp⟩
    · exact ⟨[], by rw [handleTick_foreign X w now u s hX]; simp, by simp⟩
  | flush rank now => exact flushFold_new X now _ s hok
  | recvRedis => exact ⟨[], by simp [step], by simp⟩
  | recvPG => exact ⟨[], by simp [step], by simp⟩

theorem run_inv (X : String) (evs : List Event) (s : Shard) (hok : BucketsOk X s)
    (hem : EmittedOk X s) :
    BucketsOk X (run X s evs) ∧ EmittedOk X (run X s evs) ∧
    ∀ S, (emittedFor S (run X s evs).emitted).flatten ++ bucket S (run X s evs)
        = ((emittedFor S s.emitted).flatten ++ bucket S s) ++ ownPrices X S evs := by
  induction evs generalizing s with
  | nil => exact ⟨hok, hem, fun S => by simp [run, ownPrices]⟩
  | cons e evs ih =>
    obtain ⟨h1, h2, h3⟩ := step_inv X s e hok hem
    obtain ⟨h4, h5, h6⟩ := ih (step X s e) h1 h2
    refine ⟨h4, h5, fun S => ?_⟩
    have : run X s (e :: evs) = run X (step X s e) evs := rfl
    rw [this, h6 S, h3 S, ownPrices_cons X S e evs, List.append_assoc]

theorem init_ok (X : String) (cR cP : Chan) :
    BucketsOk X (Shard.init cR cP) ∧ EmittedOk X (Shard.init cR cP) := by
  constructor
  · intro sym stat h; simp [Shard.init, statsGet] at h
  · intro e he; simp [Shard.init] at he

theorem run_append (X : String) (s : Shard) (evs : List Event) (e : Event) :
    run X s (evs ++ [e]) = step X (run X s evs) e := by
  simp [run, List.foldl_append]

theorem statsSet_keys (k : String) (v : symbolStats) (l : List (String × symbolStats)) :
    (statsSet k v l).map Prod.fst
      = if k ∈ l.map Prod.fst then l.map Prod.fst else l.map Prod.fst ++ [k] := by
  induction l with
  | nil => simp [statsSet]
  | cons kv l ih =>
    obtain ⟨k', w⟩ := kv
    by_cases h : k' = k
    · subst h; simp [statsSet]
    · have h' : ¬ k = k' := fun e => h e.symm
      by_cases h2 : k ∈ l.map Prod.fst
      · simp only [statsSet, if_neg h, List.map_cons, ih, if_pos h2, List.mem_cons, h2, or_true,
          if_true]
      · simp only [statsSet, if_neg h, List.map_cons, ih, if_neg h2, List.mem_cons, h2, h',
          or_self, if_false, List.cons_append]

theorem statsSet_nodup (k : String) (v : symbolStats) (l : List (String × symbolStats))
    (h : (l.map Prod.fst).Nodup) : ((statsSet k v l).map Prod.fst).Nodup := by
  rw [statsSet_keys]
  split
  · exact h
  · rename_i hk
    rw [List.nodup_append]
    refine ⟨h, List.nodup_singleton k, ?_⟩
    intro a ha hb
    rw [List.mem_singleton] at hb
    subst hb
    exact hk ha

theorem statsGet_of_mem (k : String) (v : symbolStats) (l : List (String × symbolStats))
    (hnd : (l.map Prod.fst).Nodup) (h : (k, v) ∈ l) : statsGet k l = some v := by
  induction l with
  | nil => cases h
  | cons kv l ih =>
    obtain ⟨k', w⟩ := kv
    rw [List.map_cons, List.nodup_cons] at hnd
    rcases List.mem_cons.1 h with heq | hmem
    · cases heq; simp [statsGet]
    · have hne : k' ≠ k := by
        intro e
        subst e
        exact hnd.1 (List.mem_map.2 ⟨_, hmem, rfl⟩)
      simp only [statsGet, if_neg hne]
      exact ih hnd.2 hmem

theorem statsGet_some_mem_keys (k : String) (v : symbolStats) (l : List (String × symbolStats))
    (h : statsGet k l = some v) : k ∈ l.map Prod.fst := by
  induction l with
  | nil => simp [statsGet] at h
  | cons kv l ih =>
    obtain ⟨k', w⟩ := kv
    by_cases hk : k' = k
    · simp [hk]
    · simp only [statsGet, if_neg hk] at h
      simp [ih h]

theorem handleTick_nodup (X : String) (w : Int) (now : Nat) (u : PriceUpdate) (s : Shard)
    (h : (s.stats.map Prod.fst).Nodup) :
    ((handleTick X w now u s).stats.map Prod.fst).Nodup := by
  by_cases hX : u.Exchange = X
  · rw [handleTick_own X w now u s hX, updateBucket_stats, sendPG_stats, sendRedis_stats]
    exact statsSet_nodup _ _ _ h
  · rw [handleTick_foreign X w now u s hX]; exact h

theorem flushBucket_keys (now : Nat) (s : Shard) (sym : String) :
    (flushBucket now s sym).stats.map Prod.fst = s.stats.map Prod.fst := by
  rcases flushBucket_cases now s sym with ⟨_, h2⟩ | ⟨stat, agg, h1, _, _, h4, _⟩
  · rw [h2]
  · rw [h4, statsSet_keys, if_pos (statsGet_some_mem_keys _ _ _ h1)]

theorem flushFold_keys (now : Nat) (l : List String) (s : Shard) :
    (l.foldl (flushBucket now) s).stats.map Prod.fst = s.stats.map Prod.fst := by
  induction l generalizing s with
  | nil => rfl
  | cons sym l ih => rw [List.foldl_cons, ih, flushBucket_keys]

theorem step_nodup (X : String) (s : Shard) (e : Event) (h : (s.stats.map Prod.fst).Nodup) :
    ((step X s e).stats.map Prod.fst).Nodup := by
  cases e with
  | tick w now u => exact handleTick_nodup X w now u s h
  | flush rank now =>
    show ((flushTick rank now s).stats.map Prod.fst).Nodup
    unfold flushTick
    rw [flushFold_keys]; exact h
  | recvRedis => exact h
  | recvPG => exact h

theorem run_nodup (X : String) (evs : List Event) (s : Shard)
    (h : (s.stats.map Prod.fst).Nodup) : ((run X s evs).stats.map Prod.fst).Nodup := by
  induction evs generalizing s with
  | nil => exact h
  | cons e evs ih => exact ih (step X s e) (step_nodup X s e h)

/-- C4. After any sequence of ticks, flushes and queue receives handled by a
fresh shard every bucket holds at most 4 prices.  A tick of the shard's
exchange that finds 4 prices in the bucket of its symbol makes it reach 5:
the aggregate of exactly those 5 prices is emitted and the bucket is reset to
empty; a tick that finds fewer only appends its price.  Hence every aggregate
emitted while a tick is handled covers exactly 5 samples. -/
theorem bucket_at_most_four (X : String) (cR cP : Chan) (evs : List Event) (w : Nat)
    (now : Nat) (u : PriceUpdate) :
    (∀ kv ∈ (run X (Shard.init cR cP) evs).stats, kv.2.prices.length ≤ 4) ∧
    (u.Exchange = X → (bucket u.Symbol (run X (Shard.init cR cP) evs)).length = 4 →
      ∃ agg, mkAggregate (bucket u.Symbol (run X (Shard.init cR cP) evs) ++ [u.Price]) u now
          = some agg ∧
        (run X (Shard.init cR cP) (evs ++ [Event.tick w now u])).emitted
          = (run X (Shard.init cR cP) evs).emitted
              ++ [(bucket u.Symbol (run X (Shard.init cR cP) evs) ++ [u.Price], agg)] ∧
        bucket u.Symbol (run X (Shard.init cR cP) (evs ++ [Event.tick w now u])) = []) ∧
    (u.Exchange = X → (bucket u.Symbol (run X (Shard.init cR cP) evs)).length < 4 →
      (run X (Shard.init cR cP) (evs ++ [Event.tick w now u])).emitted
          = (run X (Shard.init cR cP) evs).emitted ∧
        bucket u.Symbol (run X (Shard.init cR cP) (evs ++ [Event.tick w now u]))
          = bucket u.Symbol (run X (Shard.init cR cP) evs) ++ [u.Price]) ∧
    (∀ new, (run X (Shard.init cR cP) (evs ++ [Event.tick w now u])).emitted
          = (run X (Shard.init cR cP) evs).emitted ++ new →
      ∀ n ∈ new, n.1.length = 5) := by
  obtain ⟨h1, h2⟩ := init_ok X cR cP
  obtain ⟨h3, _, _⟩ := run_inv X evs _ h1 h2
  have hnd : ((run X (Shard.init cR cP) evs).stats.map Prod.fst).Nodup :=
    run_nodup X evs _ (by simp [Shard.init])
  have hstep : run X (Shard.init cR cP) (evs ++ [Event.tick w now u])
      = handleTick X (w : Int) now u (run X (Shard.init cR cP) evs) := run_append X _ evs _
  rw [hstep]
  generalize run X (Shard.init cR cP) evs = s at h3 hnd ⊢
  have hlen : (bucket u.Symbol s).length ≤ 4 := by
    unfold bucket
    cases h : statsGet u.Symbol s.stats with
    | none => simp
    | some stat => exact (h3 _ _ h).2.2
  refine ⟨?_, ?_, ?_, ?_⟩
  · intro kv hkv
    exact (h3 kv.1 kv.2 (statsGet_of_mem kv.1 kv.2 _ hnd hkv)).2.2
  · intro hX h4
    have h5 : 5 ≤ (bucket u.Symbol s ++ [u.Price]).length := by simp [h4]
    obtain ⟨agg, h6, h7⟩ := (handleTick_emitted X w now u s hX).1 h5
    exact ⟨agg, h6, h7, by rw [handleTick_bucket_same X w now u s hX, if_pos h5]⟩
  · intro hX h4
    have h5 : ¬ 5 ≤ (bucket u.Symbol s ++ [u.Price]).length := by
      simp only [List.length_append, List.length_singleton]; omega
    exact ⟨(handleTick_emitted X w now u s hX).2 h5,
      by rw [handleTick_bucket_same X w now u s hX, if_neg h5]⟩
  · intro new hnew n hn
    by_cases hX : u.Exchange = X
    · by_cases h5 : 5 ≤ (bucket u.Symbol s ++ [u.Price]).length
      · obtain ⟨agg, _, h7⟩ := (handleTick_emitted X w now u s hX).1 h5
        rw [h7] at hnew
        have := List.append_cancel_left hnew
        subst this
        rw [List.mem_singleton] at hn
        subst hn
        simp only [List.length_append, List.length_singleton] at h5 ⊢
        omega
      · rw [(handleTick_emitted X w now u s hX).2 h5] at hnew
        have : new = [] := by simpa using hnew
        subst this
        cases hn
    · rw [handleTick_foreign X w now u s hX] at hnew
      have : new = [] := by simpa using hnew
      subst this
      cases hn

theorem ownPrices_mem (X S : String) (evs : List Event) (p : F64) (h : p ∈ ownPrices X S evs) :
    ∃ w now u, Event.tick w now u ∈ evs ∧ u.Exchange = X ∧ u.Symbol = S ∧ u.Price = p := by
  induction evs with
  | nil => cases h
  | cons e evs ih =>
    have step : p ∈ ownPrices X S evs →
        ∃ w now u, Event.tick w now u ∈ e :: evs ∧ u.Exchange = X ∧ u.Symbol = S ∧
          u.Price = p := fun h' => by
      obtain ⟨w, now, u, h1, h2⟩ := ih h'
      exact ⟨w, now, u, List.mem_cons_of_mem _ h1, h2⟩
    cases e with
    | tick w now u =>
      by_cases hc : u.Exchange = X ∧ u.Symbol = S
      · simp only [ownPrices, if_pos hc, List.mem_cons] at h
        rcases h with rfl | h
        · exact ⟨w, now, u, List.mem_cons_self _ _, hc.1, hc.2, rfl⟩
        · exact step h
      · simp only [ownPrices, if_neg hc] at h
        exact step h
    | flush rank now => exact step (by simpa [ownPrices] using h)
    | recvRedis => exact step (by simpa [ownPrices] using h)
    | recvPG => exact step (by simpa [ownPrices] using h)

/-- C5. A tick whose exchange differs from that of the shard leaves the whole
shard unchanged: buckets, cache queue, persistence queue and log.  After any
sequence of events handled by a fresh shard for exchange `X`, every emitted
aggregate has `Exchange = X`, and every price of its slice is the price of a
tick of the sequence with `Exchange = X` and the symbol of the aggregate. -/
theorem exchange_isolation (X : String) (cR cP : Chan) (evs : List Event) (w : Nat)
    (now : Nat) (u : PriceUpdate) (s : Shard) :
    (u.Exchange ≠ X → step X s (Event.tick w now u) = s) ∧
    (∀ a ∈ (run X (Shard.init cR cP) evs).emitted, a.2.Exchange = X ∧
      ∀ p ∈ a.1, ∃ w' now' u', Event.tick w' now' u' ∈ evs ∧ u'.Exchange = X ∧
        u'.Symbol = a.2.Symbol ∧ u'.Price = p) := by
  refine ⟨fun hX => handleTick_foreign X w now u s hX, ?_⟩
  obtain ⟨h1, h2⟩ := init_ok X cR cP
  obtain ⟨_, h4, h5⟩ := run_inv X evs _ h1 h2
  intro a ha
  refine ⟨(h4 a ha).2.1, fun p hp => ?_⟩
  apply ownPrices_mem X a.2.Symbol evs p
  have h6 := h5 a.2.Symbol
  simp only [Shard.init, emittedFor, bucket, statsGet, List.filter_nil, List.map_nil,
    List.flatten_nil, List.append_nil, List.nil_append] at h6
  rw [← h6]
  apply List.mem_append_left
  rw [List.mem_flatten]
  refine ⟨a.1, ?_, hp⟩
  rw [List.mem_map]
  exact ⟨a, List.mem_filter.2 ⟨ha, by simp⟩, rfl⟩

theorem aggregateAndSend_toPG_room (ps : List F64) (u : PriceUpdate) (w : Int) (now : Nat)
    (s : Shard) (agg : PriceUpdate) (h : mkAggregate ps u now = some agg)
    (hroom : s.toPG.buf.length < s.toPG.cap) :
    (aggregateAndSend ps u w now s).toPG = { s.toPG with buf := s.toPG.buf ++ [agg] } := by
  unfold aggregateAndSend
  rw [h]; dsimp only
  simp only [trySend, if_pos hroom]

theorem flushAgg_flushBucket_other (now : Nat) (s : Shard) (sym S : String) (hS : S ≠ sym) :
    flushAgg now (flushBucket now s sym) S = flushAgg now s S := by
  unfold flushAgg
  rcases flushBucket_cases now s sym with ⟨_, h2⟩ | ⟨stat, agg, _, _, _, h4, _⟩
  · rw [h2]
  · rw [h4, statsGet_set_other _ _ _ _ hS]

theorem flushBucket_toPG (now : Nat) (s : Shard) (sym : String)
    (hroom : flushAgg now s sym ≠ none → s.toPG.buf.length < s.toPG.cap) :
    (flushBucket now s sym).toPG.buf = s.toPG.buf ++ (flushAgg now s sym).toList ∧
    (flushBucket now s sym).toPG.cap = s.toPG.cap := by
  unfold flushBucket flushAgg at *
  cases h : statsGet sym s.stats with
  | none => simp
  | some stat =>
    rw [h] at hroom
    dsimp only at hroom ⊢
    by_cases hp : 0 < stat.prices.length
    · have hne : stat.prices ≠ [] := List.ne_nil_of_length_pos hp
      obtain ⟨agg, hagg, _⟩ := mkAggregate_ne_nil stat.prices stat.lastUpdate now hne
      have hr := hroom (by rw [hagg]; simp)
      rw [if_pos hp, hagg]
      dsimp only
      rw [aggregateAndSend_toPG_room _ _ _ _ _ _ hagg hr]
      simp
    · have : stat.prices = [] := List.length_eq_zero.1 (Nat.eq_zero_of_not_pos hp)
      rw [if_neg hp, this, mkAggregate_nil]
      simp

theorem flushFold_toPG (now : Nat) (l : List String) (hnd : l.Nodup) (s : Shard)
    (hroom : s.toPG.buf.length + (l.filterMap (flushAgg now s)).length ≤ s.toPG.cap) :
    (l.foldl (flushBucket now) s).toPG.buf = s.toPG.buf ++ l.filterMap (flushAgg now s) ∧
    (l.foldl (flushBucket now) s).toPG.cap = s.toPG.cap := by
  induction l generalizing s with
  | nil => simp
  | cons sym l ih =>
    rw [List.nodup_cons] at hnd
    have hcongr : l.filterMap (flushAgg now (flushBucket now s sym))
        = l.filterMap (flushAgg now s) := by
      apply List.filterMap_congr
      intro S hS
      exact flushAgg_flushBucket_other now s sym S (fun e => hnd.1 (e ▸ hS))
    have hb : flushAgg now s sym ≠ none → s.toPG.buf.length < s.toPG.cap := by
      intro hne
      cases hq : flushAgg now s sym with
      | none => exact absurd hq hne
      | some a =>
        simp only [List.filterMap_cons, hq, List.length_cons] at hroom
        omega
    obtain ⟨h1, h2⟩ := flushBucket_toPG now s sym hb
    have hroom' : (flushBucket now s sym).toPG.buf.length
        + (l.filterMap (flushAgg now (flushBucket now s sym))).length
        ≤ (flushBucket now s sym).toPG.cap := by
      rw [h1, h2, hcongr]
      cases hq : flushAgg now s sym with
      | none =>
        simp only [List.filterMap_cons, hq] at hroom
        simpa using hroom
      | some a =>
        simp only [List.filterMap_cons, hq, List.length_cons] at hroom
        simp only [Option.toList, List.length_append, List.length_singleton]
        omega
    obtain ⟨h3, h4⟩ := ih hnd.2 (flushBucket now s sym) hroom'
    rw [List.foldl_cons, h3, h4, h1, h2, hcongr]
    refine ⟨?_, rfl⟩
    cases hq : flushAgg now s sym <;> simp [List.filterMap_cons, hq]

theorem filterMap_flushAgg_keys (now : Nat) (s : Shard) (hnd : (s.stats.map Prod.fst).Nodup) :
    (s.stats.map Prod.fst).filterMap (flushAgg now s)
      = s.stats.filterMap (fun kv => mkAggregate kv.2.prices kv.2.lastUpdate now) := by
  rw [List.filterMap_map]
  apply List.filterMap_congr
  intro kv hkv
  simp only [Function.comp, flushAgg, statsGet_of_mem kv.1 kv.2 _ hnd hkv]

theorem length_filterMap_mkAggregate (now : Nat) (l : List (String × symbolStats)) :
    (l.filterMap (fun kv => mkAggregate kv.2.prices kv.2.lastUpdate now)).length
      = (l.filter (fun kv => decide (kv.2.prices ≠ []))).length := by
  induction l with
  | nil => rfl
  | cons kv l ih =>
    by_cases h : kv.2.prices = []
    · simp [List.filterMap_cons, List.filter_cons, h, mkAggregate_nil, ih]
    · obtain ⟨agg, hagg, _⟩ := mkAggregate_ne_nil kv.2.prices kv.2.lastUpdate now h
      simp [List.filterMap_cons, List.filter_cons, h, hagg, ih]

theorem rneDiv_of_mod_eq_zero (a d : Nat) (hd : 0 < d) (h : a % d = 0) : rneDiv a d = a / d := by
  unfold rneDiv
  rw [h, if_neg]
  rintro (h1 | ⟨h1, _⟩) <;> omega

theorem roundMag_of_representable (k : Nat) (h : k % 2 ^ (bitLen k - 53) = 0) :
    roundMag k 1 = k := by
  unfold roundMag
  rw [Nat.div_one, Nat.one_mul, rneDiv_of_mod_eq_zero _ _ (Nat.two_pow_pos _) h]
  exact Nat.div_mul_cancel (Nat.dvd_of_mod_eq_zero h)

theorem rneDiv_mul_left (a d c : Nat) (hc : 0 < c) : rneDiv (c * a) (c * d) = rneDiv a d := by
  unfold rneDiv
  rw [Nat.mul_mod_mul_left, Nat.mul_div_mul_left _ _ hc]
  have h1 : (c * d < 2 * (c * (a % d))) ↔ (d < 2 * (a % d)) := by
    rw [show 2 * (c * (a % d)) = c * (2 * (a % d)) by ring]
    exact Nat.mul_lt_mul_left hc
  have h2 : (2 * (c * (a % d)) = c * d) ↔ (2 * (a % d) = d) := by
    rw [show 2 * (c * (a % d)) = c * (2 * (a % d)) by ring]
    exact Nat.mul_right_inj (Nat.pos_iff_ne_zero.1 hc)
  simp only [h1, h2]

theorem roundMag_mul_right (a c : Nat) (hc : 0 < c) : roundMag (a * c) c = roundMag a 1 := by
  unfold roundMag
  rw [Nat.mul_div_cancel _ hc, Nat.div_one, Nat.mul_comm a c, rneDiv_mul_left _ _ _ hc,
    Nat.one_mul]

theorem signed_natAbs (k : Int) :
    (if decide (k < 0) = true then -(k.natAbs : Int) else (k.natAbs : Int)) = k := by
  by_cases hk : k < 0
  · simp only [hk, decide_True, if_true]; omega
  · simp only [hk, decide_False]; simp; omega

theorem F64.ofUnits_of_isDouble (k : Int) (h : (F64.fin k).isDouble = true) :
    F64.ofUnits k = F64.fin k := by
  simp only [F64.isDouble, decide_eq_true_eq] at h
  unfold F64.ofUnits F64.round
  rw [roundMag_of_representable _ h.1, if_neg (Nat.not_le.2 h.2), signed_natAbs]

theorem F64.div_fin_pos (k : Int) (c : Nat) (hc : 0 < c) :
    F64.div (F64.fin k) (F64.fin (c : Int))
      = if 2 ^ 2098 ≤ roundMag (k.natAbs * 2 ^ 1074) c then F64.inf (decide (k < 0))
        else F64.fin (if decide (k < 0) = true then -(roundMag (k.natAbs * 2 ^ 1074) c : Int)
                      else (roundMag (k.natAbs * 2 ^ 1074) c : Int)) := by
  have hc0 : ((c : Nat) : Int) ≠ 0 := by omega
  have hcneg : ¬ ((c : Nat) : Int) < 0 := by omega
  unfold F64.div F64.round
  simp only [if_neg hc0, hcneg, decide_False, Bool.bne_false, Int.natAbs_ofNat]

theorem F64.ofNat_one : F64.ofNat 1 = F64.fin ((2 ^ 1074 : Nat) : Int) := by decide!

theorem F64.div_one_of_isDouble (k : Int) (h : (F64.fin k).isDouble = true) :
    F64.div (F64.fin k) (F64.ofNat 1) = F64.fin k := by
  simp only [F64.isDouble, decide_eq_true_eq] at h
  rw [F64.ofNat_one, F64.div_fin_pos k (2 ^ 1074) (Nat.two_pow_pos 1074),
    roundMag_mul_right k.natAbs (2 ^ 1074) (Nat.two_pow_pos 1074),
    roundMag_of_representable _ h.1,
    if_neg (Nat.not_le.2 h.2), signed_natAbs]

theorem aggregate_single (p : F64) (h : p.isDouble = true) :
    aggregate F64.ofNat [p] = some (p, p, p) := by
  cases p with
  | fin k =>
    have h1 : (0 : F64) + F64.fin k = F64.fin k := by
      show F64.add (F64.fin 0) (F64.fin k) = F64.fin k
      simp only [F64.add, zero_add]
      exact F64.ofUnits_of_isDouble k h
    have h2 : F64.fin k / F64.ofNat 1 = F64.fin k := F64.div_one_of_isDouble k h
    simp only [aggregate, aggLoop, ite_self, List.length_singleton, h1, h2]
  | inf s => simp [F64.isDouble] at h
  | nan => simp [F64.isDouble] at h

theorem mkAggregate_single (p : F64) (u : PriceUpdate) (now : Nat) (h : p.isDouble = true) :
    ∃ agg, mkAggregate [p] u now = some agg ∧
      agg.MinPrice = p ∧ agg.MaxPrice = p ∧ agg.AvgPrice = p :=
  ⟨{ Exchange := u.Exchange, Symbol := u.Symbol, Price := F64.fin 0, ReceivedAt := now,
     Typ := "aggregated", AvgPrice := p, MinPrice := p, MaxPrice := p },
    by simp only [mkAggregate, aggregate_single p h], rfl, rfl, rfl⟩

/-- C6. One firing of the flush ticker, on a shard whose map has distinct keys
and whose persistence queue has room for one aggregate per non-empty bucket,
appends to the queue exactly the aggregates of the buckets, one for each
bucket holding a price and none for an empty one (in the order in which the
map is visited), and leaves every bucket empty.  The aggregate of a bucket
holding the single binary64 price `p` has `min = max = avg = p`, as for
`p = 10.5`. -/
theorem flush_emits_once (rank : String → Nat) (now : Nat) (s : Shard) (p : F64)
    (u : PriceUpdate)
    (hkeys : (s.stats.map Prod.fst).Nodup)
    (hroom : s.toPG.buf.length
        + (s.stats.filter (fun kv => decide (kv.2.prices ≠ []))).length ≤ s.toPG.cap)
    (hp : p.isDouble = true) :
    (∃ aggs, (flushTick rank now s).toPG.buf = s.toPG.buf ++ aggs ∧
      aggs.Perm (s.stats.filterMap
        (fun kv => mkAggregate kv.2.prices kv.2.lastUpdate now))) ∧
    (∀ u', mkAggregate [] u' now = none) ∧
    (∀ ps u', ps ≠ [] → ∃ agg, mkAggregate ps u' now = some agg) ∧
    (∀ kv ∈ (flushTick rank now s).stats, kv.2.prices = []) ∧
    (flushTick rank now s).stats.map Prod.fst = s.stats.map Prod.fst ∧
    (∃ agg, mkAggregate [p] u now = some agg ∧
      agg.MinPrice = p ∧ agg.MaxPrice = p ∧ agg.AvgPrice = p) ∧
    (∃ agg, mkAggregate [F64.fin (21 * 2 ^ 1073)] u now = some agg ∧
      agg.MinPrice = F64.fin (21 * 2 ^ 1073) ∧ agg.MaxPrice = F64.fin (21 * 2 ^ 1073) ∧
      agg.AvgPrice = F64.fin (21 * 2 ^ 1073)) := by
  have hperm : ((s.stats.map Prod.fst).insertionSort (fun a b => rank a ≤ rank b)).Perm
      (s.stats.map Prod.fst) := List.perm_insertionSort _ _
  have hnd := hperm.nodup_iff.2 hkeys
  have hfm := hperm.filterMap (flushAgg now s)
  rw [filterMap_flushAgg_keys now s hkeys] at hfm
  have hroom' : s.toPG.buf.length
      + (((s.stats.map Prod.fst).insertionSort (fun a b => rank a ≤ rank b)).filterMap
          (flushAgg now s)).length ≤ s.toPG.cap := by
    rw [hfm.length_eq, length_filterMap_mkAggregate]; exact hroom
  obtain ⟨h1, _⟩ := flushFold_toPG now _ hnd s hroom'
  refine ⟨⟨_, h1, hfm⟩, fun u' => mkAggregate_nil u' now, ?_, ?_, flushFold_keys now _ s,
    mkAggregate_single p u now hp, mkAggregate_single _ u now (by decide!)⟩
  · intro ps u' hps
    obtain ⟨agg, h, _⟩ := mkAggregate_ne_nil ps u' now hps
    exact ⟨agg, h⟩
  · intro kv hkv
    have hk : ((flushTick rank now s).stats.map Prod.fst).Nodup := by
      unfold flushTick; rw [flushFold_keys]; exact hkeys
    have hget := statsGet_of_mem kv.1 kv.2 _ hk hkv
    have hb : bucket kv.1 (flushTick rank now s) = kv.2.prices := by
      unfold bucket; rw [hget]
    rw [← hb]
    unfold flushTick
    rw [flushFold_bucket, if_pos]
    apply hperm.mem_iff.2
    have : kv.1 ∈ (flushTick rank now s).stats.map Prod.fst := List.mem_map.2 ⟨kv, hkv, rfl⟩
    unfold flushTick at this
    rw [flushFold_keys] at this
    exact this

theorem sendRedis_room (u : PriceUpdate) (s : Shard) (h : s.toRedis.buf.length < s.toRedis.cap) :
    sendRedis u s = { s with toRedis := { s.toRedis with buf := s.toRedis.buf ++ [u] } } := by
  simp only [sendRedis, trySend, if_pos h]

theorem sendRedis_full (u : PriceUpdate) (s : Shard)
    (h : ¬ s.toRedis.buf.length < s.toRedis.cap) :
    sendRedis u s
      = { s with log := s.log ++ [LogEntry.warn "Redis channel full, dropping update"] } := by
  simp only [sendRedis, trySend, if_neg h]

theorem sendPG_room (u : PriceUpdate) (s : Shard) (h : s.toPG.buf.length < s.toPG.cap) :
    sendPG u s = { s with toPG := { s.toPG with buf := s.toPG.buf ++ [u] } } := by
  simp only [sendPG, trySend, if_pos h]

theorem sendPG_full (u : PriceUpdate) (s : Shard) (h : ¬ s.toPG.buf.length < s.toPG.cap) :
    sendPG u s
      = { s with log := s.log ++ [LogEntry.warn "PG channel full, dropping update"] } := by
  simp only [sendPG, trySend, if_neg h]

theorem aggregateAndSend_room (ps : List F64) (u : PriceUpdate) (w : Int) (now : Nat)
    (s : Shard) (agg : PriceUpdate) (h : mkAggregate ps u now = some agg)
    (hroom : s.toPG.buf.length < s.toPG.cap) :
    aggregateAndSend ps u w now s
      = { s with toPG := { s.toPG with buf := s.toPG.buf ++ [agg] },
                 log := if 0 ≤ w then s.log ++ [LogEntry.debug "AGGREGATE READY"] else s.log,
                 emitted := s.emitted ++ [(ps, agg)] } := by
  simp only [aggregateAndSend, h, trySend, if_pos hroom]

theorem aggregateAndSend_full (ps : List F64) (u : PriceUpdate) (w : Int) (now : Nat)
    (s : Shard) (agg : PriceUpdate) (h : mkAggregate ps u now = some agg)
    (hfull : ¬ s.toPG.buf.length < s.toPG.cap) :
    aggregateAndSend ps u w now s
      = { s with log := (if 0 ≤ w then s.log ++ [LogEntry.debug "AGGREGATE READY"] else s.log)
                          ++ [LogEntry.warn "PG channel full, dropping aggregate"],
                 emitted := s.emitted ++ [(ps, agg)] } := by
  simp only [aggregateAndSend, h, trySend, if_neg hfull]

theorem mem_recv (c : Chan) (x : PriceUpdate) (h : x ∈ c.recv.buf) : x ∈ c.buf :=
  List.mem_of_mem_tail h

theorem aggregateAndSend_toPG_mem (ps : List F64) (u : PriceUpdate) (w : Int) (now : Nat)
    (s : Shard) (x : PriceUpdate) (h : x ∈ (aggregateAndSend ps u w now s).toPG.buf) :
    x ∈ s.toPG.buf ∨ mkAggregate ps u now = some x := by
  cases hagg : mkAggregate ps u now with
  | none => left; simpa [aggregateAndSend, hagg] using h
  | some agg =>
    by_cases hroom : s.toPG.buf.length < s.toPG.cap
    · rw [aggregateAndSend_room ps u w now s agg hagg hroom] at h
      rcases List.mem_append.1 h with h | h
      · exact Or.inl h
      · right; rw [List.mem_singleton] at h; rw [h]
    · rw [aggregateAndSend_full ps u w now s agg hagg hroom] at h
      exact Or.inl h

theorem sendRedis_toRedis_mem (u x : PriceUpdate) (s : Shard)
    (h : x ∈ (sendRedis u s).toRedis.buf) : x ∈ s.toRedis.buf ∨ x = u := by
  by_cases hroom : s.toRedis.buf.length < s.toRedis.cap
  · rw [sendRedis_room u s hroom] at h
    rcases List.mem_append.1 h with h | h
    · exact Or.inl h
    · exact Or.inr (List.mem_singleton.1 h)
  · rw [sendRedis_full u s hroom] at h; exact Or.inl h

theorem sendPG_toPG_mem (u x : PriceUpdate) (s : Shard)
    (h : x ∈ (sendPG u s).toPG.buf) : x ∈ s.toPG.buf ∨ x = u := by
  by_cases hroom : s.toPG.buf.length < s.toPG.cap
  · rw [sendPG_room u s hroom] at h
    rcases List.mem_append.1 h with h | h
    · exact Or.inl h
    · exact Or.inr (List.mem_singleton.1 h)
  · rw [sendPG_full u s hroom] at h; exact Or.inl h

theorem queueSources_refl (s : Shard) : QueueSources s s [] :=
  ⟨[], by simp, fun x h => Or.inl h, fun x h => Or.inl h⟩

theorem queueSources_trans {s t r : Shard} {l1 l2 : List PriceUpdate}
    (h1 : QueueSources s t l1) (h2 : QueueSources t r l2) : QueueSources s r (l1 ++ l2) := by
  obtain ⟨n1, e1, r1, p1⟩ := h1
  obtain ⟨n2, e2, r2, p2⟩ := h2
  refine ⟨n1 ++ n2, by rw [e2, e1, List.append_assoc], ?_, ?_⟩
  · intro x hx
    rcases r2 x hx with h | h
    · rcases r1 x h with h | h
      · exact Or.inl h
      · exact Or.inr (List.mem_append_left _ h)
    · exact Or.inr (List.mem_append_right _ h)
  · intro x hx
    rcases p2 x hx with h | h | ⟨ps, h⟩
    · rcases p1 x h with h | h | ⟨ps, h⟩
      · exact Or.inl h
      · exact Or.inr (Or.inl (List.mem_append_left _ h))
      · exact Or.inr (Or.inr ⟨ps, List.mem_append_left _ h⟩)
    · exact Or.inr (Or.inl (List.mem_append_right _ h))
    · exact Or.inr (Or.inr ⟨ps, List.mem_append_right _ h⟩)

theorem queueSources_sendRedis (u : PriceUpdate) (s : Shard) :
    QueueSources s (sendRedis u s) [u] :=
  ⟨[], by rw [sendRedis_emitted]; simp,
    fun x h => (sendRedis_toRedis_mem u x s h).imp id (fun e => by simp [e]),
    fun x h => Or.inl (by rw [sendRedis_toPG] at h; exact h)⟩

theorem queueSources_sendPG (u : PriceUpdate) (s : Shard) :
    QueueSources s (sendPG u s) [u] :=
  ⟨[], by rw [sendPG_emitted]; simp,
    fun x h => Or.inl (by rw [sendPG_toRedis] at h; exact h),
    fun x h => (sendPG_toPG_mem u x s h).imp id (fun e => Or.inl (by simp [e]))⟩

theorem queueSources_aggregateAndSend (ps : List F64) (u : PriceUpdate) (w : Int) (now : Nat)
    (s : Shard) : QueueSources s (aggregateAndSend ps u w now s) [] := by
  cases hagg : mkAggregate ps u now with
  | none =>
    have : aggregateAndSend ps u w now s = s := by simp only [aggregateAndSend, hagg]
    rw [this]; exact queueSources_refl s
  | some agg =>
    refine ⟨[(ps, agg)], aggregateAndSend_emitted ps u w now s agg hagg, ?_, ?_⟩
    · intro x hx
      rw [aggregateAndSend_toRedis] at hx
      exact Or.inl hx
    · intro x hx
      rcases aggregateAndSend_toPG_mem ps u w now s x hx with h | h
      · exact Or.inl h
      · rw [hagg] at h
        cases h
        exact Or.inr (Or.inr ⟨ps, List.mem_singleton.2 rfl⟩)

theorem queueSources_setStats (s t : Shard) (l : List PriceUpdate) (h : QueueSources s t l)
    (st : List (String × symbolStats)) : QueueSources s { t with stats := st } l := h

theorem queueSources_updateBucket (w : Int) (now : Nat) (u : PriceUpdate) (s : Shard) :
    QueueSources s (updateBucket w now u s) [] := by
  unfold updateBucket
  dsimp only
  split
  · exact queueSources_setStats _ _ _ (queueSources_aggregateAndSend _ _ _ _ _) _
  · exact queueSources_setStats _ _ _ (queueSources_refl s) _

theorem queueSources_flushBucket (now : Nat) (s : Shard) (sym : String) :
    QueueSources s (flushBucket now s sym) [] := by
  unfold flushBucket
  cases statsGet sym s.stats with
  | none => exact queueSources_refl s
  | some stat =>
    dsimp only
    split
    · exact queueSources_setStats _ _ _ (queueSources_aggregateAndSend _ _ _ _ _) _
    · exact queueSources_refl s

theorem queueSources_flushFold (now : Nat) (l : List String) (s : Shard) :
    QueueSources s (l.foldl (flushBucket now) s) [] := by
  induction l generalizing s with
  | nil => exact queueSources_refl s
  | cons sym l ih =>
    exact queueSources_trans (queueSources_flushBucket now s sym) (ih _)

theorem queueSources_step (X : String) (s : Shard) (e : Event) :
    QueueSources s (step X s e) (tickUpdates [e]) := by
  cases e with
  | tick w now u =>
    show QueueSources s (handleTick X w now u s) [u]
    by_cases hX : u.Exchange = X
    · rw [handleTick_own X w now u s hX]
      have h := queueSources_trans (queueSources_trans (queueSources_sendRedis u s)
        (queueSources_sendPG u _)) (queueSources_updateBucket w now u _)
      obtain ⟨new, h1, h2, h3⟩ := h
      refine ⟨new, h1, fun x hx => ?_, fun x hx => ?_⟩
      · exact (h2 x hx).imp id (fun h => by simpa using h)
      · exact (h3 x hx).imp id (Or.imp (fun h => by simpa using h) id)
    · rw [handleTick_foreign X w now u s hX]
      exact ⟨[], by simp, fun x h => Or.inl h, fun x h => Or.inl h⟩
  | flush rank now => exact queueSources_flushFold now _ s
  | recvRedis =>
    exact ⟨[], by simp [step], fun x h => Or.inl (mem_recv _ x h), fun x h => Or.inl h⟩
  | recvPG =>
    exact ⟨[], by simp [step], fun x h => Or.inl h, fun x h => Or.inl (mem_recv _ x h)⟩

theorem tickUpdates_cons (e : Event) (evs : List Event) :
    tickUpdates (e :: evs) = tickUpdates [e] ++ tickUpdates evs := by
  cases e <;> simp [tickUpdates]

theorem queueSources_run (X : String) (evs : List Event) (s : Shard) :
    QueueSources s (run X s evs) (tickUpdates evs) := by
  induction evs generalizing s with
  | nil => exact queueSources_refl s
  | cons e evs ih =>
    rw [tickUpdates_cons]
    exact queueSources_trans (queueSources_step X s e) (ih _)

/-- Handle any sequence of events from a fresh shard for exchange `X`, every
iteration of a worker being one event.  For every symbol `S` the slices of the
aggregates emitted for `S`, in order of emission and followed by the prices
still in the bucket of `S`, are exactly the prices of the shard's ticks for `S`
in the order of the events, which is the order in which the workers take
`statsMu`.  Every emitted aggregate is of exchange `X` and is the aggregate of
its non-empty slice, and the step that emits an aggregate leaves the bucket of
its symbol empty.  What the persistence queue holds beyond its initial content
and the ticks themselves are emitted aggregates. -/
theorem run_partitions_handled_ticks (X : String) (cR cP : Chan) (evs : List Event)
    (S : String) (e : Event) :
    (emittedFor S (run X (Shard.init cR cP) evs).emitted).flatten
        ++ bucket S (run X (Shard.init cR cP) evs) = ownPrices X S evs ∧
    (∀ a ∈ (run X (Shard.init cR cP) evs).emitted,
      a.1 ≠ [] ∧ a.2.Exchange = X ∧ a.2.Typ = "aggregated" ∧
      aggregate F64.ofNat a.1 = some (a.2.MinPrice, a.2.MaxPrice, a.2.AvgPrice)) ∧
    (∃ new, (run X (Shard.init cR cP) (evs ++ [e])).emitted
          = (run X (Shard.init cR cP) evs).emitted ++ new ∧
      ∀ n ∈ new, bucket n.2.Symbol (run X (Shard.init cR cP) (evs ++ [e])) = []) ∧
    (∀ x ∈ (run X (Shard.init cR cP) evs).toPG.buf,
      x ∈ cP.buf ∨ x ∈ tickUpdates evs ∨
        ∃ ps, (ps, x) ∈ (run X (Shard.init cR cP) evs).emitted) := by
  obtain ⟨h1, h2⟩ := init_ok X cR cP
  obtain ⟨h3, h4, h5⟩ := run_inv X evs _ h1 h2
  refine ⟨?_, h4, ?_, ?_⟩
  · rw [h5 S]; simp [Shard.init, emittedFor, bucket, statsGet]
  · rw [run_append]; exact step_new X _ e h3
  · obtain ⟨new, q1, _, q3⟩ := queueSources_run X evs (Shard.init cR cP)
    intro x hx
    rcases q3 x hx with h | h | ⟨ps, h⟩
    · exact Or.inl h
    · exact Or.inr (Or.inl h)
    · exact Or.inr (Or.inr ⟨ps, by rw [q1]; exact List.mem_append_right _ h⟩)

theorem sendRedis_log (u : PriceUpdate) (s : Shard) :
    (sendRedis u s).log = s.log ++
      (if s.toRedis.buf.length < s.toRedis.cap then []
       else [LogEntry.warn "Redis channel full, dropping update"]) := by
  by_cases h : s.toRedis.buf.length < s.toRedis.cap
  · rw [sendRedis_room u s h, if_pos h]; simp
  · rw [sendRedis_full u s h, if_neg h]

theorem sendPG_log (u : PriceUpdate) (s : Shard) :
    (sendPG u s).log = s.log ++
      (if s.toPG.buf.length < s.toPG.cap then []
       else [LogEntry.warn "PG channel full, dropping update"]) := by
  by_cases h : s.toPG.buf.length < s.toPG.cap
  · rw [sendPG_room u s h, if_pos h]; simp
  · rw [sendPG_full u s h, if_neg h]

theorem sendPG_toPG_congr (u : PriceUpdate) (s t : Shard) (h : t.toPG = s.toPG) :
    (sendPG u t).toPG = (sendPG u s).toPG := by
  by_cases hr : s.toPG.buf.length < s.toPG.cap
  · rw [sendPG_room u s hr, sendPG_room u t (by rw [h]; exact hr)]
    simp only [h]
  · rw [sendPG_full u s hr, sendPG_full u t (by rw [h]; exact hr)]
    exact h

theorem updateBucket_log (w : Int) (now : Nat) (u : PriceUpdate) (t : Shard) :
    (updateBucket w now u t).log = t.log ++
      (if 5 ≤ (bucket u.Symbol t ++ [u.Price]).length then
        (if 0 ≤ w then [LogEntry.debug "AGGREGATE READY"] else []) ++
        (if t.toPG.buf.length < t.toPG.cap then []
         else [LogEntry.warn "PG channel full, dropping aggregate"])
       else []) := by
  by_cases h5 : 5 ≤ (bucket u.Symbol t ++ [u.Price]).length
  · obtain ⟨agg, hagg, _⟩ := mkAggregate_ne_nil (bucket u.Symbol t ++ [u.Price]) u now (by simp)
    unfold updateBucket
    simp only [getD_prices, if_pos h5]
    by_cases hr : t.toPG.buf.length < t.toPG.cap
    · rw [aggregateAndSend_room _ u w now t agg hagg hr, if_pos hr]
      by_cases hw : 0 ≤ w <;> simp [hw]
    · rw [aggregateAndSend_full _ u w now t agg hagg hr, if_neg hr]
      by_cases hw : 0 ≤ w <;> simp [hw]
  · rw [(updateBucket_not_full w now u t h5).2.2, if_neg h5]; simp

/-- C7. For a tick of the shard's own exchange.  Each non-blocking send (the
tick to the cache queue, the tick to the persistence queue, an aggregate to
the persistence queue) changes the shard in exactly one of two ways: with room
the item is appended to the queue and no warning is logged, and on a full queue
the queue is left as it is and exactly one warning is appended to the log.
The three steps of the tick are all carried out whatever the sends do: the
cache queue after the tick is the one the cache send left, the persistence send
acts as if the cache send had not happened, the buckets are updated as without
any send, and the log gains one warning per dropped item.  A dropped item is
not retried: whatever events follow, an item of either queue was queued before
them, is the update of one of those events or is an aggregate emitted during
them. -/
theorem nonblocking_sends (X : String) (w : Nat) (now : Nat) (u : PriceUpdate) (s : Shard)
    (evs : List Event) (hX : u.Exchange = X) :
    (s.toRedis.buf.length < s.toRedis.cap →
      sendRedis u s = { s with toRedis := { s.toRedis with buf := s.toRedis.buf ++ [u] } }) ∧
    (¬ s.toRedis.buf.length < s.toRedis.cap →
      sendRedis u s
        = { s with log := s.log ++ [LogEntry.warn "Redis channel full, dropping update"] }) ∧
    (∀ t : Shard,
      (t.toPG.buf.length < t.toPG.cap →
        sendPG u t = { t with toPG := { t.toPG with buf := t.toPG.buf ++ [u] } }) ∧
      (¬ t.toPG.buf.length < t.toPG.cap →
        sendPG u t
          = { t with log := t.log ++ [LogEntry.warn "PG channel full, dropping update"] })) ∧
    (∀ (t : Shard) (ps : List F64) (agg : PriceUpdate), mkAggregate ps u now = some agg →
      (t.toPG.buf.length < t.toPG.cap →
        aggregateAndSend ps u w now t
          = { t with toPG := { t.toPG with buf := t.toPG.buf ++ [agg] },
                     log := t.log ++ [LogEntry.debug "AGGREGATE READY"],
                     emitted := t.emitted ++ [(ps, agg)] }) ∧
      (¬ t.toPG.buf.length < t.toPG.cap →
        aggregateAndSend ps u w now t
          = { t with log := t.log ++ [LogEntry.debug "AGGREGATE READY"]
                              ++ [LogEntry.warn "PG channel full, dropping aggregate"],
                     emitted := t.emitted ++ [(ps, agg)] })) ∧
    handleTick X w now u s = updateBucket w now u (sendPG u (sendRedis u s)) ∧
    (handleTick X w now u s).toRedis = (sendRedis u s).toRedis ∧
    (sendPG u (sendRedis u s)).toPG = (sendPG u s).toPG ∧
    (handleTick X w now u s).stats = (updateBucket w now u s).stats ∧
    (handleTick X w now u s).log = s.log ++
      (if s.toRedis.buf.length < s.toRedis.cap then []
       else [LogEntry.warn "Redis channel full, dropping update"]) ++
      (if s.toPG.buf.length < s.toPG.cap then []
       else [LogEntry.warn "PG channel full, dropping update"]) ++
      (if 5 ≤ (bucket u.Symbol s ++ [u.Price]).length then
        [LogEntry.debug "AGGREGATE READY"] ++
        (if (sendPG u s).toPG.buf.length < (sendPG u s).toPG.cap then []
         else [LogEntry.warn "PG channel full, dropping aggregate"])
       else []) ∧
    QueueSources (handleTick X w now u s) (run X (handleTick X w now u s) evs)
      (tickUpdates evs) := by
  have hw : (0 : Int) ≤ (w : Int) := Int.ofNat_nonneg w
  have hpg : (sendPG u (sendRedis u s)).toPG = (sendPG u s).toPG :=
    sendPG_toPG_congr u s _ (sendRedis_toPG u s)
  refine ⟨sendRedis_room u s, sendRedis_full u s, fun t => ⟨sendPG_room u t, sendPG_full u t⟩,
    ?_, handleTick_own X w now u s hX, ?_, hpg, ?_, ?_, queueSources_run X evs _⟩
  · intro t ps agg hagg
    constructor
    · intro hr
      rw [aggregateAndSend_room ps u w now t agg hagg hr, if_pos hw]
    · intro hr
      rw [aggregateAndSend_full ps u w now t agg hagg hr, if_pos hw]
  · rw [handleTick_own X w now u s hX, updateBucket_toRedis, sendPG_toRedis]
  · rw [handleTick_own X w now u s hX, updateBucket_stats, updateBucket_stats, sends_bucket,
      sendPG_stats, sendRedis_stats]
  · rw [handleTick_own X w now u s hX, updateBucket_log, sends_bucket, sendPG_log,
      sendRedis_log, sendRedis_toPG, hpg, if_pos hw]

theorem flush_emits_once_witness :
    (sampleShard.stats.map Prod.fst).Nodup ∧
    (∃ aggs, (flushTick (fun _ => 0) 5 sampleShard).toPG.buf = sampleShard.toPG.buf ++ aggs ∧
      aggs.Perm (sampleShard.stats.filterMap
        (fun kv => mkAggregate kv.2.prices kv.2.lastUpdate 5))) :=
  ⟨by decide, (flush_emits_once (fun _ => 0) 5 sampleShard tenAndHalf sampleTick (by decide)
    (by decide) (by decide!)).1⟩

theorem nonblocking_sends_witness :
    sampleTick.Exchange = "kucoin" ∧
    (handleTick "kucoin" (0 : Nat) 5 sampleTick sampleShard).toRedis
      = (sendRedis sampleTick sampleShard).toRedis :=
  ⟨rfl, (nonblocking_sends "kucoin" 0 5 sampleTick sampleShard [Event.recvPG] rfl).2.2.2.2.2.1⟩

theorem flushTick_sample : (flushTick (fun _ => 0) 5 sampleShard).toPG.buf =
    [{ Exchange := "kucoin", Symbol := "SOLUSDT", Price := F64.fin 0, ReceivedAt := 5,
       Typ := "aggregated", AvgPrice := tenAndHalf, MinPrice := tenAndHalf,
       MaxPrice := tenAndHalf }] := by decide!

theorem run_sample : (run "kucoin" (Shard.init ⟨10,[]⟩ ⟨10,[]⟩) [Event.tick 0 1 sampleTick, Event.tick 0 1 sampleTick, Event.tick 0 1 sampleTick, Event.flush (fun _ => 0) 4]).emitted.map Prod.fst = [[tenAndHalf, tenAndHalf, tenAndHalf]] := by decide!

/-! ## The wire protocol -/

theorem readString_append (delim : Nat) (l r : Bytes) (h : delim ∉ l) :
    readString delim (l ++ delim :: r) = some (l ++ [delim], r) := by
  induction l with
  | nil => simp [readString]
  | cons b l ih =>
    have hb : b ≠ delim := fun e => h (e ▸ List.mem_cons_self _ _)
    have hl : delim ∉ l := fun e => h (List.mem_cons_of_mem _ e)
    rw [List.cons_append, readString, if_neg hb, ih hl]
    rfl

theorem decimalAux_fold (n : Nat) : ∀ (fuel : Nat) (acc : Bytes), n < fuel →
    (decimalAux fuel n acc).foldl (fun a b => a * 10 + (b - 48)) 0
      = acc.foldl (fun a b => a * 10 + (b - 48)) n := by
  induction n using Nat.strong_induction_on with
  | _ n ih =>
    intro fuel acc hf
    cases fuel with
    | zero => omega
    | succ fuel =>
      by_cases h10 : n < 10
      · simp only [decimalAux, if_pos h10, List.foldl_cons]
        congr 1; omega
      · simp only [decimalAux, if_neg h10]
        rw [ih (n / 10) (by omega) fuel _ (by omega)]
        simp only [List.foldl_cons]
        congr 1; omega

theorem decimalAux_digits (n : Nat) : ∀ (fuel : Nat) (acc : Bytes), n < fuel →
    ∃ d l, decimalAux fuel n acc = d :: l ++ acc ∧ (48 ≤ d ∧ d ≤ 57) ∧
      ∀ b ∈ l, 48 ≤ b ∧ b ≤ 57 := by
  induction n using Nat.strong_induction_on with
  | _ n ih =>
    intro fuel acc hf
    cases fuel with
    | zero => omega
    | succ fuel =>
      by_cases h10 : n < 10
      · exact ⟨48 + n, [], by simp [decimalAux, h10], by omega, by simp⟩
      · obtain ⟨d, l, h1, h2, h3⟩ := ih (n / 10) (by omega) fuel ((48 + n % 10) :: acc) (by omega)
        refine ⟨d, l ++ [48 + n % 10], by simp [decimalAux, h10, h1], h2, ?_⟩
        intro b hb
        rcases List.mem_append.1 hb with hb | hb
        · exact h3 b hb
        · rw [List.mem_singleton] at hb; omega

theorem decimal_digits (n : Nat) :
    ∃ d l, decimal n = d :: l ∧ (48 ≤ d ∧ d ≤ 57) ∧ ∀ b ∈ l, 48 ≤ b ∧ b ≤ 57 := by
  obtain ⟨d, l, h1, h2, h3⟩ := decimalAux_digits n (n + 1) [] (by omega)
  exact ⟨d, l, by rw [decimal, h1, List.append_nil], h2, h3⟩

theorem digitsVal_decimal (n : Nat) : digitsVal (decimal n) = n := by
  unfold digitsVal decimal
  rw [decimalAux_fold n (n + 1) [] (by omega)]
  rfl

theorem atoi_decimal (n : Nat) (h : n < 2 ^ 63) : atoi (decimal n) = some (n : Int) := by
  obtain ⟨d, l, h1, h2, h3⟩ := decimal_digits n
  have hv := digitsVal_decimal n
  rw [h1] at hv ⊢
  have hd45 : ¬ (d = 45 ∨ d = 43) := by omega
  have hd : d ≠ 45 := by omega
  have hall : (d :: l).all (fun b => decide (48 ≤ b ∧ b ≤ 57)) = true := by
    rw [List.all_eq_true]
    intro b hb
    rcases List.mem_cons.1 hb with rfl | hb
    · simpa using h2
    · simpa using h3 b hb
  have hn : (-(2 ^ 63) : Int) ≤ (n : Int) ∧ (n : Int) ≤ 2 ^ 63 - 1 := by
    constructor <;> omega
  simp only [atoi, if_neg hd45, if_neg hd, hall, hv, reduceCtorEq, not_true_eq_false,
    or_self, if_false, if_pos hn]

theorem trimLeftWith_head (is2 : Nat → Nat → Bool) (is3 : Nat → Nat → Nat → Bool) (b0 : Nat)
    (t : Bytes) (h0 : isAsciiSpace b0 = false) (h2 : ∀ b1, is2 b0 b1 = false)
    (h3 : ∀ b1 b2, is3 b0 b1 b2 = false) : trimLeftWith is2 is3 (b0 :: t) = b0 :: t := by
  cases t with
  | nil => simp [trimLeftWith, h0]
  | cons b1 t1 =>
    cases t1 with
    | nil => simp [trimLeftWith, h0, h2]
    | cons b2 t2 => simp [trimLeftWith, h0, h2, h3]

theorem trimLeftWith_space (is2 : Nat → Nat → Bool) (is3 : Nat → Nat → Nat → Bool) (b0 : Nat)
    (t : Bytes) (h0 : isAsciiSpace b0 = true) :
    trimLeftWith is2 is3 (b0 :: t) = trimLeftWith is2 is3 t := by
  cases t with
  | nil => simp [trimLeftWith, h0]
  | cons b1 t1 =>
    cases t1 with
    | nil => rw [trimLeftWith.eq_def]; simp [h0]
    | cons b2 t2 => rw [trimLeftWith.eq_def]; simp [h0]

/-- A byte that is neither white space nor part of a multi-byte encoding. -/
theorem plain_facts (b : Nat) (hb : b < 128) :
    (∀ b1, isSpace2 b b1 = false) ∧ (∀ b1 b2, isSpace3 b b1 b2 = false) ∧
    (∀ b1, isSpace2 b1 b = false) ∧ (∀ b1 b2, isSpace3 b2 b1 b = false) := by
  refine ⟨fun b1 => ?_, fun b1 b2 => ?_, fun b1 => ?_, fun b1 b2 => ?_⟩
  · have : b ≠ 194 := by omega
    simp [isSpace2, this]
  · have h1 : b ≠ 225 := by omega
    have h2 : b ≠ 226 := by omega
    have h3 : b ≠ 227 := by omega
    simp [isSpace3, h1, h2, h3]
  · have h1 : b ≠ 133 := by omega
    have h2 : b ≠ 160 := by omega
    simp [isSpace2, h1, h2]
  · have h1 : b ≠ 128 := by omega
    have h2 : ¬ (128 ≤ b) := by omega
    have h3 : b ≠ 168 := by omega
    have h4 : b ≠ 169 := by omega
    have h5 : b ≠ 175 := by omega
    have h6 : b ≠ 159 := by omega
    simp [isSpace3, h1, h2, h3, h4, h5, h6]

theorem trimSpace_crlf (l : Bytes) (hne : l ≠ [])
    (hp : ∀ b ∈ l, b < 128 ∧ isAsciiSpace b = false) : trimSpace (l ++ [13, 10]) = l := by
  unfold trimSpace trimRight trimLeft
  cases l with
  | nil => exact absurd rfl hne
  | cons c t =>
    obtain ⟨hc1, hc2⟩ := hp c (List.mem_cons_self _ _)
    obtain ⟨f1, f2, _, _⟩ := plain_facts c hc1
    rw [List.cons_append, trimLeftWith_head _ _ c _ hc2 f1 f2]
    have hrev : (c :: (t ++ [13, 10])).reverse = 10 :: 13 :: (c :: t).reverse := by simp
    rw [hrev, trimLeftWith_space _ _ 10 _ (by decide), trimLeftWith_space _ _ 13 _ (by decide)]
    cases hr : (c :: t).reverse with
    | nil => simp at hr
    | cons e r =>
      have he : e ∈ c :: t := by
        rw [← List.mem_reverse, hr]; exact List.mem_cons_self _ _
      obtain ⟨he1, he2⟩ := hp e he
      obtain ⟨_, _, g1, g2⟩ := plain_facts e he1
      rw [trimLeftWith_head _ _ e _ he2 (fun b1 => g1 b1) (fun b1 b2 => g2 b1 b2), ← hr,
        List.reverse_reverse]

theorem header_plain (c n : Nat) (hc : c = 36 ∨ c = 42) :
    ∀ b ∈ c :: decimal n, b < 128 ∧ isAsciiSpace b = false := by
  obtain ⟨d, l, h1, h2, h3⟩ := decimal_digits n
  intro b hb
  have hb' : b = c ∨ (48 ≤ b ∧ b ≤ 57) := by
    rw [h1] at hb
    rcases List.mem_cons.1 hb with h | h
    · exact Or.inl h
    · rcases List.mem_cons.1 h with h | h
      · exact Or.inr (h ▸ h2)
      · exact Or.inr (h3 b h)
  have hlt : b < 128 := by omega
  refine ⟨hlt, ?_⟩
  have e1 : b ≠ 9 := by omega
  have e2 : b ≠ 10 := by omega
  have e3 : b ≠ 11 := by omega
  have e4 : b ≠ 12 := by omega
  have e5 : b ≠ 13 := by omega
  have e6 : b ≠ 32 := by omega
  simp [isAsciiSpace, e1, e2, e3, e4, e5, e6]

/-- Reading the header line `c <decimal n> CR LF` gives the line without its
terminator. -/
theorem read_header (c n : Nat) (r : Bytes) (hc : c = 36 ∨ c = 42) :
    ∃ line, readString 10 ((c :: decimal n ++ [13, 10]) ++ r) = some (line, r) ∧
      trimSpace line = c :: decimal n := by
  have hp := header_plain c n hc
  have hno : 10 ∉ (c :: decimal n) ++ [13] := by
    intro h
    rcases List.mem_append.1 h with h | h
    · have := hp 10 h; simp [isAsciiSpace] at this
    · simp at h
  refine ⟨(c :: decimal n) ++ [13, 10], ?_, trimSpace_crlf _ (by simp) hp⟩
  have := readString_append 10 ((c :: decimal n) ++ [13]) r hno
  simpa using this

theorem readFull_append (a r : Bytes) : readFull a.length (a ++ r) = some (a, r) := by
  simp [readFull]

theorem readPayload_ok (a r : Bytes) (k : Bytes → Bytes → Reply) (ha : a.length ≤ maxAlloc) :
    readPayload (a.length : Int) (a ++ [13, 10] ++ r) k = k a r := by
  have h1 : ¬ ((a.length : Int) < 0 ∨ (maxAlloc : Int) < (a.length : Int)) := by omega
  unfold readPayload
  rw [if_neg h1, Int.toNat_ofNat, List.append_assoc, readFull_append]
  simp [readFull]

theorem maxAlloc_lt : maxAlloc < 2 ^ 63 := by decide

theorem readElements_bulk (n : Nat) (acc : Option (List Bytes)) (a r : Bytes)
    (ha : a.length ≤ maxAlloc) :
    readElements (n + 1) acc (bulk a ++ r) = readElements n (appendElem acc a) r := by
  obtain ⟨line, h1, h2⟩ := read_header 36 a.length (a ++ [13, 10] ++ r) (Or.inl rfl)
  have hb : bulk a ++ r = (36 :: decimal a.length ++ [13, 10]) ++ (a ++ [13, 10] ++ r) := by
    simp [bulk]
  have hlt : a.length < 2 ^ 63 := Nat.lt_of_le_of_lt ha maxAlloc_lt
  have hm1 : ¬ ((a.length : Int) = -1) := by omega
  rw [hb, readElements, h1]
  simp only [h2, ne_eq, not_true_eq_false, if_false, atoi_decimal a.length hlt, if_neg hm1]
  exact readPayload_ok a r _ ha

theorem readElements_bulks (l : List Bytes) (acc : Option (List Bytes)) (r : Bytes)
    (hl : ∀ a ∈ l, a.length ≤ maxAlloc) :
    readElements l.length acc ((l.map bulk).flatten ++ r) = Reply.ok (l.foldl appendElem acc) := by
  induction l generalizing acc with
  | nil => simp [readElements]
  | cons a l ih =>
    have h1 : ((a :: l).map bulk).flatten ++ r = bulk a ++ ((l.map bulk).flatten ++ r) := by simp
    rw [h1, List.length_cons, readElements_bulk l.length acc a _ (hl a (List.mem_cons_self _ _)),
      ih _ (fun b hb => hl b (List.mem_cons_of_mem _ hb)), List.foldl_cons]

theorem foldl_appendElem_some (l l0 : List Bytes) :
    l.foldl appendElem (some l0) = some (l0 ++ l) := by
  induction l generalizing l0 with
  | nil => simp
  | cons a l ih => simp [List.foldl_cons, appendElem, ih]

theorem readRESP_cmdStr (cmd : Bytes) (args : List Bytes) (hn : args.length + 1 < 2 ^ 63)
    (hl : ∀ a ∈ cmd :: args, a.length ≤ maxAlloc) :
    readRESP (cmdStr cmd args) = Reply.ok (some (cmd :: args)) := by
  obtain ⟨line, h1, h2⟩ := read_header 42 (args.length + 1)
    (((cmd :: args).map bulk).flatten ++ []) (Or.inr rfl)
  have hc : cmdStr cmd args = (42 :: decimal (args.length + 1) ++ [13, 10])
      ++ (((cmd :: args).map bulk).flatten ++ []) := by
    simp [cmdStr]
  have hm1 : ¬ (((args.length + 1 : Nat) : Int) = -1) := by omega
  have h0 : ¬ (((args.length + 1 : Nat) : Int) = 0) := by omega
  rw [hc, readRESP, h1]
  simp only [h2, if_true, atoi_decimal (args.length + 1) hn, if_neg hm1, if_neg h0,
    Int.toNat_ofNat]
  have := readElements_bulks (cmd :: args) none [] hl
  rw [List.length_cons] at this
  rw [this, List.foldl_cons, appendElem, foldl_appendElem_some]
  rfl

/-- C8. Reading back a request is the identity: for every command name and
every list of arguments (any bytes, the empty string and strings containing CR
or LF included; at most `2^63 - 2` arguments, each string no longer than a Go
slice can be), `readRESP` applied to the bytes `execCommand` writes returns
without error exactly `[cmd, arg1, ..., argN]`.  The nil encodings `$-1\r\n`
and `*-1\r\n` are read without error as a nil result. -/
theorem readRESP_roundtrip (cmd : Bytes) (args : List Bytes) (hn : args.length + 1 < 2 ^ 63)
    (hl : ∀ a ∈ cmd :: args, a.length ≤ maxAlloc) :
    readRESP (cmdStr cmd args) = Reply.ok (some (cmd :: args)) ∧
    readRESP (ascii "$-1\r\n") = Reply.ok none ∧
    readRESP (ascii "*-1\r\n") = Reply.ok none :=
  ⟨readRESP_cmdStr cmd args hn hl, by decide, by decide⟩

theorem readRESP_roundtrip_witness :
    readRESP (cmdStr (ascii "ZADD") [ascii "price:kucoin:SOLUSDT", [], ascii "a\r\nb"])
        = Reply.ok (some [ascii "ZADD", ascii "price:kucoin:SOLUSDT", [], ascii "a\r\nb"]) ∧
    readRESP (ascii "$-1\r\n") = Reply.ok none ∧
    readRESP (ascii "*-1\r\n") = Reply.ok none :=
  readRESP_roundtrip (ascii "ZADD") [ascii "price:kucoin:SOLUSDT", [], ascii "a\r\nb"]
    (by decide) (by decide)

theorem trimLeftWith_nil (is2 : Nat → Nat → Bool) (is3 : Nat → Nat → Nat → Bool) :
    trimLeftWith is2 is3 [] = [] := by
  rw [trimLeftWith.eq_def]

theorem trimLeftWith_one (is2 : Nat → Nat → Bool) (is3 : Nat → Nat → Nat → Bool) (b0 : Nat) :
    trimLeftWith is2 is3 [b0] = if isAsciiSpace b0 then [] else [b0] := by
  rw [trimLeftWith.eq_def]
  by_cases h : isAsciiSpace b0 = true
  · simp [h, trimLeftWith_nil]
  · simp [h]

theorem trimLeftWith_two (is2 : Nat → Nat → Bool) (is3 : Nat → Nat → Nat → Bool)
    (b0 b1 : Nat) :
    trimLeftWith is2 is3 [b0, b1]
      = if isAsciiSpace b0 then trimLeftWith is2 is3 [b1]
        else if is2 b0 b1 then [] else [b0, b1] := by
  rw [trimLeftWith.eq_def]
  by_cases h : isAsciiSpace b0 = true
  · simp [h]
  · by_cases h2 : is2 b0 b1 = true
    · simp [h, h2, trimLeftWith_nil]
    · simp [h, h2]

theorem trimLeftWith_three (is2 : Nat → Nat → Bool) (is3 : Nat → Nat → Nat → Bool)
    (b0 b1 b2 : Nat) (t : Bytes) :
    trimLeftWith is2 is3 (b0 :: b1 :: b2 :: t)
      = if isAsciiSpace b0 then trimLeftWith is2 is3 (b1 :: b2 :: t)
        else if is2 b0 b1 then trimLeftWith is2 is3 (b2 :: t)
        else if is3 b0 b1 b2 then trimLeftWith is2 is3 t else b0 :: b1 :: b2 :: t := by
  rw [trimLeftWith.eq_def]

/-- A byte that no white-space test accepts in any position stops the
trimming: what precedes it is trimmed on its own. -/
theorem trimLeftWith_append_inert (is2 : Nat → Nat → Bool) (is3 : Nat → Nat → Nat → Bool)
    (p : Nat) (hs : isAsciiSpace p = false) (h2a : ∀ b, is2 p b = false)
    (h2b : ∀ a, is2 a p = false) (h3a : ∀ b c, is3 p b c = false)
    (h3b : ∀ a c, is3 a p c = false) (h3c : ∀ a b, is3 a b p = false) :
    ∀ (l r : Bytes), trimLeftWith is2 is3 (l ++ p :: r) = trimLeftWith is2 is3 l ++ p :: r
  | [], r => by
    simp only [trimLeftWith_nil, List.nil_append]
    exact trimLeftWith_head is2 is3 p r hs h2a h3a
  | [b0], r => by
    have hp := trimLeftWith_head is2 is3 p r hs h2a h3a
    rw [trimLeftWith_one]
    cases r with
    | nil =>
      rw [List.singleton_append, trimLeftWith_two, trimLeftWith_one, hs, h2b]
      by_cases h : isAsciiSpace b0 = true <;> simp [h]
    | cons b2 t2 =>
      rw [List.singleton_append, trimLeftWith_three, hp, h2b, h3b]
      by_cases h : isAsciiSpace b0 = true <;> simp [h]
  | [b0, b1], r => by
    have hp := trimLeftWith_head is2 is3 p r hs h2a h3a
    have ih := trimLeftWith_append_inert is2 is3 p hs h2a h2b h3a h3b h3c [b1] r
    rw [trimLeftWith_two]
    show trimLeftWith is2 is3 (b0 :: b1 :: p :: r) = _
    rw [trimLeftWith_three, hp, h3c]
    by_cases h : isAsciiSpace b0 = true
    · simp only [h, if_true]; exact ih
    · by_cases h2 : is2 b0 b1 = true <;> simp [h, h2]
  | b0 :: b1 :: b2 :: t, r => by
    have ih1 := trimLeftWith_append_inert is2 is3 p hs h2a h2b h3a h3b h3c (b1 :: b2 :: t) r
    have ih2 := trimLeftWith_append_inert is2 is3 p hs h2a h2b h3a h3b h3c (b2 :: t) r
    have ih3 := trimLeftWith_append_inert is2 is3 p hs h2a h2b h3a h3b h3c t r
    show trimLeftWith is2 is3 (b0 :: b1 :: b2 :: (t ++ p :: r)) = _
    rw [trimLeftWith_three, trimLeftWith_three]
    by_cases h : isAsciiSpace b0 = true
    · simp only [h, if_true]; exact ih1
    · by_cases h2 : is2 b0 b1 = true
      · simp only [h, h2, if_true, if_false]; exact ih2
      · by_cases h3 : is3 b0 b1 b2 = true
        · simp only [h, h2, h3, if_true, if_false]; exact ih3
        · simp [h, h2, h3]

theorem plain_mid (b : Nat) (hb : b < 128) : ∀ a c, isSpace3 a b c = false := by
  intro a c
  have h1 : b ≠ 154 := by omega
  have h2 : b ≠ 128 := by omega
  have h3 : b ≠ 129 := by omega
  simp [isSpace3, h1, h2, h3]

/-- White space is never trimmed across a plain ASCII byte at the front. -/
theorem trimSpace_cons_plain (p : Nat) (x : Bytes) (hp : p < 128)
    (hs : isAsciiSpace p = false) : trimSpace (p :: x) = p :: trimRight x := by
  obtain ⟨f1, f2, g1, g2⟩ := plain_facts p hp
  have hm := plain_mid p hp
  unfold trimSpace trimLeft
  rw [trimLeftWith_head _ _ p x hs f1 f2]
  unfold trimRight
  rw [List.reverse_cons, trimLeftWith_append_inert _ _ p hs (fun b => g1 b) (fun a => f1 a)
    (fun b c => g2 b c) (fun a c => hm c a) (fun a b => f2 b a) x.reverse []]
  simp

theorem trimRight_crlf (x : Bytes) : trimRight (x ++ [13, 10]) = trimRight x := by
  unfold trimRight
  have hrev : (x ++ [13, 10]).reverse = 10 :: 13 :: x.reverse := by simp
  rw [hrev, trimLeftWith_space _ _ 10 _ (by decide), trimLeftWith_space _ _ 13 _ (by decide)]

theorem trimRight_of_plain_end (x : Bytes)
    (h : ∀ e r, x.reverse = e :: r → e < 128 ∧ isAsciiSpace e = false) : trimRight x = x := by
  unfold trimRight
  cases hr : x.reverse with
  | nil =>
    rw [trimLeftWith_nil]
    have : x = [] := List.reverse_eq_nil_iff.1 hr
    simp [this]
  | cons e r =>
    obtain ⟨he1, he2⟩ := h e r hr
    obtain ⟨_, _, g1, g2⟩ := plain_facts e he1
    rw [trimLeftWith_head _ _ e _ he2 (fun b1 => g1 b1) (fun b1 b2 => g2 b1 b2), ← hr,
      List.reverse_reverse]

theorem readString_cons_ne (delim b : Nat) (s : Bytes) (h : b ≠ delim) :
    readString delim (b :: s)
      = match readString delim s with
        | none => none
        | some (line, rest) => some (b :: line, rest) := by
  rw [readString, if_neg h]

/-- A response that begins with `-` is never a success: it is the error of its
first line, or a read error when the stream ends before a line feed. -/
theorem readRESP_minus (s : Bytes) :
    readRESP (45 :: s)
      = match readString 10 s with
        | none => Reply.err RespError.readLine
        | some (line, _) => Reply.err (RespError.redis (trimRight line)) := by
  rw [readRESP, readString_cons_ne 10 45 s (by decide)]
  cases readString 10 s with
  | none => rfl
  | some lr =>
    obtain ⟨line, rest⟩ := lr
    simp only [trimSpace_cons_plain 45 line (by decide) (by decide)]
    simp

theorem readPayload_bad (data tail : Bytes) (k : Bytes → Bytes → Reply)
    (hd : data.length ≤ maxAlloc) (ht : ∀ t, tail ≠ 13 :: 10 :: t) :
    readPayload (data.length : Int) (data ++ tail) k = Reply.err RespError.invalidCRLF := by
  have h1 : ¬ ((data.length : Int) < 0 ∨ (maxAlloc : Int) < (data.length : Int)) := by omega
  unfold readPayload
  rw [if_neg h1, Int.toNat_ofNat, readFull_append]
  dsimp only
  split
  · rename_i rest' heq
    exfalso
    unfold readFull at heq
    split at heq
    · simp only [Option.some.injEq, Prod.mk.injEq] at heq
      apply ht rest'
      rw [← List.take_append_drop 2 tail, heq.1, heq.2]
      rfl
    · cases heq
  · rfl

theorem readElements_skip (l : List Bytes) (m : Nat) (acc : Option (List Bytes)) (r : Bytes)
    (hl : ∀ a ∈ l, a.length ≤ maxAlloc) :
    readElements (l.length + m) acc ((l.map bulk).flatten ++ r)
      = readElements m (l.foldl appendElem acc) r := by
  induction l generalizing acc with
  | nil => simp
  | cons a l ih =>
    have h1 : ((a :: l).map bulk).flatten ++ r = bulk a ++ ((l.map bulk).flatten ++ r) := by simp
    have h2 : (a :: l).length + m = (l.length + m) + 1 := by simp; omega
    rw [h1, h2, readElements_bulk _ acc a _ (hl a (List.mem_cons_self _ _)),
      ih _ (fun b hb => hl b (List.mem_cons_of_mem _ hb)), List.foldl_cons]

theorem readElements_bad (n : Nat) (acc : Option (List Bytes)) (s : Bytes) (h : BadPayload s) :
    readElements (n + 1) acc s = Reply.err RespError.invalidCRLF := by
  obtain ⟨line, rest, tl, data, tail, h1, h2, h3, h4, h5, h6⟩ := h
  have hm1 : ¬ ((data.length : Int) = -1) := by omega
  rw [readElements, h1]
  simp only [h2, ne_eq, not_true_eq_false, if_false, h3, if_neg hm1, h5]
  exact readPayload_bad data tail _ h4 h6

theorem readRESP_bad (s : Bytes) (h : BadPayload s) :
    readRESP s = Reply.err RespError.invalidCRLF := by
  obtain ⟨line, rest, tl, data, tail, h1, h2, h3, h4, h5, h6⟩ := h
  have hm1 : ¬ ((data.length : Int) = -1) := by omega
  rw [readRESP, h1]
  simp only [h2, h3, if_neg hm1, h5]
  simp only [show ¬ (36 = 42) by decide, show ¬ (36 = 43) by decide, show ¬ (36 = 45) by decide,
    show ¬ (36 = 58) by decide, if_false, if_true]
  exact readPayload_bad data tail _ h4 h6

theorem readRESP_array (count : Nat) (r : Bytes) (h0 : 0 < count) (hc : count < 2 ^ 63) :
    readRESP ((42 :: decimal count ++ [13, 10]) ++ r) = readElements count none r := by
  obtain ⟨line, h1, h2⟩ := read_header 42 count r (Or.inr rfl)
  have hm1 : ¬ ((count : Int) = -1) := by omega
  have hz : ¬ ((count : Int) = 0) := by omega
  rw [readRESP, h1]
  simp only [h2, if_true, atoi_decimal count hc, if_neg hm1, if_neg hz, Int.toNat_ofNat]

/-- C9 (counterexample). A header line terminated by a bare LF is accepted: a
simple string, an integer, a bulk string and an array whose headers end in LF
alone are all returned as results. -/
theorem bare_lf_header_accepted :
    readRESP (ascii "+OK\n") = Reply.ok (some [ascii "OK"]) ∧
    readRESP (ascii ":42\n") = Reply.ok (some [ascii "42"]) ∧
    readRESP (ascii "$3\nabc\r\n") = Reply.ok (some [ascii "abc"]) ∧
    readRESP (ascii "*1\n$3\nabc\r\n") = Reply.ok (some [ascii "abc"]) := by decide

/-- C9 (amended). `readRESP` validates the CR LF that ends a bulk-string
payload: when the payload of the announced length is not immediately followed
by CR LF, the result is the error "invalid CRLF terminator", for a bulk string
at top level, for an array element at any iteration of the loop, and hence
for an array response whose earlier elements are well formed.  (Header lines
are read up to LF and trimmed, so their terminator is not validated.) -/
theorem readRESP_validates_payload_terminator (s : Bytes) (n count : Nat)
    (acc : Option (List Bytes)) (pre : List Bytes) (h : BadPayload s)
    (hpre : ∀ a ∈ pre, a.length ≤ maxAlloc) (hn : pre.length < count) (hc : count < 2 ^ 63) :
    readRESP s = Reply.err RespError.invalidCRLF ∧
    readElements (n + 1) acc s = Reply.err RespError.invalidCRLF ∧
    readRESP ((42 :: decimal count ++ [13, 10]) ++ ((pre.map bulk).flatten ++ s))
      = Reply.err RespError.invalidCRLF := by
  refine ⟨readRESP_bad s h, readElements_bad n acc s h, ?_⟩
  rw [readRESP_array count _ (by omega) hc]
  obtain ⟨m, hm⟩ : ∃ m, count = pre.length + (m + 1) := ⟨count - pre.length - 1, by omega⟩
  rw [hm, readElements_skip pre (m + 1) none s hpre]
  exact readElements_bad m _ s h

theorem badPayload_sample : BadPayload (ascii "$3\r\nabcXY\r\n") :=
  ⟨ascii "$3\r\n", ascii "abcXY\r\n", ascii "3", ascii "abc", ascii "XY\r\n",
    by decide, by decide, by decide, by decide, by decide, by simp [ascii]⟩

theorem readRESP_validates_payload_terminator_witness :
    readRESP (ascii "$3\r\nabcXY\r\n") = Reply.err RespError.invalidCRLF ∧
    readElements (0 + 1) none (ascii "$3\r\nabcXY\r\n") = Reply.err RespError.invalidCRLF ∧
    readRESP ((42 :: decimal 2 ++ [13, 10])
        ++ ((([ascii "ZADD"] : List Bytes).map bulk).flatten ++ ascii "$3\r\nabcXY\r\n"))
      = Reply.err RespError.invalidCRLF :=
  readRESP_validates_payload_terminator (ascii "$3\r\nabcXY\r\n") 0 2 none [ascii "ZADD"]
    badPayload_sample (by decide) (by decide) (by decide)

/-- C10 (counterexample). The reply of a Redis server to an unknown command
ends in a space; the error that `readRESP` returns carries the text without
it. -/
theorem redis_error_text_trimmed :
    readRESP (45 :: ascii "ERR unknown command 'FOO', with args beginning with: " ++ [13, 10])
      = Reply.err (RespError.redis
          (ascii "ERR unknown command 'FOO', with args beginning with:")) ∧
    ascii "ERR unknown command 'FOO', with args beginning with:"
      ≠ ascii "ERR unknown command 'FOO', with args beginning with: " := by decide

/-- C10 (amended). For every response whose first line is `-`, an error text
without LF, and CR LF, `readRESP` returns an error and no result, and the
error carries the text with its trailing white space removed: the text itself
when it does not end in white space.  No response that begins with `-` is
returned as a result: `readRESP` returns an error on every such stream. -/
theorem readRESP_error_line (text rest s : Bytes) (h : 10 ∉ text) :
    readRESP (45 :: text ++ [13, 10] ++ rest)
      = Reply.err (RespError.redis (trimRight text)) ∧
    ((∀ e r, text.reverse = e :: r → e < 128 ∧ isAsciiSpace e = false) →
      trimRight text = text) ∧
    (∃ e, readRESP (45 :: s) = Reply.err e) := by
  refine ⟨?_, trimRight_of_plain_end text, ?_⟩
  · have hno : 10 ∉ text ++ [13] := by
      intro h'
      rcases List.mem_append.1 h' with h' | h'
      · exact h h'
      · simp at h'
    have hs : 45 :: text ++ [13, 10] ++ rest = 45 :: ((text ++ [13]) ++ 10 :: rest) := by simp
    rw [hs, readRESP_minus, readString_append 10 _ rest hno]
    have : text ++ [13] ++ [10] = text ++ [13, 10] := by simp
    simp only [this, trimRight_crlf]
  · rw [readRESP_minus]
    cases readString 10 s with
    | none => exact ⟨_, rfl⟩
    | some lr => exact ⟨_, rfl⟩

theorem readRESP_error_line_witness :
    readRESP (45 :: ascii "ERR wrong type " ++ [13, 10] ++ ascii "+OK\r\n")
      = Reply.err (RespError.redis (trimRight (ascii "ERR wrong type "))) ∧
    ((∀ e r, (ascii "ERR wrong type ").reverse = e :: r → e < 128 ∧ isAsciiSpace e = false) →
      trimRight (ascii "ERR wrong type ") = ascii "ERR wrong type ") ∧
    (∃ e, readRESP (45 :: ascii "no line feed") = Reply.err e) :=
  readRESP_error_line (ascii "ERR wrong type ") (ascii "+OK\r\n") (ascii "no line feed")
    (by decide)

/-! ## The request bytes -/

theorem digitChar_toNat (d : Nat) (h : d < 10) : (Nat.digitChar d).toNat = 48 + d := by
  interval_cases d <;> rfl

theorem toDigitsCore_decimalAux (fuel : Nat) : ∀ (n : Nat) (ds : List Char),
    (Nat.toDigitsCore 10 fuel n ds).map Char.toNat = decimalAux fuel n (ds.map Char.toNat) := by
  induction fuel with
  | zero => intro n ds; rfl
  | succ fuel ih =>
    intro n ds
    have hmod : n % 10 < 10 := Nat.mod_lt n (by decide)
    by_cases h : n < 10
    · have hz : n / 10 = 0 := Nat.div_eq_of_lt h
      have hm : n % 10 = n := Nat.mod_eq_of_lt h
      simp only [Nat.toDigitsCore, hz, if_true, decimalAux, if_pos h, List.map_cons, hm,
        digitChar_toNat n h]
    · have hz : ¬ n / 10 = 0 := by omega
      simp only [Nat.toDigitsCore, hz, if_false, decimalAux, if_neg h, ih, List.map_cons,
        digitChar_toNat _ hmod]

theorem decimal_eq_decimalText (n : Nat) : decimal n = decimalText n := by
  unfold decimal decimalText Nat.toDigits
  rw [toDigitsCore_decimalAux]; rfl

/-- C11. The bytes `execCommand` builds for `cmd` and `a1..an` are `*<n+1>\r\n`
followed, for `cmd` and then each `ai` in order, by
`$<length of the string in bytes, in decimal>\r\n<the string>\r\n`, and nothing
else.  The command `PING` without arguments is encoded as
`*1\r\n$4\r\nPING\r\n`, the bytes written by `createConnection` and
`checkConnection`. -/
theorem cmdStr_format (cmd : Bytes) (args : List Bytes) :
    cmdStr cmd args = requestSpec cmd args ∧
    cmdStr (ascii "PING") [] = ascii "*1\r\n$4\r\nPING\r\n" ∧
    pingRequest = cmdStr (ascii "PING") [] := by
  refine ⟨?_, by decide, by decide⟩
  have hb : bulk = fun s =>
      ascii "$" ++ decimalText s.length ++ ascii "\r\n" ++ s ++ ascii "\r\n" := by
    funext s
    simp [bulk, ascii, decimal_eq_decimalText]
  rw [cmdStr, requestSpec, List.map_cons, List.flatten_cons, ← hb, decimal_eq_decimalText]
  simp [ascii, bulk, decimal_eq_decimalText]

/-! ## The mode controller -/

theorem setMode_fold_valid (modes : List Mode) (m : Manager)
    (h : m.GetMode = ModeLive ∨ m.GetMode = ModeTest) :
    (modes.foldl (fun m mode => (m.SetMode mode).1) m).GetMode = ModeLive ∨
    (modes.foldl (fun m mode => (m.SetMode mode).1) m).GetMode = ModeTest := by
  induction modes generalizing m with
  | nil => exact h
  | cons mode modes ih =>
    apply ih
    by_cases hv : mode ≠ ModeLive ∧ mode ≠ ModeTest
    · simp only [Manager.SetMode, if_pos hv]; exact h
    · simp only [Manager.SetMode, if_neg hv, Manager.GetMode]
      by_cases h1 : mode = ModeLive
      · exact Or.inl h1
      · by_cases h2 : mode = ModeTest
        · exact Or.inr h2
        · exact absurd ⟨h1, h2⟩ hv

/-- C14. A manager returned by `NewModeManager` is in mode live.  From any
state `SetMode(m)` returns an error exactly when `m` is neither `ModeLive` nor
`ModeTest`, and then leaves the current mode unchanged; otherwise it succeeds
and `GetMode` returns `m`.  Hence after any sequence of `SetMode` calls on a
new manager `GetMode` returns live or test. -/
theorem mode_manager (m : Manager) (mode : Mode) (modes : List Mode) :
    NewModeManager.GetMode = ModeLive ∧
    ((m.SetMode mode).2 ≠ none ↔ (mode ≠ ModeLive ∧ mode ≠ ModeTest)) ∧
    ((m.SetMode mode).2 ≠ none → (m.SetMode mode).1 = m) ∧
    ((m.SetMode mode).2 = none → (m.SetMode mode).1.GetMode = mode) ∧
    ((modes.foldl (fun m mode => (m.SetMode mode).1) NewModeManager).GetMode = ModeLive ∨
      (modes.foldl (fun m mode => (m.SetMode mode).1) NewModeManager).GetMode = ModeTest) := by
  refine ⟨rfl, ?_, ?_, ?_, setMode_fold_valid modes _ (Or.inl rfl)⟩
  · by_cases hv : mode ≠ ModeLive ∧ mode ≠ ModeTest
    · simp only [Manager.SetMode, if_pos hv]; simp [hv]
    · simp only [Manager.SetMode, if_neg hv]; simp [hv]
  · by_cases hv : mode ≠ ModeLive ∧ mode ≠ ModeTest
    · simp only [Manager.SetMode, if_pos hv]; simp
    · simp only [Manager.SetMode, if_neg hv]; simp
  · by_cases hv : mode ≠ ModeLive ∧ mode ≠ ModeTest
    · simp only [Manager.SetMode, if_pos hv]; simp
    · simp only [Manager.SetMode, if_neg hv, Manager.GetMode]; simp

/-! ## Lengths that `readRESP` does not expect -/

/-- C20. Failing inputs: a bulk-string header or an array-element header
announcing the length `-2` makes `readRESP` panic in `make([]byte, length)`,
and the array header `*-2` is returned as a successful nil result. -/
theorem readRESP_negative_length :
    readRESP (ascii "$-2\r\n") = Reply.panic ∧
    readRESP (ascii "*1\r\n$-2\r\n") = Reply.panic ∧
    readRESP (ascii "*-2\r\n") = Reply.ok none := by decide

theorem isRaw_not_isAgg (t : String) (h : isRawType t = true) : isAggType t = false := by
  simp only [isRawType, Bool.or_eq_true, beq_iff_eq] at h
  rcases h with h | h <;> subst h <;> decide

theorem sinkRun_append (s : Sink) (evs : List SinkEvent) (e : SinkEvent) :
    sinkRun s (evs ++ [e]) = sinkStep (sinkRun s evs) e := by
  simp [sinkRun, List.foldl_append]

theorem received_append (evs : List SinkEvent) (e : SinkEvent) :
    received (evs ++ [e]) =
      received evs ++ (match e with | SinkEvent.recv u => [u] | SinkEvent.ticker => []) := by
  induction evs with
  | nil => cases e <;> simp [received]
  | cons a evs ih => cases a <;> simp [received, ih]

theorem rawFlushed_append (fs gs : List Flush) :
    rawFlushed (fs ++ gs) = rawFlushed fs ++ rawFlushed gs := by
  induction fs with
  | nil => simp [rawFlushed]
  | cons a fs ih => cases a <;> simp [rawFlushed, ih]

theorem aggFlushed_append (fs gs : List Flush) :
    aggFlushed (fs ++ gs) = aggFlushed fs ++ aggFlushed gs := by
  induction fs with
  | nil => simp [aggFlushed]
  | cons a fs ih => cases a <;> simp [aggFlushed, ih]

theorem onUpdate_raw (s : Sink) (u : PriceUpdate) (h : isRawType u.Typ = true)
    (ha : s.aggBatch.length < batchSize) :
    s.onUpdate u =
      if s.rawBatch.length + 1 < batchSize then { s with rawBatch := s.rawBatch ++ [u] }
      else { s with rawBatch := [], flushes := s.flushes ++ [Flush.raw (s.rawBatch ++ [u])] } := by
  have ha2 : ¬ batchSize ≤ s.aggBatch.length := by omega
  by_cases hlt : s.rawBatch.length + 1 < batchSize
  · have : ¬ batchSize ≤ s.rawBatch.length + 1 := by omega
    simp [Sink.onUpdate, Sink.appendUpdate, h, this, ha2, hlt]
  · have : batchSize ≤ s.rawBatch.length + 1 := by omega
    simp [Sink.onUpdate, Sink.appendUpdate, h, this, ha2, hlt, Sink.flushRaw]

theorem onUpdate_agg (s : Sink) (u : PriceUpdate) (hr : isRawType u.Typ = false)
    (h : isAggType u.Typ = true) (hb : s.rawBatch.length < batchSize) :
    s.onUpdate u =
      if s.aggBatch.length + 1 < batchSize then { s with aggBatch := s.aggBatch ++ [u] }
      else { s with aggBatch := [], flushes := s.flushes ++ [Flush.agg (s.aggBatch ++ [u])] } := by
  have hb2 : ¬ batchSize ≤ s.rawBatch.length := by omega
  by_cases hlt : s.aggBatch.length + 1 < batchSize
  · have : ¬ batchSize ≤ s.aggBatch.length + 1 := by omega
    simp [Sink.onUpdate, Sink.appendUpdate, h, hr, this, hb2, hlt]
  · have : batchSize ≤ s.aggBatch.length + 1 := by omega
    simp [Sink.onUpdate, Sink.appendUpdate, h, hr, this, hb2, hlt, Sink.flushAgg]

theorem onUpdate_other (s : Sink) (u : PriceUpdate) (hr : isRawType u.Typ = false)
    (h : isAggType u.Typ = false) (hb : s.rawBatch.length < batchSize)
    (ha : s.aggBatch.length < batchSize) : s.onUpdate u = s := by
  have hb2 : ¬ batchSize ≤ s.rawBatch.length := by omega
  have ha2 : ¬ batchSize ≤ s.aggBatch.length := by omega
  simp [Sink.onUpdate, Sink.appendUpdate, h, hr, hb2, ha2]

theorem onTicker_eq (s : Sink) :
    s.onTicker =
      { rawBatch := [], aggBatch := [],
        flushes := s.flushes ++ (if s.rawBatch = [] then [] else [Flush.raw s.rawBatch]) ++
          (if s.aggBatch = [] then [] else [Flush.agg s.aggBatch]) } := by
  rcases s with ⟨r, a, f⟩
  cases r <;> cases a <;> simp [Sink.onTicker, Sink.flushRaw, Sink.flushAgg]

theorem batchSize_pos : 0 < batchSize := by decide

theorem sinkInv_step (evs : List SinkEvent) (s : Sink) (e : SinkEvent) (h : SinkInv evs s) :
    SinkInv (evs ++ [e]) (sinkStep s e) := by
  obtain ⟨hr, ha, hR, hA⟩ := h
  have hp := batchSize_pos
  cases e with
  | recv u =>
    simp only [SinkInv, sinkStep, received_append, List.filter_append]
    by_cases h1 : isRawType u.Typ = true
    · have h2 := isRaw_not_isAgg _ h1
      rw [onUpdate_raw s u h1 ha]
      by_cases hlt : s.rawBatch.length + 1 < batchSize
      · simp only [if_pos hlt]
        refine ⟨by simpa using hlt, ha, ?_, ?_⟩
        · simp [List.filter, h1, ← hR]
        · simp [List.filter, h2, ← hA]
      · simp only [if_neg hlt]
        refine ⟨by simpa using hp, ha, ?_, ?_⟩
        · simp [List.filter, h1, ← hR, rawFlushed_append, rawFlushed]
        · simp [List.filter, h2, ← hA, aggFlushed_append, aggFlushed]
    · have h1 : isRawType u.Typ = false := by simpa using h1
      by_cases h2 : isAggType u.Typ = true
      · rw [onUpdate_agg s u h1 h2 hr]
        by_cases hlt : s.aggBatch.length + 1 < batchSize
        · simp only [if_pos hlt]
          refine ⟨hr, by simpa using hlt, ?_, ?_⟩
          · simp [List.filter, h1, ← hR]
          · simp [List.filter, h2, ← hA]
        · simp only [if_neg hlt]
          refine ⟨hr, by simpa using hp, ?_, ?_⟩
          · simp [List.filter, h1, ← hR, rawFlushed_append, rawFlushed]
          · simp [List.filter, h2, ← hA, aggFlushed_append, aggFlushed]
      · have h2 : isAggType u.Typ = false := by simpa using h2
        rw [onUpdate_other s u h1 h2 hr ha]
        refine ⟨hr, ha, ?_, ?_⟩
        · simp [List.filter, h1, ← hR]
        · simp [List.filter, h2, ← hA]
  | ticker =>
    simp only [SinkInv, sinkStep, received_append, List.append_nil]
    rw [onTicker_eq]
    refine ⟨by simpa using hp, by simpa using hp, ?_, ?_⟩
    · rw [← hR]
      by_cases hr0 : s.rawBatch = [] <;> by_cases ha0 : s.aggBatch = [] <;>
        simp [hr0, ha0, rawFlushed_append, rawFlushed]
    · rw [← hA]
      by_cases hr0 : s.rawBatch = [] <;> by_cases ha0 : s.aggBatch = [] <;>
        simp [hr0, ha0, aggFlushed_append, aggFlushed]

theorem sinkInv_run (evs : List SinkEvent) : SinkInv evs (sinkRun Sink.init evs) := by
  induction evs using List.reverseRecOn with
  | nil => exact ⟨batchSize_pos, batchSize_pos, rfl, rfl⟩
  | append_singleton evs e ih =>
    rw [sinkRun_append]
    exact sinkInv_step evs _ e ih

/-- C15: after every sequence of handled events, started with empty
accumulators, both accumulators of `SaveBatchToPostgres` hold fewer than 100
items.  A received raw update that makes the raw accumulator reach 100 items
causes one call of `insertRawBatch` with those 100 items, the earlier items
first and the new one last, empties the raw accumulator and leaves the
aggregate accumulator unchanged; below 100 it is only appended.  The same holds
for aggregate updates and `insertAggBatch`.  A timer tick empties both
accumulators, calling the flush of each non-empty one with its content and
making no call for an empty one.  Over the whole run the items flushed
followed by the items still accumulated are the received updates of that
kind, in arrival order. -/
theorem sink_batches_below_threshold (evs : List SinkEvent) (u : PriceUpdate) :
    let s := sinkRun Sink.init evs
    (s.rawBatch.length < 100 ∧ s.aggBatch.length < 100) ∧
    (isRawType u.Typ = true →
      (s.onUpdate u).aggBatch = s.aggBatch ∧
      (s.rawBatch.length + 1 = 100 →
        (s.onUpdate u).rawBatch = [] ∧
        (s.onUpdate u).flushes = s.flushes ++ [Flush.raw (s.rawBatch ++ [u])] ∧
        (s.rawBatch ++ [u]).length = 100) ∧
      (s.rawBatch.length + 1 ≠ 100 →
        (s.onUpdate u).rawBatch = s.rawBatch ++ [u] ∧ (s.onUpdate u).flushes = s.flushes)) ∧
    (isAggType u.Typ = true →
      (s.onUpdate u).rawBatch = s.rawBatch ∧
      (s.aggBatch.length + 1 = 100 →
        (s.onUpdate u).aggBatch = [] ∧
        (s.onUpdate u).flushes = s.flushes ++ [Flush.agg (s.aggBatch ++ [u])] ∧
        (s.aggBatch ++ [u]).length = 100) ∧
      (s.aggBatch.length + 1 ≠ 100 →
        (s.onUpdate u).aggBatch = s.aggBatch ++ [u] ∧ (s.onUpdate u).flushes = s.flushes)) ∧
    (s.onTicker.rawBatch = [] ∧ s.onTicker.aggBatch = [] ∧
      s.onTicker.flushes =
        s.flushes ++ (if s.rawBatch = [] then [] else [Flush.raw s.rawBatch]) ++
          (if s.aggBatch = [] then [] else [Flush.agg s.aggBatch])) ∧
    (rawFlushed s.flushes ++ s.rawBatch = (received evs).filter (fun x => isRawType x.Typ) ∧
      aggFlushed s.flushes ++ s.aggBatch = (received evs).filter (fun x => isAggType x.Typ)) := by
  intro s
  obtain ⟨hr, ha, hR, hA⟩ := sinkInv_run evs
  have hr : s.rawBatch.length < 100 := hr
  have ha : s.aggBatch.length < 100 := ha
  refine ⟨⟨hr, ha⟩, ?_, ?_, ?_, ⟨hR, hA⟩⟩
  · intro h1
    rw [onUpdate_raw s u h1 ha]
    refine ⟨?_, ?_, ?_⟩
    · split <;> rfl
    · intro h
      have : ¬ s.rawBatch.length + 1 < batchSize := by simp [batchSize, h]
      rw [if_neg this]
      exact ⟨rfl, rfl, by simpa using h⟩
    · intro h
      have : s.rawBatch.length + 1 < batchSize := by
        show s.rawBatch.length + 1 < 100
        omega
      simp [this]
  · intro h2
    have h1 : isRawType u.Typ = false := by
      cases h : isRawType u.Typ
      · rfl
      · rw [isRaw_not_isAgg _ h] at h2
        cases h2
    rw [onUpdate_agg s u h1 h2 hr]
    refine ⟨?_, ?_, ?_⟩
    · split <;> rfl
    · intro h
      have : ¬ s.aggBatch.length + 1 < batchSize := by simp [batchSize, h]
      rw [if_neg this]
      exact ⟨rfl, rfl, by simpa using h⟩
    · intro h
      have : s.aggBatch.length + 1 < batchSize := by
        show s.aggBatch.length + 1 < 100
        omega
      simp [this]
  · rw [onTicker_eq]
    exact ⟨rfl, rfl, rfl⟩

theorem closedQueue_pass (c : Select) (s : Sink) :
    ∃ s1, sinkPass c (closedQueue, s) = some (closedQueue, s1) := by
  cases c
  · exact ⟨s.onUpdate PriceUpdate.zero, rfl⟩
  · exact ⟨s.onTicker, rfl⟩

theorem closedQueue_loop (cs : List Select) (s : Sink) :
    ∃ s1, sinkLoop cs (closedQueue, s) = some (closedQueue, s1) := by
  induction cs generalizing s with
  | nil => exact ⟨s, rfl⟩
  | cons c cs ih =>
    obtain ⟨s1, h1⟩ := closedQueue_pass c s
    obtain ⟨s2, h2⟩ := ih s1
    exact ⟨s2, by simp [sinkLoop, h1, h2]⟩

theorem sinkLoop_snoc (cs : List Select) (c : Select) (st : PGQueue × Sink) :
    sinkLoop (cs ++ [c]) st = (sinkLoop cs st).bind (sinkPass c) := by
  induction cs generalizing st with
  | nil =>
    simp only [List.nil_append, sinkLoop, Option.some_bind]
    cases sinkPass c st <;> rfl
  | cons d cs ih =>
    simp only [List.cons_append, sinkLoop]
    cases sinkPass d st with
    | none => rfl
    | some st1 => exact ih st1

theorem closedQueue_recv (s : Sink) :
    sinkPass Select.recv (closedQueue, s) = some (closedQueue, s.onUpdate PriceUpdate.zero) :=
  rfl

theorem closedQueue_recv_below (n : Nat) (hn : n < batchSize) :
    sinkLoop (List.replicate n Select.recv) (closedQueue, Sink.init) =
      some (closedQueue,
        { rawBatch := List.replicate n PriceUpdate.zero, aggBatch := [], flushes := [] }) := by
  induction n with
  | zero => rfl
  | succ n ih =>
    have hn1 : n < batchSize := by omega
    have hz : isRawType PriceUpdate.zero.Typ = true := by decide
    rw [List.replicate_succ', sinkLoop_snoc, ih hn1, Option.some_bind, closedQueue_recv,
      onUpdate_raw
        { rawBatch := List.replicate n PriceUpdate.zero, aggBatch := [], flushes := [] }
        _ hz batchSize_pos]
    have hlt : (List.replicate n PriceUpdate.zero).length + 1 < batchSize := by simpa using hn
    simp only [if_pos hlt]
    rw [← List.replicate_succ']

/-- C16: on the closed and drained persistence queue the loop of
`SaveBatchToPostgres` never leaves: whatever cases its `select` takes, every
pass is ready and ends in a state from which the loop goes on, with the queue
still closed and drained.  Each receive yields the zero value of
`PriceUpdate`, whose empty type counts as raw: after one hundred receives
with nothing ever sent on the queue, `insertRawBatch` has been called with a
batch of one hundred zero records. -/
theorem sink_closed_queue_spins :
    (∀ (cs : List Select) (s : Sink),
      ∃ s1, sinkLoop cs (closedQueue, s) = some (closedQueue, s1)) ∧
    closedQueue.recv = some (PriceUpdate.zero, closedQueue) ∧
    sinkLoop (List.replicate 100 Select.recv) (closedQueue, Sink.init) =
      some (closedQueue,
        { rawBatch := [], aggBatch := [],
          flushes := [Flush.raw (List.replicate 100 PriceUpdate.zero)] }) := by
  refine ⟨closedQueue_loop, rfl, ?_⟩
  have hz : isRawType PriceUpdate.zero.Typ = true := by decide
  rw [show (100 : Nat) = 99 + 1 from rfl, List.replicate_succ', sinkLoop_snoc,
    closedQueue_recv_below 99 (by decide), Option.some_bind, closedQueue_recv,
    onUpdate_raw
      { rawBatch := List.replicate 99 PriceUpdate.zero, aggBatch := [], flushes := [] }
      _ hz batchSize_pos]
  have hlt : ¬ (List.replicate 99 PriceUpdate.zero).length + 1 < batchSize := by
    simp [batchSize]
  simp only [if_neg hlt, List.nil_append]
  rw [← List.replicate_succ']

theorem aggRows_all_ok (db : DbOutcome) (batch : List PriceUpdate) (i : Nat)
    (h : ∀ j, j < batch.length → db.execOk (i + j) = true) :
    aggRows db i batch = (batch.map aggExec, true) := by
  induction batch generalizing i with
  | nil => rfl
  | cons u rest ih =>
    have h0 : db.execOk i = true := by simpa using h 0 (by simp)
    have hr : ∀ j, j < rest.length → db.execOk (i + 1 + j) = true := by
      intro j hj
      have := h (j + 1) (by simpa using hj)
      rwa [show i + (j + 1) = i + 1 + j by omega] at this
    simp [aggRows, h0, ih (i + 1) hr]

theorem aggRows_first_failure (db : DbOutcome) (batch : List PriceUpdate) (i k : Nat)
    (hk : k < batch.length) (hok : ∀ j, j < k → db.execOk (i + j) = true)
    (hbad : db.execOk (i + k) = false) :
    aggRows db i batch = ((batch.take (k + 1)).map aggExec ++ [DbCall.rollback], false) := by
  induction batch generalizing i k with
  | nil => simp at hk
  | cons u rest ih =>
    cases k with
    | zero =>
      have h0 : db.execOk i = false := by simpa using hbad
      simp [aggRows, h0]
    | succ k =>
      have h0 : db.execOk i = true := by simpa using hok 0 (by omega)
      have hk1 : k < rest.length := by simpa using hk
      have hok1 : ∀ j, j < k → db.execOk (i + 1 + j) = true := by
        intro j hj
        have := hok (j + 1) (by omega)
        rwa [show i + (j + 1) = i + 1 + j by omega] at this
      have hbad1 : db.execOk (i + 1 + k) = false := by
        rwa [show i + (k + 1) = i + 1 + k by omega] at hbad
      simp [aggRows, h0, ih (i + 1) k hk1 hok1 hbad1]

/-- The aggregate flush follows the stated policy: a failed prepare is
followed by a rollback and nothing else; a failed row is followed by a
rollback, no later row is executed and there is no commit; when every row
succeeds the rows are executed in batch order and committed once. -/
theorem insertAggBatch_policy (db : DbOutcome) (batch : List PriceUpdate)
    (hne : batch ≠ []) (hb : db.beginOk = true) :
    (db.prepareOk = false →
      insertAggBatch db batch = [DbCall.begin, DbCall.prepare, DbCall.rollback]) ∧
    (∀ k, db.prepareOk = true → k < batch.length → (∀ j, j < k → db.execOk j = true) →
      db.execOk k = false →
      insertAggBatch db batch =
        [DbCall.begin, DbCall.prepare] ++ (batch.take (k + 1)).map aggExec ++
          [DbCall.rollback, DbCall.closeStmt]) ∧
    (db.prepareOk = true → (∀ j, j < batch.length → db.execOk j = true) →
      insertAggBatch db batch =
        [DbCall.begin, DbCall.prepare] ++ batch.map aggExec ++
          [DbCall.commit, DbCall.closeStmt]) := by
  have hlen : batch.length ≠ 0 := by
    cases batch with
    | nil => exact absurd rfl hne
    | cons u rest => simp
  refine ⟨?_, ?_, ?_⟩
  · intro hp
    simp [insertAggBatch, hlen, hb, hp]
  · intro k hp hk hok hbad
    have := aggRows_first_failure db batch 0 k hk (by simpa using hok) (by simpa using hbad)
    simp [insertAggBatch, hlen, hb, hp, this]
  · intro hp hok
    have := aggRows_all_ok db batch 0 (by simpa using hok)
    simp [insertAggBatch, hlen, hb, hp, this]

theorem insertAggBatch_policy_witness :
    insertAggBatch firstRowFails [sampleTick, sampleTick2] =
      [DbCall.begin, DbCall.prepare, aggExec sampleTick, DbCall.rollback, DbCall.closeStmt] := by
  have h := (insertAggBatch_policy firstRowFails [sampleTick, sampleTick2]
    (by simp) rfl).2.1 0 rfl (by decide) (by intro j hj; omega) (by decide)
  simpa using h

/-- C17: the raw flush does not follow the stated policy.  For the batch of
two rows whose first `Exec` fails, `insertRawBatch` still executes the second
row, never calls `Rollback`, and ends with `Commit`; when `Prepare` fails it
calls `Commit` and no `Rollback`.  On the same inputs `insertAggBatch` stops
at the failed row and rolls back.  When every call succeeds both functions
execute one row per item in batch order and commit once. -/
theorem insertRawBatch_no_rollback :
    insertRawBatch firstRowFails [sampleTick, sampleTick2] =
      [DbCall.begin, DbCall.prepare, rawExec sampleTick, rawExec sampleTick2,
        DbCall.closeStmt, DbCall.commit] ∧
    insertRawBatch prepareFails [sampleTick, sampleTick2] =
      [DbCall.begin, DbCall.prepare, DbCall.commit] ∧
    insertAggBatch firstRowFails [sampleTick, sampleTick2] =
      [DbCall.begin, DbCall.prepare, aggExec sampleTick, DbCall.rollback, DbCall.closeStmt] ∧
    insertAggBatch prepareFails [sampleTick, sampleTick2] =
      [DbCall.begin, DbCall.prepare, DbCall.rollback] ∧
    (∀ (db : DbOutcome) (batch : List PriceUpdate), batch ≠ [] → db.beginOk = true →
      db.prepareOk = true → (∀ j, j < batch.length → db.execOk j = true) →
      insertRawBatch db batch =
        [DbCall.begin, DbCall.prepare] ++ batch.map rawExec ++
          [DbCall.closeStmt, DbCall.commit] ∧
      insertAggBatch db batch =
        [DbCall.begin, DbCall.prepare] ++ batch.map aggExec ++
          [DbCall.commit, DbCall.closeStmt]) := by
  refine ⟨by simp [insertRawBatch, firstRowFails, rawRows],
    by simp [insertRawBatch, prepareFails],
    by simp [insertAggBatch, firstRowFails, aggRows],
    by simp [insertAggBatch, prepareFails], ?_⟩
  intro db batch hne hb hp hok
  have hlen : batch.length ≠ 0 := by
    cases batch with
    | nil => exact absurd rfl hne
    | cons u rest => simp
  have := aggRows_all_ok db batch 0 (by simpa using hok)
  constructor
  · simp [insertRawBatch, hlen, hb, hp, rawRows]
  · simp [insertAggBatch, hlen, hb, hp, this]

theorem poolInv_init (K : Nat) : PoolInv K (Pool.init K) := by
  simp [PoolInv, Pool.init, Sweeper.count]

theorem poolInv_step (K : Nat) (p : Pool) (e : PoolEvent) (h : PoolInv K p) :
    PoolInv K (poolStep p e) := by
  obtain ⟨hc, hs⟩ := h
  rcases p with ⟨cap, pool, leased, sw, closed, pinged, fresh⟩
  simp only at hc hs
  subst hc
  cases e with
  | acquire =>
    cases pool with
    | nil => exact ⟨rfl, hs⟩
    | cons c rest =>
      refine ⟨rfl, ?_⟩
      simp only [poolStep, Pool.getConn, List.length_cons] at hs ⊢
      omega
  | release c =>
    simp only [poolStep]
    by_cases hm : c ∈ leased
    · have hl : (leased.erase c).length + 1 = leased.length := by
        rw [List.length_erase_of_mem hm]
        have : 0 < leased.length := List.length_pos_of_mem hm
        omega
      simp only [if_pos hm, Pool.putConn]
      by_cases hlt : pool.length < cap
      · simp only [if_pos hlt]
        refine ⟨rfl, ?_⟩
        simp only [List.length_append, List.length_singleton]
        omega
      · simp only [if_neg hlt]
        refine ⟨rfl, ?_⟩
        simp only
        omega
    · simp only [if_neg hm]
      exact ⟨rfl, hs⟩
  | sweepRecv =>
    cases sw with
    | idle =>
      cases pool with
      | nil => exact ⟨rfl, hs⟩
      | cons c rest =>
        refine ⟨rfl, ?_⟩
        simp only [poolStep, Pool.sweepRecv, Sweeper.count, List.length_cons] at hs ⊢
        omega
    | holding c => cases pool <;> exact ⟨rfl, hs⟩
    | sending c => cases pool <;> exact ⟨rfl, hs⟩
  | sweepCheck pingOk createOk =>
    cases sw with
    | idle => exact ⟨rfl, hs⟩
    | sending c => exact ⟨rfl, hs⟩
    | holding c =>
      simp only [poolStep, Pool.sweepCheck]
      cases pingOk <;> cases createOk <;>
        simp only [Bool.false_eq_true, if_false, if_true] <;>
        refine ⟨rfl, ?_⟩ <;> simp only [Sweeper.count] at hs ⊢ <;> omega
  | sweepSend =>
    cases sw with
    | idle => exact ⟨rfl, hs⟩
    | holding c => exact ⟨rfl, hs⟩
    | sending c =>
      simp only [poolStep, Pool.sweepSend]
      by_cases hlt : pool.length < cap
      · simp only [if_pos hlt]
        refine ⟨rfl, ?_⟩
        simp only [Sweeper.count, List.length_append, List.length_singleton] at hs ⊢
        omega
      · simp only [if_neg hlt]
        exact ⟨rfl, hs⟩

theorem poolInv_run (K : Nat) (evs : List PoolEvent) :
    PoolInv K (poolRun (Pool.init K) evs) := by
  induction evs using List.reverseRecOn with
  | nil => exact poolInv_init K
  | append_singleton evs e ih =>
    have : poolRun (Pool.init K) (evs ++ [e]) = poolStep (poolRun (Pool.init K) evs) e := by
      simp [poolRun, List.foldl_append]
    rw [this]
    exact poolInv_step K _ e ih

/-- C18: for a client built with capacity `K`, after every sequence of
`getConn`, `putConn` and sweep steps, in any interleaving, the pool holds at
most `K` connections and the connections in the pool, leased, and held by the
sweep while it checks or replaces one, number at most `K` together.  `putConn`
appends the connection to the pool when the pool holds fewer than `K`, and
closes it, leaving the pool as it is, otherwise. -/
theorem pool_bounded (K : Nat) (evs : List PoolEvent) (c : Conn) :
    let p := poolRun (Pool.init K) evs
    (0 ≤ p.connPool.length ∧ p.connPool.length ≤ K) ∧
    p.connPool.length + p.leased.length + p.sweeper.count ≤ K ∧
    (p.connPool.length < K →
      (p.putConn c).connPool = p.connPool ++ [c] ∧ (p.putConn c).closed = p.closed) ∧
    (¬ p.connPool.length < K →
      (p.putConn c).connPool = p.connPool ∧ (p.putConn c).closed = p.closed ++ [c]) := by
  intro p
  obtain ⟨hc, hs⟩ := poolInv_run K evs
  have hc : p.cap = K := hc
  have hs : p.connPool.length + p.leased.length + p.sweeper.count ≤ K := hs
  refine ⟨⟨Nat.zero_le _, by omega⟩, hs, ?_, ?_⟩
  · intro h
    have h2 : p.connPool.length < p.cap := by omega
    simp [Pool.putConn, h2]
  · intro h
    have h2 : ¬ p.connPool.length < p.cap := by omega
    simp [Pool.putConn, h2]

theorem sweepIter_cons (p : Pool) (pingOk : Conn → Bool) (b : Bool) (c : Conn) (tl : List Conn)
    (hidle : p.sweeper = Sweeper.idle) (hpool : p.connPool = c :: tl) (hcap : tl.length < p.cap) :
    p.sweepIter pingOk b =
      if pingOk c then { p with connPool := tl ++ [c], pinged := p.pinged ++ [c] }
      else if b then
        { p with connPool := tl ++ [p.fresh], pinged := p.pinged ++ [c],
                 closed := p.closed ++ [c], fresh := p.fresh + 1 }
      else { p with connPool := tl, pinged := p.pinged ++ [c], closed := p.closed ++ [c] } := by
  rcases p with ⟨cap, pool, leased, sw, closed, pinged, fresh⟩
  simp only at hidle hpool hcap
  subst hidle hpool
  cases h1 : pingOk c <;> cases b <;>
    simp [Pool.sweepIter, Pool.sweepRecv, Pool.sweepCheck, Pool.sweepSend, h1, hcap]

theorem sweepLoop_spec (pingOk : Conn → Bool) (createOk : Nat → Bool) (f0 : Nat) :
    ∀ (fuel i : Nat) (p : Pool) (rest added : List Conn),
      p.sweeper = Sweeper.idle → p.connPool = rest ++ added → added.length ≤ i →
      rest.length + added.length ≤ p.cap → rest.length < fuel → f0 ≤ p.fresh →
      ∃ q m, sweepLoop pingOk createOk fuel i p = some q ∧ q.sweeper = Sweeper.idle ∧
        q.leased = p.leased ∧ q.cap = p.cap ∧ m ≤ rest.length ∧
        q.pinged = p.pinged ++ rest.take m ∧
        q.closed = p.closed ++ (rest.take m).filter (fun c => !pingOk c) ∧
        q.connPool.length ≤ rest.length + added.length ∧
        (added.length = i →
          (∀ j c, rest[j]? = some c → pingOk c = false → createOk (i + j) = true) →
          m = rest.length ∧ ∃ new, q.connPool = added ++ new ∧
            List.Forall₂ (fun c d => if pingOk c then d = c else f0 ≤ d) rest new) := by
  intro fuel
  induction fuel with
  | zero => intro i p rest added _ _ _ _ hf; omega
  | succ fuel ih =>
    intro i p rest added hidle hpool hadd hcap hfuel hfresh
    have hlen : p.connPool.length = rest.length + added.length := by simp [hpool]
    by_cases hi : i < p.connPool.length
    · cases rest with
      | nil => simp at hlen; omega
      | cons c rest0 =>
        have hpool1 : p.connPool = c :: (rest0 ++ added) := by simpa using hpool
        have hcap1 : (rest0 ++ added).length < p.cap := by
          simp only [List.length_append, List.length_cons] at hcap ⊢
          omega
        have hstep : sweepLoop pingOk createOk (fuel + 1) i p =
            sweepLoop pingOk createOk fuel (i + 1) (p.sweepIter pingOk (createOk i)) := by
          simp [sweepLoop, hi]
        rw [hstep, sweepIter_cons p pingOk (createOk i) c _ hidle hpool1 hcap1]
        have hfuel1 : rest0.length < fuel := by
          simp only [List.length_cons] at hfuel
          omega
        simp only [List.length_cons] at hcap
        by_cases h1 : pingOk c = true
        · simp only [if_pos h1]
          obtain ⟨q, m, hq, hqi, hql, hqc, hm, hp, hcl, hle, hall⟩ :=
            ih (i + 1) { p with connPool := rest0 ++ added ++ [c], pinged := p.pinged ++ [c] }
              rest0 (added ++ [c]) hidle (by simp) (by simp; omega) (by simp; omega)
              hfuel1 hfresh
          refine ⟨q, m + 1, hq, hqi, hql, hqc, by simp; omega, ?_, ?_, ?_, ?_⟩
          · simpa using hp
          · simpa [List.filter, h1] using hcl
          · simp only [List.length_append, List.length_singleton, List.length_cons, List.length_nil] at hle ⊢
            omega
          · intro hai hcr
            obtain ⟨hm2, new, hnew, hF⟩ := hall (by simp [hai]) (by
              intro j d hj hd
              have := hcr (j + 1) d (by simpa using hj) hd
              rwa [show i + (j + 1) = i + 1 + j by omega] at this)
            refine ⟨by simp [hm2], c :: new, by simpa using hnew, ?_⟩
            exact List.Forall₂.cons (by simp [h1]) hF
        · have h1 : pingOk c = false := by simpa using h1
          by_cases h2 : createOk i = true
          · simp only [h1, h2, Bool.false_eq_true, if_false, if_true]
            obtain ⟨q, m, hq, hqi, hql, hqc, hm, hp, hcl, hle, hall⟩ :=
              ih (i + 1)
                { p with connPool := rest0 ++ added ++ [p.fresh], pinged := p.pinged ++ [c],
                         closed := p.closed ++ [c], fresh := p.fresh + 1 }
                rest0 (added ++ [p.fresh]) hidle (by simp) (by simp; omega) (by simp; omega)
                hfuel1 (by simp; omega)
            refine ⟨q, m + 1, hq, hqi, hql, hqc, by simp; omega, ?_, ?_, ?_, ?_⟩
            · simpa using hp
            · simpa [List.filter, h1] using hcl
            · simp only [List.length_append, List.length_singleton, List.length_cons, List.length_nil] at hle ⊢
              omega
            · intro hai hcr
              obtain ⟨hm2, new, hnew, hF⟩ := hall (by simp [hai]) (by
                intro j d hj hd
                have := hcr (j + 1) d (by simpa using hj) hd
                rwa [show i + (j + 1) = i + 1 + j by omega] at this)
              refine ⟨by simp [hm2], p.fresh :: new, by simpa using hnew, ?_⟩
              exact List.Forall₂.cons (by simp [h1, hfresh]) hF
          · have h2 : createOk i = false := by simpa using h2
            simp only [h1, h2, Bool.false_eq_true, if_false]
            obtain ⟨q, m, hq, hqi, hql, hqc, hm, hp, hcl, hle, _⟩ :=
              ih (i + 1)
                { p with connPool := rest0 ++ added, pinged := p.pinged ++ [c],
                         closed := p.closed ++ [c] }
                rest0 added hidle rfl (by omega) (by simp; omega) hfuel1 hfresh
            refine ⟨q, m + 1, hq, hqi, hql, hqc, by simp; omega, ?_, ?_, ?_, ?_⟩
            · simpa using hp
            · simpa [List.filter, h1] using hcl
            · simp only [List.length_cons] at hle ⊢
              omega
            · intro _ hcr
              have := hcr 0 c (by simp) h1
              simp [h2] at this
    · have hstep : sweepLoop pingOk createOk (fuel + 1) i p = some p := by
        simp [sweepLoop, hi]
      refine ⟨p, 0, hstep, hidle, rfl, rfl, Nat.zero_le _, by simp, by simp, by omega, ?_⟩
      intro hai _
      have hr : rest = [] := by
        apply List.eq_nil_of_length_eq_zero
        omega
      subst hr
      exact ⟨rfl, [], by simpa using hpool, List.Forall₂.nil⟩

/-- C19. The health sweep evaluated on a pool of two idle connections `0` and
`1`, of which `0` does not answer the PING and `createConnection` fails.  The
first iteration closes `0` and sends nothing back, the pool then holds one
connection, and the loop condition `i < len(rc.connPool)`, read again with
`i = 1`, ends the sweep: connection `1` is never pinged, although the loop is
there to check all connections in the pool, and the pool holds one connection
instead of two. -/
theorem sweep_leaves_pool_short :
    (Pool.init 2).sweep (fun c => decide (c ≠ 0)) (fun _ => false) =
      some { cap := 2, connPool := [1], leased := [], sweeper := Sweeper.idle,
             closed := [0], pinged := [0], fresh := 2 } := by
  decide

/-- One health sweep over a pool of `n` idle connections, with no lease taken
or returned meanwhile, ends.  It pings a beginning of the pool in pool order
and closes exactly the pinged connections that did not answer.  When every
replacement that is called for can be created, that beginning is the whole
pool: each of the `n` connections is pinged exactly once and the pool again
holds `n` connections: position by position, the connection itself when it
answered, a connection created during the sweep when it did not. -/
theorem sweep_restores_pool (p : Pool) (pingOk : Conn → Bool) (createOk : Nat → Bool)
    (hidle : p.sweeper = Sweeper.idle) (hcap : p.connPool.length ≤ p.cap) :
    ∃ q m, p.sweep pingOk createOk = some q ∧ q.sweeper = Sweeper.idle ∧
      q.leased = p.leased ∧ m ≤ p.connPool.length ∧
      q.pinged = p.pinged ++ p.connPool.take m ∧
      q.closed = p.closed ++ (p.connPool.take m).filter (fun c => !pingOk c) ∧
      q.connPool.length ≤ p.connPool.length ∧
      ((∀ j c, p.connPool[j]? = some c → pingOk c = false → createOk j = true) →
        q.pinged = p.pinged ++ p.connPool ∧
        q.closed = p.closed ++ p.connPool.filter (fun c => !pingOk c) ∧
        q.connPool.length = p.connPool.length ∧
        List.Forall₂ (fun c d => if pingOk c then d = c else p.fresh ≤ d)
          p.connPool q.connPool) := by
  obtain ⟨q, m, hq, hqi, hql, _, hm, hp, hcl, hle, hall⟩ :=
    sweepLoop_spec pingOk createOk p.fresh (p.connPool.length + 1) 0 p p.connPool []
      hidle (by simp) (by simp) (by simpa using hcap) (by omega) (Nat.le_refl _)
  refine ⟨q, m, hq, hqi, hql, hm, hp, hcl, by simpa using hle, ?_⟩
  intro hcr
  obtain ⟨hm2, new, hnew, hF⟩ := hall rfl (by simpa using hcr)
  have hnew : q.connPool = new := by simpa using hnew
  subst hm2
  refine ⟨by simpa using hp, by simpa using hcl, ?_, by rw [hnew]; exact hF⟩
  rw [hnew]
  exact hF.length_eq.symm

theorem sweep_restores_pool_witness :
    ∃ (q : Pool) (m : Nat), (Pool.init 2).sweep (fun c => decide (c ≠ 0)) (fun _ => true) = some q ∧
      q.sweeper = Sweeper.idle ∧
      q.leased = (Pool.init 2).leased ∧ m ≤ (Pool.init 2).connPool.length ∧
      q.pinged = (Pool.init 2).pinged ++ (Pool.init 2).connPool.take m ∧
      q.closed = (Pool.init 2).closed ++
        ((Pool.init 2).connPool.take m).filter (fun c => !decide (c ≠ 0)) ∧
      q.connPool.length ≤ (Pool.init 2).connPool.length ∧
      ((∀ (j : Nat) (c : Conn), (Pool.init 2).connPool[j]? = some c → decide (c ≠ 0) = false →
          (fun _ => true) j = true) →
        q.pinged = (Pool.init 2).pinged ++ (Pool.init 2).connPool ∧
        q.closed = (Pool.init 2).closed ++
          (Pool.init 2).connPool.filter (fun c => !decide (c ≠ 0)) ∧
        q.connPool.length = (Pool.init 2).connPool.length ∧
        List.Forall₂ (fun c d => if decide (c ≠ 0) = true then d = c else (Pool.init 2).fresh ≤ d)
          (Pool.init 2).connPool q.connPool) :=
  sweep_restores_pool (Pool.init 2) (fun c => decide (c ≠ 0)) (fun _ => true) rfl (by decide)

theorem latestLoop_eq {σ : Type} (exec : Exec σ) (parseFloat : Bytes → Option F64)
    (keys : List Bytes) (s : σ) (acc : Latest) :
    (latestLoop exec parseFloat keys s acc).1 =
      (zrevReplies exec keys s).foldl (latestStep parseFloat) acc := by
  induction keys generalizing s acc with
  | nil => rfl
  | cons key keys ih => simp only [latestLoop, zrevReplies, List.foldl_cons, ih]

theorem latestStep_yields (parseFloat : Bytes → Option F64) (acc : Latest)
    (reply : Option (List Bytes)) :
    latestStep parseFloat acc reply =
      match yields parseFloat reply with
      | none => acc
      | some r => latestPick acc r := by
  cases reply with
  | none => rfl
  | some resp =>
    match resp with
    | [] => rfl
    | [_] => rfl
    | r0 :: r1 :: tl =>
      simp only [latestStep, yields]
      cases parseFloat r0 with
      | none => rfl
      | some price =>
        cases atoi r1 with
        | none => rfl
        | some score => rfl

theorem foldl_latestStep (parseFloat : Bytes → Option F64) (replies : List (Option (List Bytes)))
    (acc : Latest) :
    replies.foldl (latestStep parseFloat) acc =
      (replies.filterMap (yields parseFloat)).foldl latestPick acc := by
  induction replies generalizing acc with
  | nil => rfl
  | cons reply replies ih =>
    rw [List.foldl_cons, ih, latestStep_yields, List.filterMap_cons]
    cases yields parseFloat reply with
    | none => rfl
    | some r => rfl

theorem foldl_latestPick (rs : List (F64 × Int)) (acc : Latest) (hf : acc.found = true) :
    (rs.foldl latestPick acc).found = true ∧
    acc.maxTime ≤ (rs.foldl latestPick acc).maxTime ∧
    (∀ (j : Nat) (q : F64) (u : Int), rs[j]? = some (q, u) →
      u ≤ (rs.foldl latestPick acc).maxTime) ∧
    (rs.foldl latestPick acc = acc ∨
      ∃ k : Nat, rs[k]? = some ((rs.foldl latestPick acc).maxPrice,
          (rs.foldl latestPick acc).maxTime) ∧
        acc.maxTime < (rs.foldl latestPick acc).maxTime ∧
        ∀ (j : Nat) (q : F64) (u : Int), j < k → rs[j]? = some (q, u) →
          u < (rs.foldl latestPick acc).maxTime) := by
  induction rs generalizing acc with
  | nil => exact ⟨hf, le_refl _, by simp, Or.inl rfl⟩
  | cons r rs ih =>
    obtain ⟨p, t⟩ := r
    rw [List.foldl_cons]
    by_cases hgt : t > acc.maxTime
    · have hacc : latestPick acc (p, t) = { maxPrice := p, maxTime := t, found := true } := by
        simp [latestPick, hgt]
      rw [hacc]
      obtain ⟨h1, h2, h3, h4⟩ := ih { maxPrice := p, maxTime := t, found := true } rfl
      simp only at h2
      refine ⟨h1, by omega, ?_, Or.inr ?_⟩
      · intro j q u hj
        cases j with
        | zero =>
          simp only [List.getElem?_cons_zero, Option.some.injEq, Prod.mk.injEq] at hj
          omega
        | succ j => exact h3 j q u (by simpa using hj)
      · rcases h4 with h4 | ⟨k, hk1, hk2, hk3⟩
        · refine ⟨0, by rw [h4]; simp, by rw [h4]; exact hgt, ?_⟩
          intro j q u hj
          omega
        · refine ⟨k + 1, by simpa using hk1, by simp only at hk2; omega, ?_⟩
          intro j q u hj hju
          cases j with
          | zero =>
            simp only [List.getElem?_cons_zero, Option.some.injEq, Prod.mk.injEq] at hju
            simp only at hk2
            omega
          | succ j => exact hk3 j q u (by omega) (by simpa using hju)
    · have hacc : latestPick acc (p, t) = acc := by
        simp [latestPick, hf, hgt]
      rw [hacc]
      obtain ⟨h1, h2, h3, h4⟩ := ih acc hf
      refine ⟨h1, h2, ?_, ?_⟩
      · intro j q u hj
        cases j with
        | zero =>
          simp only [List.getElem?_cons_zero, Option.some.injEq, Prod.mk.injEq] at hj
          omega
        | succ j => exact h3 j q u (by simpa using hj)
      · rcases h4 with h4 | ⟨k, hk1, hk2, hk3⟩
        · exact Or.inl h4
        · refine Or.inr ⟨k + 1, by simpa using hk1, hk2, ?_⟩
          intro j q u hj hju
          cases j with
          | zero =>
            simp only [List.getElem?_cons_zero, Option.some.injEq, Prod.mk.injEq] at hju
            omega
          | succ j => exact hk3 j q u (by omega) (by simpa using hju)

theorem latestPick_first (rs : List (F64 × Int)) (hne : rs ≠ []) :
    ∃ (k : Nat) (p : F64) (t : Int), rs[k]? = some (p, t) ∧
      rs.foldl latestPick { maxPrice := F64.fin 0, maxTime := 0, found := false } =
        { maxPrice := p, maxTime := t, found := true } ∧
      ∀ (j : Nat) (q : F64) (u : Int), rs[j]? = some (q, u) → u ≤ t ∧ (j < k → u < t) := by
  cases rs with
  | nil => exact absurd rfl hne
  | cons r rs =>
    obtain ⟨p, t⟩ := r
    have hacc : latestPick { maxPrice := F64.fin 0, maxTime := 0, found := false } (p, t) =
        { maxPrice := p, maxTime := t, found := true } := by
      simp [latestPick]
    rw [List.foldl_cons, hacc]
    obtain ⟨h1, h2, h3, h4⟩ := foldl_latestPick rs { maxPrice := p, maxTime := t, found := true } rfl
    generalize rs.foldl latestPick { maxPrice := p, maxTime := t, found := true } = r at h1 h2 h3 h4
    obtain ⟨rp, rt, rf⟩ := r
    simp only at h1 h2 h3 h4
    subst h1
    rcases h4 with h4 | ⟨k, hk1, hk2, hk3⟩
    · simp only [Latest.mk.injEq, and_true] at h4
      obtain ⟨hp, ht⟩ := h4
      subst hp ht
      refine ⟨0, rp, rt, by simp, rfl, ?_⟩
      intro j q u hj
      cases j with
      | zero =>
        simp only [List.getElem?_cons_zero, Option.some.injEq, Prod.mk.injEq] at hj
        exact ⟨by omega, fun h => absurd h (by omega)⟩
      | succ j => exact ⟨h3 j q u (by simpa using hj), fun h => absurd h (by omega)⟩
    · refine ⟨k + 1, rp, rt, by simpa using hk1, rfl, ?_⟩
      intro j q u hj
      cases j with
      | zero =>
        simp only [List.getElem?_cons_zero, Option.some.injEq, Prod.mk.injEq] at hj
        exact ⟨by omega, fun _ => by omega⟩
      | succ j =>
        exact ⟨h3 j q u (by simpa using hj), fun h => hk3 j q u (by omega) (by simpa using hj)⟩

/-- C12: for the keys it examines, `GetLatestPrice` returns the price of the
reply with the highest score among the replies of `ZREVRANGE key 0 0
WITHSCORES` that yield a result, the first such reply when several share the
highest score, and it returns the error "no prices found" exactly when no
reply yields a result; a failed command and a reply that does not parse are
skipped.  The keys are the single key `price:<exchange>:<symbol>` for a
non-empty exchange and the reply of `KEYS price:*:<symbol>` otherwise, whose
failure is returned as the error it is. -/
theorem getLatestPrice_highest_score {σ : Type} (exec : Exec σ)
    (parseFloat : Bytes → Option F64) (keys : List Bytes) (s : σ) (exchange symbol : Bytes) :
    let rs := (zrevReplies exec keys s).filterMap (yields parseFloat)
    let out := (latestFrom exec parseFloat keys s).1
    (out = PriceResult.noPricesFound ↔ rs = []) ∧
    (rs ≠ [] → ∃ (k : Nat) (p : F64) (t : Int), rs[k]? = some (p, t) ∧ out = PriceResult.ok p ∧
      ∀ (j : Nat) (q : F64) (u : Int), rs[j]? = some (q, u) → u ≤ t ∧ (j < k → u < t)) ∧
    (exchange ≠ [] →
      GetLatestPrice exec parseFloat s exchange symbol =
        latestFrom exec parseFloat [priceKey exchange symbol] s) ∧
    (exchange = [] →
      (∀ (resp : List Bytes) (s1 : σ),
        exec s (ascii "KEYS") [ascii "price:*:" ++ symbol] = (some resp, s1) →
        GetLatestPrice exec parseFloat s exchange symbol = latestFrom exec parseFloat resp s1) ∧
      (∀ s1 : σ, exec s (ascii "KEYS") [ascii "price:*:" ++ symbol] = (none, s1) →
        GetLatestPrice exec parseFloat s exchange symbol = (PriceResult.keysError, s1))) := by
  intro rs out
  have hout : out = if !(rs.foldl latestPick
        { maxPrice := F64.fin 0, maxTime := 0, found := false }).found
      then PriceResult.noPricesFound
      else PriceResult.ok (rs.foldl latestPick
        { maxPrice := F64.fin 0, maxTime := 0, found := false }).maxPrice := by
    show (latestFrom exec parseFloat keys s).1 = _
    simp only [latestFrom, latestLoop_eq, foldl_latestStep]
  refine ⟨?_, ?_, ?_, ?_⟩
  · constructor
    · intro h
      by_contra hne
      obtain ⟨k, p, t, _, hfold, _⟩ := latestPick_first rs hne
      rw [hout, hfold] at h
      simp at h
    · intro h
      rw [hout, h]
      rfl
  · intro hne
    obtain ⟨k, p, t, hk, hfold, hall⟩ := latestPick_first rs hne
    refine ⟨k, p, t, hk, ?_, hall⟩
    rw [hout, hfold]
    rfl
  · intro hex
    simp [GetLatestPrice, hex]
  · intro hex
    subst hex
    refine ⟨?_, ?_⟩
    · intro resp s1 h
      simp [GetLatestPrice, h]
    · intro s1 h
      simp [GetLatestPrice, h]

theorem digitsVal_foldl (l : Bytes) (v : Nat) :
    l.foldl (fun acc b => acc * 10 + (b - 48)) v = v * 10 ^ l.length + digitsVal l := by
  induction l generalizing v with
  | nil => simp [digitsVal]
  | cons b l ih =>
    rw [digitsVal, List.foldl_cons, ih, List.foldl_cons, ih (0 * 10 + (b - 48))]
    simp only [List.length_cons, Nat.pow_succ]
    ring

theorem digitsVal_append (a b : Bytes) :
    digitsVal (a ++ b) = digitsVal a * 10 ^ b.length + digitsVal b := by
  rw [digitsVal, List.foldl_append, digitsVal_foldl]
  rfl

theorem digitsVal_sixDigits (n : Nat) (h : n < 10 ^ 6) : digitsVal (sixDigits n) = n := by
  have h : n < 1000000 := h
  simp only [digitsVal, sixDigits, List.foldl_cons, List.foldl_nil]
  omega

theorem sixDigits_all (n : Nat) : (sixDigits n).all isDigit = true := by
  simp only [sixDigits, List.all_cons, List.all_nil, isDigit, Bool.and_true, Bool.and_eq_true,
    decide_eq_true_eq]
  omega

theorem sixDigits_length (n : Nat) : (sixDigits n).length = 6 := rfl

theorem takeWhile_digits (l r : Bytes) (hl : ∀ b ∈ l, 48 ≤ b ∧ b ≤ 57) :
    (l ++ 46 :: r).takeWhile isDigit = l ∧ (l ++ 46 :: r).dropWhile isDigit = 46 :: r := by
  induction l with
  | nil => simp [List.takeWhile, List.dropWhile, isDigit]
  | cons b l ih =>
    have hb : isDigit b = true := by simpa [isDigit] using hl b (List.mem_cons_self _ _)
    have := ih (fun c hc => hl c (List.mem_cons_of_mem _ hc))
    simp [List.takeWhile, List.dropWhile, hb, this]

theorem rneDiv_le (a d : Nat) : rneDiv a d ≤ a / d + 1 := by
  unfold rneDiv
  split <;> omega

theorem roundMag_le (a d : Nat) : roundMag a d ≤ 2 * (a / d) + 1 := by
  unfold roundMag
  generalize hs : bitLen (a / d) - 53 = s
  have h1 := rneDiv_le a (d * 2 ^ s)
  have h2 : a / (d * 2 ^ s) = a / d / 2 ^ s := (Nat.div_div_eq_div_mul a d (2 ^ s)).symm
  have hpos : 0 < 2 ^ s := Nat.two_pow_pos s
  have h3 : a / d / 2 ^ s * 2 ^ s ≤ a / d := Nat.div_mul_le_self _ _
  have h4 : 2 ^ s ≤ a / d + 1 := by
    by_cases hs0 : s = 0
    · subst hs0
      simp
    · have hq : a / d ≠ 0 := by
        intro h0
        rw [h0] at hs
        have : bitLen 0 = 0 := by decide
        omega
      have hb := (bitLen_spec (a / d)).2 hq
      have : 2 ^ s ≤ 2 ^ (bitLen (a / d) - 1) := Nat.pow_le_pow_right (by decide) (by omega)
      omega
  calc rneDiv a (d * 2 ^ s) * 2 ^ s ≤ (a / d / 2 ^ s + 1) * 2 ^ s := by
        apply Nat.mul_le_mul_right
        omega
    _ = a / d / 2 ^ s * 2 ^ s + 2 ^ s := by ring
    _ ≤ 2 * (a / d) + 1 := by omega

theorem round_fin (neg : Bool) (a d : Nat) (h : roundMag a d < 2 ^ 2098) :
    F64.round neg a d =
      F64.fin (if neg then -(roundMag a d : Int) else (roundMag a d : Int)) := by
  unfold F64.round
  rw [if_neg (Nat.not_le.2 h)]

theorem sixDecimals_exact (k : Int) (hd : (F64.fin k).isDouble = true)
    (hx : k.natAbs * 10 ^ 6 % 2 ^ 1074 = 0) : sixDecimals (F64.fin k) = F64.fin k := by
  simp only [F64.isDouble, decide_eq_true_eq] at hd
  have hP : 0 < 2 ^ 1074 := Nat.two_pow_pos 1074
  have hM : 0 < 10 ^ 6 := Nat.pow_pos (by decide)
  show F64.round (decide (k < 0)) (rneDiv (k.natAbs * 10 ^ 6) (2 ^ 1074) * 2 ^ 1074) (10 ^ 6) = _
  rw [rneDiv_of_mod_eq_zero _ _ hP hx, Nat.div_mul_cancel (Nat.dvd_of_mod_eq_zero hx),
    round_fin _ _ _ (by
      rw [roundMag_mul_right _ _ hM, roundMag_of_representable _ hd.1]
      exact hd.2),
    roundMag_mul_right _ _ hM, roundMag_of_representable _ hd.1]
  exact congrArg F64.fin (signed_natAbs k)

theorem sixDecimals_fin (k : Int) (hd : (F64.fin k).isDouble = true) :
    ∃ r : Int, sixDecimals (F64.fin k) = F64.fin r := by
  by_cases hsmall : k.natAbs < 2 ^ 2096
  · have hP : 0 < 2 ^ 1074 := Nat.two_pow_pos 1074
    have hM : 0 < 10 ^ 6 := Nat.pow_pos (by decide)
    refine ⟨_, round_fin _ _ _ ?_⟩
    have h1 := roundMag_le (rneDiv (k.natAbs * 10 ^ 6) (2 ^ 1074) * 2 ^ 1074) (10 ^ 6)
    have h2 := rneDiv_le (k.natAbs * 10 ^ 6) (2 ^ 1074)
    have h3 : k.natAbs * 10 ^ 6 / 2 ^ 1074 * 2 ^ 1074 ≤ k.natAbs * 10 ^ 6 :=
      Nat.div_mul_le_self _ _
    have h4 : rneDiv (k.natAbs * 10 ^ 6) (2 ^ 1074) * 2 ^ 1074 ≤
        10 ^ 6 * (k.natAbs + 2 ^ 1074) := by
      calc rneDiv (k.natAbs * 10 ^ 6) (2 ^ 1074) * 2 ^ 1074
          ≤ (k.natAbs * 10 ^ 6 / 2 ^ 1074 + 1) * 2 ^ 1074 := Nat.mul_le_mul_right _ h2
        _ = k.natAbs * 10 ^ 6 / 2 ^ 1074 * 2 ^ 1074 + 2 ^ 1074 := by ring
        _ ≤ k.natAbs * 10 ^ 6 + 2 ^ 1074 := by omega
        _ ≤ k.natAbs * 10 ^ 6 + 2 ^ 1074 * 10 ^ 6 := by
          apply Nat.add_le_add_left
          exact Nat.le_mul_of_pos_right _ hM
        _ = 10 ^ 6 * (k.natAbs + 2 ^ 1074) := by ring
    have h5 : rneDiv (k.natAbs * 10 ^ 6) (2 ^ 1074) * 2 ^ 1074 / 10 ^ 6 ≤ k.natAbs + 2 ^ 1074 :=
      Nat.div_le_of_le_mul h4
    have e1 : 2 * (2 ^ 2096 + 2 ^ 1074) + 1 ≤ 2 ^ 2098 := by norm_num
    calc roundMag (rneDiv (k.natAbs * 10 ^ 6) (2 ^ 1074) * 2 ^ 1074) (10 ^ 6)
        ≤ 2 * (rneDiv (k.natAbs * 10 ^ 6) (2 ^ 1074) * 2 ^ 1074 / 10 ^ 6) + 1 := h1
      _ ≤ 2 * (k.natAbs + 2 ^ 1074) + 1 := by
        apply Nat.add_le_add_right
        exact Nat.mul_le_mul_left _ h5
      _ < 2 * (2 ^ 2096 + 2 ^ 1074) + 1 := by
        apply Nat.add_lt_add_right
        apply Nat.mul_lt_mul_of_pos_left _ (by decide)
        exact Nat.add_lt_add_right hsmall _
      _ ≤ 2 ^ 2098 := e1
  · refine ⟨k, sixDecimals_exact k hd ?_⟩
    have hd2 := hd
    simp only [F64.isDouble, decide_eq_true_eq] at hd2
    have hge : 2 ^ 2096 ≤ k.natAbs := Nat.not_lt.1 hsmall
    have hlt := (bitLen_spec k.natAbs).1
    have hb : 2096 < bitLen k.natAbs := by
      by_contra hcon
      have : 2 ^ bitLen k.natAbs ≤ 2 ^ 2096 := Nat.pow_le_pow_right (by decide) (by omega)
      exact absurd (Nat.lt_of_lt_of_le hlt this) (Nat.not_lt.2 hge)
    have hdvd : 2 ^ 1074 ∣ k.natAbs :=
      Nat.dvd_trans (Nat.pow_dvd_pow 2 (by omega)) (Nat.dvd_of_mod_eq_zero hd2.1)
    exact Nat.mod_eq_zero_of_dvd (Dvd.dvd.mul_right hdvd _)

theorem parseUnsigned_fixed (neg : Bool) (q r : Nat) (hr : r < 10 ^ 6) :
    parseUnsigned neg (decimal q ++ [46] ++ sixDigits r) =
      some (finiteOnly (F64.round neg ((q * 10 ^ 6 + r) * 2 ^ 1074) (10 ^ 6))) := by
  obtain ⟨d, l, h1, h2, h3⟩ := decimal_digits q
  have hall : ∀ b ∈ decimal q, 48 ≤ b ∧ b ≤ 57 := by
    rw [h1]
    intro b hb
    rcases List.mem_cons.1 hb with rfl | hb
    · exact h2
    · exact h3 b hb
  obtain ⟨ht, hdw⟩ := takeWhile_digits (decimal q) (sixDigits r) hall
  have happ : decimal q ++ [46] ++ sixDigits r = decimal q ++ 46 :: sixDigits r := by simp
  have hne : decimal q ++ sixDigits r ≠ [] := by rw [h1]; simp
  unfold parseUnsigned
  rw [happ, hdw, ht]
  simp only [sixDigits_all, hne, ne_eq, not_false_eq_true, and_self, if_true, sixDigits_length]
  rw [digitsVal_append, digitsVal_decimal, digitsVal_sixDigits r hr, sixDigits_length]

theorem parsePlain_formatF (k : Int) :
    parsePlain (formatF (F64.fin k)) = some (finiteOnly (sixDecimals (F64.fin k))) := by
  have hmod : rneDiv (k.natAbs * 10 ^ 6) (2 ^ 1074) % 10 ^ 6 < 10 ^ 6 :=
    Nat.mod_lt _ (Nat.pow_pos (by decide))
  have hsplit : rneDiv (k.natAbs * 10 ^ 6) (2 ^ 1074) / 10 ^ 6 * 10 ^ 6 +
      rneDiv (k.natAbs * 10 ^ 6) (2 ^ 1074) % 10 ^ 6 = rneDiv (k.natAbs * 10 ^ 6) (2 ^ 1074) :=
    Nat.div_add_mod' _ _
  by_cases hk : k < 0
  · simp only [formatF, if_pos hk, List.singleton_append, List.cons_append, parsePlain,
      if_true]
    have := parseUnsigned_fixed true (rneDiv (k.natAbs * 10 ^ 6) (2 ^ 1074) / 10 ^ 6) _ hmod
    simp only [List.append_assoc, List.singleton_append, List.nil_append] at this ⊢
    rw [this, hsplit]
    simp [sixDecimals, hk]
  · obtain ⟨d, l, h1, h2, h3⟩ := decimal_digits (rneDiv (k.natAbs * 10 ^ 6) (2 ^ 1074) / 10 ^ 6)
    have hform : formatF (F64.fin k) =
        decimal (rneDiv (k.natAbs * 10 ^ 6) (2 ^ 1074) / 10 ^ 6) ++ [46] ++
          sixDigits (rneDiv (k.natAbs * 10 ^ 6) (2 ^ 1074) % 10 ^ 6) := by
      simp [formatF, hk]
    have hpp : parsePlain (formatF (F64.fin k)) = parseUnsigned false (formatF (F64.fin k)) := by
      rw [hform, h1]
      have h45 : d ≠ 45 := by omega
      have h43 : d ≠ 43 := by omega
      simp [parsePlain, h45, h43]
    rw [hpp, hform, parseUnsigned_fixed false _ _ hmod, hsplit]
    simp [sixDecimals, hk]

theorem zTop_foldl_keep (l : List (Bytes × Int)) (b : Bytes × Int)
    (h : ∀ e ∈ l, e.2 < b.2) :
    l.foldl
      (fun best e =>
        match best with
        | none => some e
        | some b => if b.2 < e.2 ∨ (b.2 = e.2 ∧ bytesLt b.1 e.1 = true) then some e else some b)
      (some b) = some b := by
  induction l with
  | nil => rfl
  | cons e l ih =>
    have he := h e (List.mem_cons_self _ _)
    have hnot : ¬ (b.2 < e.2 ∨ (b.2 = e.2 ∧ bytesLt b.1 e.1 = true)) := by
      rintro (h1 | ⟨h1, _⟩) <;> omega
    rw [List.foldl_cons]
    simp only [if_neg hnot]
    exact ih (fun x hx => h x (List.mem_cons_of_mem _ hx))

theorem zTop_zadd (set : List (Bytes × Int)) (score : Int) (member : Bytes)
    (h : ∀ e ∈ set, e.1 = member ∨ e.2 < score) :
    zTop (zadd set score member) = some (member, score) := by
  unfold zTop zadd
  rw [List.foldl_cons]
  apply zTop_foldl_keep
  intro e he
  simp only [List.mem_filter, decide_eq_true_eq] at he
  rcases h e he.1 with h1 | h1
  · exact absurd h1 he.2
  · exact h1

theorem scoreText_nat (n : Nat) : scoreText (n : Int) = decimal n := by
  have : ¬ ((n : Int) < 0) := by omega
  simp [scoreText, this]

theorem ascii_ne_1 : ascii "EXPIRE" ≠ ascii "ZADD" := by decide

theorem ascii_ne_2 : ascii "ZREVRANGE" ≠ ascii "ZADD" := by decide

theorem ascii_ne_3 : ascii "ZREVRANGE" ≠ ascii "EXPIRE" := by decide

theorem addPrice_store (st : Store) (now : Nat) (exchange symbol : Bytes) (price : F64)
    (hnow : now < 2 ^ 63) :
    AddPrice storeExec now st exchange symbol price =
      (true, fun k => if k = priceKey exchange symbol then
        zadd (st (priceKey exchange symbol)) (now : Int) (formatF price) else st k) := by
  simp [AddPrice, storeExec, atoi_decimal now hnow, ascii_ne_1]

theorem latest_store (parseFloat : Bytes → Option F64) (st : Store) (exchange symbol : Bytes)
    (hex : exchange ≠ []) (member : Bytes) (score : Nat) (x : F64)
    (htop : zTop (st (priceKey exchange symbol)) = some (member, (score : Int)))
    (hscore : score < 2 ^ 63) (hparse : parseFloat member = some x) :
    (GetLatestPrice storeExec parseFloat st exchange symbol).1 = PriceResult.ok x := by
  simp [GetLatestPrice, hex, latestFrom, latestLoop, storeExec, ascii_ne_2, ascii_ne_3, htop,
    latestStep, hparse, scoreText_nat, atoi_decimal score hscore]

/-- C13, counterexample: the price `0.1234567` is written as the member
`0.123457`, so the query that follows at once returns the binary64 value of
`0.123457`, not the price that was passed in.  And when `9.5` and then `10.5`
are written for the same key within the same second, both members carry the
same score and the query returns `9.5`, not the price written last. -/
theorem addPrice_six_decimals_only :
    formatF sevenDecimals = ascii "0.123457" ∧
    (GetLatestPrice storeExec plainParseFloat
      (AddPrice storeExec 1700000000 emptyStore (ascii "binance") (ascii "BTCUSDT")
        sevenDecimals).2 (ascii "binance") (ascii "BTCUSDT")).1 =
      PriceResult.ok sevenDecimalsRounded ∧
    sevenDecimalsRounded ≠ sevenDecimals ∧
    (GetLatestPrice storeExec plainParseFloat
      (AddPrice storeExec 1700000000
        (AddPrice storeExec 1700000000 emptyStore (ascii "binance") (ascii "BTCUSDT")
          nineAndHalf).2 (ascii "binance") (ascii "BTCUSDT") tenAndHalf).2
      (ascii "binance") (ascii "BTCUSDT")).1 = PriceResult.ok nineAndHalf := by
  decide!

/-- C13, amended: on a store with sorted-set semantics, for a non-empty
exchange and a finite price, `AddPrice` at the second `now` succeeds, and the
`GetLatestPrice` that follows at once for the same exchange and symbol reads
the key `price:<exchange>:<symbol>` that `AddPrice` wrote and returns the
binary64 value nearest to the price rounded to six decimals, provided every
other member of that key has a score below `now`.  That value is the price
itself whenever the price has no more than six decimals, that is when `10^6`
times the price is an integer.  `strconv.ParseFloat` enters through its
behaviour on plain decimal texts. -/
theorem addPrice_then_getLatestPrice (parseFloat : Bytes → Option F64) (st : Store)
    (now : Nat) (exchange symbol : Bytes) (k : Int)
    (hpf : ∀ (t : Bytes) (r : Option F64), parsePlain t = some r → parseFloat t = r)
    (hex : exchange ≠ []) (hnow : now < 2 ^ 63) (hk : (F64.fin k).isDouble = true)
    (hrecent : ∀ e ∈ st (priceKey exchange symbol),
      e.1 = formatF (F64.fin k) ∨ e.2 < (now : Int)) :
    (AddPrice storeExec now st exchange symbol (F64.fin k)).1 = true ∧
    (GetLatestPrice storeExec parseFloat
      (AddPrice storeExec now st exchange symbol (F64.fin k)).2 exchange symbol).1 =
      PriceResult.ok (sixDecimals (F64.fin k)) ∧
    (k.natAbs * 10 ^ 6 % 2 ^ 1074 = 0 → sixDecimals (F64.fin k) = F64.fin k) := by
  rw [addPrice_store st now exchange symbol _ hnow]
  refine ⟨rfl, ?_, sixDecimals_exact k hk⟩
  obtain ⟨r, hr⟩ := sixDecimals_fin k hk
  apply latest_store parseFloat _ exchange symbol hex (formatF (F64.fin k)) now _ _ hnow
  · apply hpf
    rw [parsePlain_formatF, hr]
    rfl
  · simp only [if_true]
    exact zTop_zadd _ _ _ hrecent

theorem addPrice_then_getLatestPrice_witness :
    (AddPrice storeExec 1700000000 emptyStore (ascii "binance") (ascii "BTCUSDT")
      (F64.fin (21 * 2 ^ 1073))).1 = true ∧
    (GetLatestPrice storeExec plainParseFloat
      (AddPrice storeExec 1700000000 emptyStore (ascii "binance") (ascii "BTCUSDT")
        (F64.fin (21 * 2 ^ 1073))).2 (ascii "binance") (ascii "BTCUSDT")).1 =
      PriceResult.ok (sixDecimals (F64.fin (21 * 2 ^ 1073))) ∧
    ((21 * 2 ^ 1073 : Int).natAbs * 10 ^ 6 % 2 ^ 1074 = 0 →
      sixDecimals (F64.fin (21 * 2 ^ 1073)) = F64.fin (21 * 2 ^ 1073)) :=
  addPrice_then_getLatestPrice plainParseFloat emptyStore 1700000000 (ascii "binance")
    (ascii "BTCUSDT") (21 * 2 ^ 1073)
    (by intro t r h; simp [plainParseFloat, h]) (by decide) (by decide) (by decide!)
    (by intro e he; cases he)

/-! ## The workers of a shard, step by step -/

theorem updateBucket_bucket_same (w : Int) (now : Nat) (u : PriceUpdate) (s : Shard) :
    bucket u.Symbol (updateBucket w now u s)
      = if 5 ≤ (bucket u.Symbol s ++ [u.Price]).length then []
        else bucket u.Symbol s ++ [u.Price] := by
  rw [bucket_set_same u.Symbol _ _ _ (updateBucket_stats w now u s)]

theorem updateBucket_bucket_other (w : Int) (now : Nat) (u : PriceUpdate) (s : Shard)
    (S : String) (hS : S ≠ u.Symbol) : bucket S (updateBucket w now u s) = bucket S s := by
  rw [bucket_set_other u.Symbol S _ _ _ (updateBucket_stats w now u s) hS]

/-- What a bucket update adds to the history: the aggregate of the five bucket
prices, of the symbol of the update, at the threshold; nothing below it. -/
theorem updateBucket_emitted (w : Int) (now : Nat) (u : PriceUpdate) (s : Shard) :
    (5 ≤ (bucket u.Symbol s ++ [u.Price]).length →
      ∃ agg, agg.Symbol = u.Symbol ∧ agg.Exchange = u.Exchange ∧ agg.Typ = "aggregated" ∧
        aggregate F64.ofNat (bucket u.Symbol s ++ [u.Price])
          = some (agg.MinPrice, agg.MaxPrice, agg.AvgPrice) ∧
        (updateBucket w now u s).emitted
          = s.emitted ++ [(bucket u.Symbol s ++ [u.Price], agg)]) ∧
    (¬ 5 ≤ (bucket u.Symbol s ++ [u.Price]).length →
      (updateBucket w now u s).emitted = s.emitted) := by
  constructor
  · intro h5
    obtain ⟨agg, h1, h2⟩ := updateBucket_emitted_full w now u s h5
    obtain ⟨agg', h3, h4, h5, h6, _, h7⟩ :=
      mkAggregate_ne_nil (bucket u.Symbol s ++ [u.Price]) u now (by simp)
    have : agg = agg' := Option.some.inj (h1.symm.trans h3)
    subst this
    exact ⟨agg, h5, h4, h6, h7, h2⟩
  · intro h5
    exact (updateBucket_not_full w now u s h5).1

theorem updateBucket_partition (w : Int) (now : Nat) (u : PriceUpdate) (s : Shard)
    (S : String) :
    (emittedFor S (updateBucket w now u s).emitted).flatten ++ bucket S (updateBucket w now u s)
      = ((emittedFor S s.emitted).flatten ++ bucket S s)
          ++ (if u.Symbol = S then [u.Price] else []) := by
  obtain ⟨hfull, hnot⟩ := updateBucket_emitted w now u s
  by_cases hS : u.Symbol = S
  · subst hS
    rw [updateBucket_bucket_same, if_pos rfl]
    by_cases h5 : 5 ≤ (bucket u.Symbol s ++ [u.Price]).length
    · obtain ⟨agg, h1, _, _, _, h2⟩ := hfull h5
      rw [h2, emittedFor_append, if_pos h1, if_pos h5]
      simp
    · rw [hnot h5, if_neg h5]; simp
  · rw [updateBucket_bucket_other w now u s S (Ne.symm hS), if_neg hS]
    by_cases h5 : 5 ≤ (bucket u.Symbol s ++ [u.Price]).length
    · obtain ⟨agg, h1, _, _, _, h2⟩ := hfull h5
      rw [h2, emittedFor_append, if_neg (by rw [h1]; exact hS)]
      simp
    · rw [hnot h5]; simp

theorem updateBucket_bucketsOk (X : String) (w : Int) (now : Nat) (u : PriceUpdate) (s : Shard)
    (hX : u.Exchange = X) (hok : BucketsOk X s) : BucketsOk X (updateBucket w now u s) := by
  intro k v hk
  rw [updateBucket_stats] at hk
  by_cases hks : k = u.Symbol
  · subst hks
    rw [statsGet_set_same] at hk
    cases hk
    refine ⟨rfl, hX, ?_⟩
    dsimp only
    split
    · exact Nat.zero_le _
    · omega
  · rw [statsGet_set_other _ _ _ _ hks] at hk
    exact hok k v hk

theorem updateBucket_emittedOk (X : String) (w : Int) (now : Nat) (u : PriceUpdate) (s : Shard)
    (hX : u.Exchange = X) (hem : EmittedOk X s) : EmittedOk X (updateBucket w now u s) := by
  obtain ⟨hfull, hnot⟩ := updateBucket_emitted w now u s
  by_cases h5 : 5 ≤ (bucket u.Symbol s ++ [u.Price]).length
  · obtain ⟨agg, _, h2, h3, h4, h6⟩ := hfull h5
    intro e he
    rw [h6, List.mem_append, List.mem_singleton] at he
    rcases he with he | rfl
    · exact hem e he
    · exact ⟨by simp, by rw [h2]; exact hX, h3, h4⟩
  · intro e he
    rw [hnot h5] at he
    exact hem e he

theorem pricesFor_append (X S : String) (us : List PriceUpdate) (u : PriceUpdate) :
    pricesFor X S (us ++ [u])
      = pricesFor X S us ++ (if u.Exchange = X ∧ u.Symbol = S then [u.Price] else []) := by
  unfold pricesFor
  by_cases h : u.Exchange = X ∧ u.Symbol = S <;> simp [List.filter_append, List.filter_cons, h]

theorem workersOk_set (X : String) (ws : List Phase) (w : Nat) (ph : Phase)
    (hws : WorkersOk X ws) (hph : ∀ u ∈ ph.held, u.Exchange = X) :
    WorkersOk X (ws.set w ph) := by
  intro q hq
  rcases List.mem_or_eq_of_mem_set hq with h | h
  · exact hws q h
  · rw [h]; exact hph

theorem workersOk_get (X : String) (ws : List Phase) (w : Nat) (ph : Phase)
    (hws : WorkersOk X ws) (h : ws[w]? = some ph) : ∀ u ∈ ph.held, u.Exchange = X :=
  hws ph (List.getElem?_mem h)

/-- Replacing the phase of one worker exchanges what that worker holds. -/
theorem heldBy_set (ws : List Phase) (w : Nat) (old new : Phase) (h : ws[w]? = some old) :
    (heldBy (ws.set w new) ++ old.held).Perm (heldBy ws ++ new.held) := by
  induction ws generalizing w with
  | nil => simp at h
  | cons ph ws ih =>
    cases w with
    | zero =>
      simp only [List.getElem?_cons_zero, Option.some.injEq] at h
      subst h
      simp only [heldBy, List.set_cons_zero, List.map_cons, List.flatten_cons,
        List.append_assoc]
      exact List.perm_append_comm.trans
        (by rw [List.append_assoc]; exact List.perm_append_comm_assoc _ _ _)
    | succ w =>
      simp only [List.getElem?_cons_succ] at h
      have := ih w h
      simp only [heldBy, List.set_cons_succ, List.map_cons, List.flatten_cons,
        List.append_assoc] at this ⊢
      exact List.Perm.append_left _ this

theorem workerStep_inv (X : String) (p : WorkerPool) (e : WorkerEvent)
    (h : WorkerPoolOk X p) : WorkerPoolOk X (workerStep X p e) := by
  obtain ⟨hok, hem, hws, hpart, hperm⟩ := h
  cases e with
  | receive w u =>
    cases hw : p.workers[w]? with
    | none => simp only [workerStep, hw]; exact ⟨hok, hem, hws, hpart, hperm⟩
    | some ph =>
      cases ph with
      | idle =>
        by_cases hX : u.Exchange = X
        · simp only [workerStep, hw, ne_eq, hX, not_true_eq_false, if_false]
          refine ⟨hok, hem, workersOk_set X _ w _ hws ?_, hpart, ?_⟩
          · intro v hv
            simp only [Phase.held, List.mem_singleton] at hv
            rw [hv]; exact hX
          · have h1 := heldBy_set p.workers w Phase.idle (Phase.atRedis u) hw
            simp only [Phase.held, List.append_nil] at h1
            simp only [List.filter_append, List.filter_cons, hX, decide_True, if_true,
              List.filter_nil]
            exact ((List.Perm.append_left p.handled h1).trans
              (by rw [← List.append_assoc])).trans (List.Perm.append_right _ hperm)
        · simp only [workerStep, hw, ne_eq, hX, not_false_eq_true, if_true]
          refine ⟨hok, hem, hws, hpart, ?_⟩
          simpa [List.filter_append, List.filter_cons, hX] using hperm
      | atRedis v => simp only [workerStep, hw]; exact ⟨hok, hem, hws, hpart, hperm⟩
      | atPG v => simp only [workerStep, hw]; exact ⟨hok, hem, hws, hpart, hperm⟩
      | atLock v => simp only [workerStep, hw]; exact ⟨hok, hem, hws, hpart, hperm⟩
  | proceed w now =>
    cases hw : p.workers[w]? with
    | none => simp only [workerStep, hw]; exact ⟨hok, hem, hws, hpart, hperm⟩
    | some ph =>
      have hheld := workersOk_get X p.workers w ph hws hw
      cases ph with
      | idle => simp only [workerStep, hw]; exact ⟨hok, hem, hws, hpart, hperm⟩
      | atRedis v =>
        simp only [workerStep, hw]
        have h1 := heldBy_set p.workers w (Phase.atRedis v) (Phase.atPG v) hw
        simp only [Phase.held] at h1
        refine ⟨?_, ?_, workersOk_set X _ w _ hws hheld, ?_, ?_⟩
        · intro k st hk; exact hok k st (by rwa [sendRedis_stats] at hk)
        · intro a ha; exact hem a (by rwa [sendRedis_emitted] at ha)
        · intro S
          rw [sendRedis_emitted, bucket_congr S _ _ (sendRedis_stats v p.shard)]
          exact hpart S
        · exact (List.Perm.append_left p.handled
            ((List.perm_append_right_iff [v]).1 h1)).trans hperm
      | atPG v =>
        simp only [workerStep, hw]
        have h1 := heldBy_set p.workers w (Phase.atPG v) (Phase.atLock v) hw
        simp only [Phase.held] at h1
        refine ⟨?_, ?_, workersOk_set X _ w _ hws hheld, ?_, ?_⟩
        · intro k st hk; exact hok k st (by rwa [sendPG_stats] at hk)
        · intro a ha; exact hem a (by rwa [sendPG_emitted] at ha)
        · intro S
          rw [sendPG_emitted, bucket_congr S _ _ (sendPG_stats v p.shard)]
          exact hpart S
        · exact (List.Perm.append_left p.handled
            ((List.perm_append_right_iff [v]).1 h1)).trans hperm
      | atLock v =>
        have hX : v.Exchange = X := hheld v (by simp [Phase.held])
        simp only [workerStep, hw]
        have h1 := heldBy_set p.workers w (Phase.atLock v) Phase.idle hw
        simp only [Phase.held, List.append_nil] at h1
        refine ⟨updateBucket_bucketsOk X _ now v _ hX hok,
          updateBucket_emittedOk X _ now v _ hX hem,
          workersOk_set X _ w _ hws (by simp [Phase.held]), ?_, ?_⟩
        · intro S
          rw [updateBucket_partition, hpart S, pricesFor_append]
          by_cases hS : v.Symbol = S <;> simp [hX, hS]
        · rw [List.append_assoc]
          exact (List.Perm.append_left p.handled
            (List.perm_append_comm.trans h1)).trans hperm
  | flush rank now =>
    obtain ⟨h1, h2, h3⟩ := flushFold_inv X now
      ((p.shard.stats.map Prod.fst).insertionSort (fun a b => rank a ≤ rank b)) p.shard hok hem
    exact ⟨h1, h2, hws, fun S => (h3 S).trans (hpart S), hperm⟩
  | recvRedis => exact ⟨hok, hem, hws, hpart, hperm⟩
  | recvPG => exact ⟨hok, hem, hws, hpart, hperm⟩

theorem workerStep_new (X : String) (p : WorkerPool) (e : WorkerEvent)
    (hok : BucketsOk X p.shard) :
    ∃ new, (workerStep X p e).shard.emitted = p.shard.emitted ++ new ∧
      ∀ n ∈ new, bucket n.2.Symbol (workerStep X p e).shard = [] := by
  cases e with
  | receive w u =>
    refine ⟨[], ?_, by simp⟩
    cases hw : p.workers[w]? with
    | none => simp [workerStep, hw]
    | some ph =>
      cases ph <;> simp only [workerStep, hw, List.append_nil]
      split <;> rfl
  | proceed w now =>
    cases hw : p.workers[w]? with
    | none => exact ⟨[], by simp [workerStep, hw], by simp⟩
    | some ph =>
      cases ph with
      | idle => exact ⟨[], by simp [workerStep, hw], by simp⟩
      | atRedis v => exact ⟨[], by simp [workerStep, hw, sendRedis_emitted], by simp⟩
      | atPG v => exact ⟨[], by simp [workerStep, hw, sendPG_emitted], by simp⟩
      | atLock v =>
        simp only [workerStep, hw]
        obtain ⟨hfull, hnot⟩ := updateBucket_emitted (w : Int) now v p.shard
        by_cases h5 : 5 ≤ (bucket v.Symbol p.shard ++ [v.Price]).length
        · obtain ⟨agg, h1, _, _, _, h2⟩ := hfull h5
          refine ⟨_, h2, ?_⟩
          intro n hn
          rw [List.mem_singleton] at hn
          subst hn
          dsimp only
          rw [h1, updateBucket_bucket_same, if_pos h5]
        · exact ⟨[], by rw [hnot h5]; simp, by simp⟩
  | flush rank now => exact flushFold_new X now _ p.shard hok
  | recvRedis => exact ⟨[], by simp [workerStep], by simp⟩
  | recvPG => exact ⟨[], by simp [workerStep], by simp⟩

theorem workerRun_inv (X : String) (evs : List WorkerEvent) (p : WorkerPool)
    (h : WorkerPoolOk X p) : WorkerPoolOk X (workerRun X p evs) := by
  induction evs generalizing p with
  | nil => exact h
  | cons e evs ih => exact ih (workerStep X p e) (workerStep_inv X p e h)

theorem workerPool_init_ok (X : String) (cR cP : Chan) :
    WorkerPoolOk X (WorkerPool.init cR cP) := by
  obtain ⟨h1, h2⟩ := init_ok X cR cP
  refine ⟨h1, h2, ?_, ?_, ?_⟩
  · intro ph hph u hu
    have hidle : ph = Phase.idle := List.eq_of_mem_replicate hph
    subst hidle
    simp [Phase.held] at hu
  · intro S
    simp [WorkerPool.init, Shard.init, emittedFor, bucket, statsGet, pricesFor]
  · simp [WorkerPool.init, heldBy, Phase.held]

theorem workerRun_append (X : String) (p : WorkerPool) (evs : List WorkerEvent)
    (e : WorkerEvent) : workerRun X p (evs ++ [e]) = workerStep X (workerRun X p evs) e := by
  simp [workerRun, List.foldl_append]

/-- An iteration that a worker runs without interruption acts on the shard as
`handleTick` does, and leaves the worker ready to receive. -/
theorem iteration_eq_handleTick (X : String) (p : WorkerPool) (w now : Nat) (u : PriceUpdate)
    (hw : p.workers[w]? = some Phase.idle) :
    (workerRun X p (iteration w now u)).shard = handleTick X (w : Int) now u p.shard ∧
    (workerRun X p (iteration w now u)).workers[w]? = some Phase.idle := by
  have hlt : w < p.workers.length := by
    by_contra hlt
    rw [List.getElem?_eq_none (Nat.le_of_not_lt hlt)] at hw
    cases hw
  by_cases hX : u.Exchange = X
  · simp [workerRun, iteration, workerStep, hw, hX, handleTick, hlt]
  · simp [workerRun, iteration, workerStep, hw, hX, handleTick]

/-- C3, counterexample: six ticks of `(kucoin, SOLUSDT)`, priced 1 to 6, arrive
at the shard in that order.  The worker that received the second tick is
overtaken before it takes `statsMu`: the one aggregate that is emitted is
computed over the prices 1, 3, 4, 5, 6, which are not consecutive in the order
of arrival, and the price 2, which arrived before four of them, is left in the
bucket for the next aggregate. -/
theorem aggregate_not_contiguous_in_arrival_order :
    pricesFor "kucoin" "SOLUSDT"
        (workerRun "kucoin" (WorkerPool.init ⟨100, []⟩ ⟨100, []⟩) overtaking).arrived
      = [price 1, price 2, price 3, price 4, price 5, price 6] ∧
    emittedFor "SOLUSDT"
        (workerRun "kucoin" (WorkerPool.init ⟨100, []⟩ ⟨100, []⟩) overtaking).shard.emitted
      = [[price 1, price 3, price 4, price 5, price 6]] ∧
    bucket "SOLUSDT" (workerRun "kucoin" (WorkerPool.init ⟨100, []⟩ ⟨100, []⟩) overtaking).shard
      = [price 2] ∧
    ¬ [price 1, price 3, price 4, price 5, price 6] <:+:
        [price 1, price 2, price 3, price 4, price 5, price 6] := by
  decide!

/-- C3, amended.  Run any interleaving of the steps of the ten workers, of
flushes and of queue receives from the state that `startWorkerPool` creates for
exchange `X`.  For every symbol `S` the slices of the aggregates emitted for
`S`, in order of emission and followed by the prices still in the bucket of
`S`, are exactly the prices of the ticks of `(X, S)` in the order in which the
workers appended them under `statsMu`: each aggregate is computed over the
consecutive prices appended after the previous aggregate for `S`, and no price
is used twice.  Every emitted aggregate is of exchange `X` and is the aggregate
of its non-empty slice, and the step that emits an aggregate leaves the bucket
of its symbol empty.  The ticks appended so far, together with those that a
worker has received and still holds, are the ticks of exchange `X` that have
arrived, each once. -/
theorem aggregates_partition_handled (X : String) (cR cP : Chan) (evs : List WorkerEvent)
    (S : String) (e : WorkerEvent) :
    (emittedFor S (workerRun X (WorkerPool.init cR cP) evs).shard.emitted).flatten
        ++ bucket S (workerRun X (WorkerPool.init cR cP) evs).shard
      = pricesFor X S (workerRun X (WorkerPool.init cR cP) evs).handled ∧
    (∀ a ∈ (workerRun X (WorkerPool.init cR cP) evs).shard.emitted,
      a.1 ≠ [] ∧ a.2.Exchange = X ∧ a.2.Typ = "aggregated" ∧
      aggregate F64.ofNat a.1 = some (a.2.MinPrice, a.2.MaxPrice, a.2.AvgPrice)) ∧
    (∃ new, (workerRun X (WorkerPool.init cR cP) (evs ++ [e])).shard.emitted
          = (workerRun X (WorkerPool.init cR cP) evs).shard.emitted ++ new ∧
      ∀ n ∈ new, bucket n.2.Symbol (workerRun X (WorkerPool.init cR cP) (evs ++ [e])).shard
        = []) ∧
    ((workerRun X (WorkerPool.init cR cP) evs).handled
        ++ heldBy (workerRun X (WorkerPool.init cR cP) evs).workers).Perm
      ((workerRun X (WorkerPool.init cR cP) evs).arrived.filter
        (fun u => decide (u.Exchange = X))) := by
  obtain ⟨h1, h2, _, h4, h5⟩ := workerRun_inv X evs _ (workerPool_init_ok X cR cP)
  refine ⟨h4 S, h2, ?_, h5⟩
  rw [workerRun_append]
  exact workerStep_new X _ e h1

end Marketflow
